import Mathlib

/-!
# Transactional state overlay (`lib/runtime/storage/trie.go`)

A shallow embedding of `TrieState`: an underlying trie plus a stack of
`storageDiff` change sets.  Go byte strings are lists of naturals; a Go
`[]byte` value that may be `nil` is an `Option`.  The stack of open
transactions is a list whose head is the innermost transaction
(`transactions.Back()`).
-/

namespace Gossamer

/-- A storage key: the bytes of the Go `string(key)`, ordered lexicographically. -/
abbrev Key := List Nat

/-- A Go `[]byte` value; `none` is the `nil` slice. -/
abbrev Value := Option (List Nat)

/-! ## Go maps and sets as sorted association lists -/

/-- Assignment `m[k] = v` on a map kept as a key-sorted association list. -/
def mapPut {β : Type} (k : Key) (v : β) : List (Key × β) → List (Key × β)
  | [] => [(k, v)]
  | (k', v') :: rest =>
    if k < k' then (k, v) :: (k', v') :: rest
    else if k = k' then (k, v) :: rest
    else (k', v') :: mapPut k v rest

/-- Removal `delete(m, k)`. -/
def mapDel {β : Type} (k : Key) (m : List (Key × β)) : List (Key × β) :=
  m.filter (fun e => decide (e.1 ≠ k))

/-- Lookup `m[k]` with the comma-ok flag as an `Option`. -/
def mapGet {β : Type} (k : Key) : List (Key × β) → Option β
  | [] => none
  | (k', v') :: rest => if k = k' then some v' else mapGet k rest

/-- The keys of a map, in ascending order for a sorted map. -/
def mapKeys {β : Type} (m : List (Key × β)) : List Key :=
  m.map Prod.fst

/-- Insertion into a set of keys kept as a sorted list without repetition. -/
def setAdd (k : Key) : List Key → List Key
  | [] => [k]
  | k' :: rest =>
    if k < k' then k :: k' :: rest
    else if k = k' then k' :: rest
    else k' :: setAdd k rest

/-- Removal from a set of keys. -/
def setDel (k : Key) (s : List Key) : List Key :=
  s.filter (fun x => decide (x ≠ k))

/-- The Go `sort.Strings` on the keys of a map (which are distinct). -/
def sortStrings (ks : List Key) : List Key :=
  ks.foldl (fun s k => setAdd k s) []

/-- The Go `bytes.HasPrefix(k, p)`. -/
def hasPfx (p k : Key) : Bool :=
  p.isPrefixOf k

/-! ## The trie collaborator -/

/-- Errors returned (not panics) by the trie. -/
inductive TrieError where
  | ErrChildTrieDoesNotExist
  deriving DecidableEq, Repr

/-- Modelled from the spec: the trie backend `pkg/trie`, a collaborator whose
code is not embedded here; the spec treats it as a key-value store with
child tries looked up by a child key.  `entries` is the main key-value
content and `children` holds the entries of each child trie, both sorted by key. -/
structure Trie where
  entries : List (Key × Value)
  children : List (Key × List (Key × Value))
  deriving DecidableEq, Repr

namespace Trie

/-- Modelled from the spec: `Trie.Put`, storing the value under the key. -/
def Put (t : Trie) (k : Key) (v : Value) : Trie :=
  { t with entries := mapPut k v t.entries }

/-- Modelled from the spec: `Trie.Get`, the stored value or `nil`. -/
def Get (t : Trie) (k : Key) : Value :=
  match mapGet k t.entries with
  | some v => v
  | none => none

/-- Modelled from the spec: `Trie.Delete`, removing the key from the main content. -/
def Delete (t : Trie) (k : Key) : Trie :=
  { t with entries := mapDel k t.entries }

/-- Modelled from the spec: `Trie.Entries`. -/
def Entries (t : Trie) : List (Key × Value) :=
  t.entries

/-- Modelled from the spec: `Trie.KeysFrom`, the keys strictly after `k` in
ascending order ("first trie key > k"). -/
def KeysFrom (t : Trie) (k : Key) : List Key :=
  (mapKeys t.entries).filter (fun x => decide (k < x))

/-- Modelled from the spec: `Trie.NextKey`, the first key strictly after `k`. -/
def NextKey (t : Trie) (k : Key) : Option Key :=
  (t.KeysFrom k).head?

/-- Modelled from the spec: `Trie.PrefixedKeys`, the keys that start with `p`. -/
def PrefixedKeys (t : Trie) (p : Key) : List Key :=
  (mapKeys t.entries).filter (fun x => hasPfx p x)

/-- Modelled from the spec: `Trie.ClearPrefix`, removing every key that starts with `p`. -/
def ClearPrefix (t : Trie) (p : Key) : Trie :=
  { t with entries := t.entries.filter (fun e => !hasPfx p e.1) }

/-- Modelled from the spec: `Trie.ClearPrefixLimit`, removing the first `limit`
keys that start with `p`; returns the count removed and whether none is left. -/
def ClearPrefixLimit (t : Trie) (p : Key) (limit : Nat) : Trie × Nat × Bool :=
  let ks := t.PrefixedKeys p
  let del := ks.take limit
  ({ t with entries := t.entries.filter (fun e => decide (e.1 ∉ del)) },
    del.length, decide (del.length = ks.length))

/-- Modelled from the spec: `Trie.GetChild`, the child trie stored under the child key. -/
def GetChild (t : Trie) (c : Key) : Except TrieError (List (Key × Value)) :=
  match mapGet c t.children with
  | some ch => .ok ch
  | none => .error .ErrChildTrieDoesNotExist

/-- Modelled from the spec: `Trie.PutIntoChild`, creating the child when absent. -/
def PutIntoChild (t : Trie) (c k : Key) (v : Value) : Trie :=
  match mapGet c t.children with
  | some ch => { t with children := mapPut c (mapPut k v ch) t.children }
  | none => { t with children := mapPut c [(k, v)] t.children }

/-- Modelled from the spec: `Trie.GetFromChild`. -/
def GetFromChild (t : Trie) (c k : Key) : Except TrieError Value :=
  match mapGet c t.children with
  | some ch =>
    match mapGet k ch with
    | some v => .ok v
    | none => .ok none
  | none => .error .ErrChildTrieDoesNotExist

/-- Modelled from the spec: `Trie.DeleteChild`, removing the child trie. -/
def DeleteChild (t : Trie) (c : Key) : Trie :=
  { t with children := mapDel c t.children }

/-- Modelled from the spec: `Trie.ClearFromChild`, removing one key of a child. -/
def ClearFromChild (t : Trie) (c k : Key) : Except TrieError Trie :=
  match mapGet c t.children with
  | some ch => .ok { t with children := mapPut c (mapDel k ch) t.children }
  | none => .error .ErrChildTrieDoesNotExist

end Trie

/-! ## The change set of one transaction -/

/-- Modelled from the spec: the change set of a child trie inside a
`storageDiff` (the type of `storagediff.go`, whose code is not embedded
here): upserts, deletes and the sorted sequence of all mutated keys. -/
structure childDiff where
  upserts : List (Key × Value)
  deletes : List Key
  sortedKeys : List Key
  deriving DecidableEq, Repr

/-- Modelled from the spec: `storageDiff`, the data model's
`{ upserts, deletes, sorted_keys, child_change_set }`; `deletes` is a set
of keys, so the value and the presence readings of the Go `map[string]bool` agree. -/
structure storageDiff extends childDiff where
  childChangeSet : List (Key × childDiff)
  deriving DecidableEq, Repr

namespace childDiff

/-- Modelled from the spec: an empty change set. -/
def empty : childDiff :=
  { upserts := [], deletes := [], sortedKeys := [] }

/-- Modelled from the spec: `get`, the pair `(value, deleted)`: the upserted
value when the key is upserted, `(nil, true)` when it is deleted. -/
def get (cs : childDiff) (key : Key) : Value × Bool :=
  match mapGet key cs.upserts with
  | some v => (v, false)
  | none => if key ∈ cs.deletes then (none, true) else (none, false)

/-- Modelled from the spec: `upsert`; the key leaves `deletes` (from then on
the upsert answers) and joins `sorted_keys`, the sorted union of the
upserted and the deleted keys. -/
def upsert (cs : childDiff) (key : Key) (value : Value) : childDiff :=
  { upserts := mapPut key value cs.upserts
    deletes := setDel key cs.deletes
    sortedKeys := setAdd key cs.sortedKeys }

/-- Modelled from the spec: `delete`, "record delete (removes any upsert
first)"; the key joins `sorted_keys`. -/
def delete (cs : childDiff) (key : Key) : childDiff :=
  { upserts := mapDel key cs.upserts
    deletes := setAdd key cs.deletes
    sortedKeys := setAdd key cs.sortedKeys }

end childDiff

/-- Modelled from the spec: `newStorageDiff`, a fresh empty diff. -/
def newStorageDiff : storageDiff :=
  { upserts := [], deletes := [], sortedKeys := [], childChangeSet := [] }

namespace storageDiff

/-- Modelled from the spec: `snapshot`, a deep-logical copy; values are
immutable here, so the copy is the diff itself. -/
def snapshot (cs : storageDiff) : storageDiff :=
  cs

/-- Modelled from the spec: `get` on the parent level. -/
def get (cs : storageDiff) (key : Key) : Value × Bool :=
  cs.tochildDiff.get key

/-- Modelled from the spec: `upsert` on the parent level. -/
def upsert (cs : storageDiff) (key : Key) (value : Value) : storageDiff :=
  { cs with tochildDiff := cs.tochildDiff.upsert key value }

/-- Modelled from the spec: `delete` on the parent level; "deletion of
child_key at the parent level overrides all child operations for that
child", so the child's change set is dropped. -/
def delete (cs : storageDiff) (key : Key) : storageDiff :=
  { tochildDiff := cs.tochildDiff.delete key
    childChangeSet := mapDel key cs.childChangeSet }

/-- The change set staged for a child, or a fresh one. -/
def childOrNew (cs : storageDiff) (keyToChild : Key) : childDiff :=
  match mapGet keyToChild cs.childChangeSet with
  | some c => c
  | none => childDiff.empty

/-- Modelled from the spec: `upsertChild`, the upsert of the child's change set. -/
def upsertChild (cs : storageDiff) (keyToChild key : Key) (value : Value) : storageDiff :=
  { cs with childChangeSet :=
      mapPut keyToChild ((cs.childOrNew keyToChild).upsert key value) cs.childChangeSet }

/-- Modelled from the spec: `deleteFromChild`, the delete of the child's change set. -/
def deleteFromChild (cs : storageDiff) (keyToChild key : Key) : storageDiff :=
  { cs with childChangeSet :=
      mapPut keyToChild ((cs.childOrNew keyToChild).delete key) cs.childChangeSet }

/-- Modelled from the spec: `getFromChild`, symmetric to `get`: answered by
the child's change set when there is one. -/
def getFromChild (cs : storageDiff) (keyToChild key : Key) : Value × Bool :=
  match mapGet keyToChild cs.childChangeSet with
  | some c => c.get key
  | none => (none, false)

/-- The sorted union of two key lists. -/
def keyUnion (xs ys : List Key) : List Key :=
  sortStrings (xs ++ ys)

/-- Modelled from the spec: `clearPrefix`: the trie keys with the prefix and
the matching upserts are recorded as deletes, at most `limit` of them when
`limit` is not negative; returns `(loops, deleted, allDeleted)`. -/
def clearPrefix (cs : storageDiff) (p : Key) (trieKeys : List Key) (limit : Int) :
    storageDiff × Nat × Nat × Bool :=
  let all := keyUnion trieKeys ((mapKeys cs.upserts).filter (fun k => hasPfx p k))
  let del := if limit < 0 then all else all.take limit.toNat
  (del.foldl (fun d k => d.delete k) cs,
    del.length % 2 ^ 32, del.length % 2 ^ 32, decide (del.length = all.length))

/-- Modelled from the spec: `deleteChildLimit`, symmetric to the limited
prefix clearing: without a limit the child is deleted at the parent level,
otherwise the first `limit` keys of the child are recorded as deleted. -/
def deleteChildLimit (cs : storageDiff) (keyToChild : Key) (childKeys : List Key)
    (limit : Int) : storageDiff × Nat × Bool :=
  let child := cs.childOrNew keyToChild
  let all := keyUnion childKeys (mapKeys child.upserts)
  if limit < 0 then (cs.delete keyToChild, all.length % 2 ^ 32, true)
  else
    let del := all.take limit.toNat
    let child' := del.foldl (fun d k => d.delete k) child
    ({ cs with childChangeSet := mapPut keyToChild child' cs.childChangeSet },
      del.length % 2 ^ 32, decide (del.length = all.length))

/-- One child's recorded mutations applied to the trie; clearing a key of a
child that does not exist changes nothing. -/
def applyChild (t : Trie) (keyToChild : Key) (c : childDiff) : Trie :=
  let t1 := c.upserts.foldl (fun acc e => acc.PutIntoChild keyToChild e.1 e.2) t
  c.deletes.foldl
    (fun acc k => match acc.ClearFromChild keyToChild k with
      | .ok acc' => acc'
      | .error _ => acc) t1

/-- Modelled from the spec: `applyToTrie`, "applies all recorded mutations
to the underlying trie": the upserts, the child change sets, then the
deletes.  `Delete` and `DeleteChild` both record `delete(key)`, so a
recorded delete removes the key and the child trie of that key. -/
def applyToTrie (cs : storageDiff) (t : Trie) : Trie :=
  let t1 := cs.upserts.foldl (fun acc e => acc.Put e.1 e.2) t
  let t2 := cs.childChangeSet.foldl (fun acc e => applyChild acc e.1 e.2) t1
  cs.deletes.foldl (fun acc k => (acc.DeleteChild k).Delete k) t2

end storageDiff

/-! ## TrieState -/

/-- The panics of `trie.go`, and the index panic of `binary.LittleEndian.Uint32`. -/
inductive Panic where
  | noTransactionsToRollback
  | noTransactionsToCommit
  | rootWithRunningTransactions
  | indexOutOfRange
  deriving DecidableEq, Repr

deriving instance DecidableEq for Except

/-- The Go `TrieState`: the underlying trie and the open transactions, the
innermost one (`transactions.Back()`) first. -/
structure TrieState where
  state : Trie
  transactions : List storageDiff
  deriving DecidableEq, Repr

/-- The Go `binary.LittleEndian.Uint32`; `none` is its index panic on fewer than four bytes. -/
def Uint32 : List Nat → Option Nat
  | b0 :: b1 :: b2 :: b3 :: _ =>
    some (b0 % 256 + (b1 % 256) * 2 ^ 8 + (b2 % 256) * 2 ^ 16 + (b3 % 256) * 2 ^ 24)
  | _ => none

/-- The loop of `slices.BinarySearch`: `i` and `j` close in on the first
index whose entry is not below the target; `fuel` bounds the iterations. -/
def binarySearchLoop (x : List Key) (target : Key) : Nat → Nat → Nat → Nat
  | 0, i, _ => i
  | fuel + 1, i, j =>
    if i < j then
      let h := (i + j) / 2
      if x.getD h [] < target then binarySearchLoop x target fuel (h + 1) j
      else binarySearchLoop x target fuel i h
    else i

/-- The Go `slices.BinarySearch(x, target)`: the position and whether the target is there. -/
def BinarySearch (x : List Key) (target : Key) : Nat × Bool :=
  let i := binarySearchLoop x target x.length 0 x.length
  (i, decide (i < x.length) && decide (x.getD i [] = target))

/-- The merge step shared by `NextKey` and `GetChildNextKey`: the next key
of the change set against the first surviving key of the state. -/
def mergeNextKey (nextKey nextKeyOnState : Option Key) : Option Key :=
  match nextKeyOnState with
  | none => nextKey
  | some ks =>
    match nextKey with
    | none => some ks
    | some nk => if ks < nk then some ks else some nk

/-- The entry of `sortedKeys` that the binary search of `NextKey` selects. -/
def nextSortedKey (sortedKeys : List Key) (key : Key) : Option Key :=
  let r := BinarySearch sortedKeys key
  let pos := if r.2 then r.1 + 1 else r.1
  if pos < sortedKeys.length then sortedKeys.get? pos else none

namespace TrieState

/-- `NewTrieState`. -/
def NewTrieState (initialState : Trie) : TrieState :=
  { state := initialState, transactions := [] }

/-- `getCurrentTransaction`: the innermost open transaction, if any. -/
def getCurrentTransaction (t : TrieState) : Option storageDiff :=
  t.transactions.head?

/-- `StartTransaction`: pushes a snapshot of the current transaction, or of a fresh diff. -/
def StartTransaction (t : TrieState) : TrieState :=
  let nextChangeSet :=
    match t.getCurrentTransaction with
    | some cs => cs
    | none => newStorageDiff
  { t with transactions := nextChangeSet.snapshot :: t.transactions }

/-- `RollbackTransaction`: panics on an empty stack, otherwise drops the innermost transaction. -/
def RollbackTransaction (t : TrieState) : Except Panic TrieState :=
  match t.transactions with
  | [] => .error .noTransactionsToRollback
  | _ :: rest => .ok { t with transactions := rest }

/-- `CommitTransaction`: panics on an empty stack; with a parent the
innermost diff takes the parent's place, otherwise it is applied to the trie. -/
def CommitTransaction (t : TrieState) : Except Panic TrieState :=
  match t.transactions with
  | [] => .error .noTransactionsToCommit
  | tx :: [] => .ok { state := tx.applyToTrie t.state, transactions := [] }
  | tx :: _ :: rest => .ok { t with transactions := tx :: rest }

/-- `Trie`: the underlying trie. -/
def Trie (t : TrieState) : Trie :=
  t.state

/-- `Put`. -/
def Put (t : TrieState) (key : Key) (value : Value) : TrieState :=
  match t.transactions with
  | tx :: rest => { t with transactions := tx.upsert key value :: rest }
  | [] => { t with state := t.state.Put key value }

/-- `Get`. -/
def Get (t : TrieState) (key : Key) : Value :=
  match t.getCurrentTransaction with
  | some currentTx =>
    let r := currentTx.get key
    if r.1 ≠ none ∨ r.2 = true then r.1 else t.state.Get key
  | none => t.state.Get key

/-- `Root`: commits, then panics if a transaction is still open; a panic
carries the state it leaves behind.  `hash` is the trie's `Hash()`. -/
def Root {H : Type} (hash : Gossamer.Trie → H) (t : TrieState) :
    Except (Panic × TrieState) (H × TrieState) :=
  match t.CommitTransaction with
  | .error p => .error (p, t)
  | .ok t' =>
    match t'.getCurrentTransaction with
    | some _ => .error (.rootWithRunningTransactions, t')
    | none => .ok (hash t'.state, t')

/-- `Has`. -/
def Has (t : TrieState) (key : Key) : Bool :=
  (t.Get key).isSome

/-- `Delete`. -/
def Delete (t : TrieState) (key : Key) : TrieState :=
  match t.transactions with
  | tx :: rest => { t with transactions := tx.delete key :: rest }
  | [] => { t with state := t.state.Delete key }

/-- `NextKey`. -/
def NextKey (t : TrieState) (key : Key) : Option Key :=
  match t.getCurrentTransaction with
  | some currentTx =>
    let nextKey := nextSortedKey currentTx.sortedKeys key
    let nextKeyOnState := (t.state.KeysFrom key).find? (fun k => decide (k ∉ currentTx.deletes))
    mergeNextKey nextKey nextKeyOnState
  | none => t.state.NextKey key

/-- `ClearPrefix`. -/
def ClearPrefix (t : TrieState) (p : Key) : TrieState :=
  match t.transactions with
  | tx :: rest =>
    let keysOnState := t.state.PrefixedKeys p
    { t with transactions := (tx.clearPrefix p keysOnState (-1)).1 :: rest }
  | [] => { t with state := t.state.ClearPrefix p }

/-- `ClearPrefixLimit`, with its `(loops, deleted, allDeleted)`. -/
def ClearPrefixLimit (t : TrieState) (p : Key) (limit : Nat) : TrieState × Nat × Nat × Bool :=
  match t.transactions with
  | tx :: rest =>
    let keysOnState := t.state.PrefixedKeys p
    let r := tx.clearPrefix p keysOnState (Int.ofNat limit)
    ({ t with transactions := r.1 :: rest }, r.2)
  | [] =>
    let r := t.state.ClearPrefixLimit p limit
    ({ t with state := r.1 }, 0, r.2)

/-- `TrieEntries`: the trie's entries overwritten by the upserts, minus the deleted keys. -/
def TrieEntries (t : TrieState) : List (Key × Value) :=
  match t.getCurrentTransaction with
  | some currentTx =>
    let entries := currentTx.upserts.foldl (fun acc e => mapPut e.1 e.2 acc) t.state.Entries
    currentTx.deletes.foldl (fun acc k => mapDel k acc) entries
  | none => t.state.Entries

/-- `SetChildStorage`. -/
def SetChildStorage (t : TrieState) (keyToChild key : Key) (value : Value) : TrieState :=
  match t.transactions with
  | tx :: rest => { t with transactions := tx.upsertChild keyToChild key value :: rest }
  | [] => { t with state := t.state.PutIntoChild keyToChild key value }

/-- `GetChildStorage`. -/
def GetChildStorage (t : TrieState) (keyToChild key : Key) : Except TrieError Value :=
  match t.getCurrentTransaction with
  | some currentTx =>
    let r := currentTx.getFromChild keyToChild key
    if r.1 ≠ none ∨ r.2 = true then .ok r.1 else t.state.GetFromChild keyToChild key
  | none => t.state.GetFromChild keyToChild key

/-- `DeleteChild`. -/
def DeleteChild (t : TrieState) (keyToChild : Key) : TrieState :=
  match t.transactions with
  | tx :: rest => { t with transactions := tx.delete keyToChild :: rest }
  | [] => { t with state := t.state.DeleteChild keyToChild }

/-- `ClearChildStorage`; the error is the trie's. -/
def ClearChildStorage (t : TrieState) (keyToChild key : Key) : TrieState × Option TrieError :=
  match t.transactions with
  | tx :: rest => ({ t with transactions := tx.deleteFromChild keyToChild key :: rest }, none)
  | [] =>
    match t.state.ClearFromChild keyToChild key with
    | .ok st => ({ t with state := st }, none)
    | .error e => (t, some e)

/-- A child trie handed out by `GetChild`, as a trie of its own. -/
def childTrie (entries : List (Key × Value)) : Gossamer.Trie :=
  { entries := entries, children := [] }

/-- `GetChildNextKey`. -/
def GetChildNextKey (t : TrieState) (keyToChild key : Key) : Except TrieError (Option Key) :=
  let onState : Except TrieError (Option Key) :=
    match t.state.GetChild keyToChild with
    | .error e => .error e
    | .ok child => .ok ((childTrie child).NextKey key)
  match t.getCurrentTransaction with
  | some currentTx =>
    if keyToChild ∈ currentTx.deletes then .error .ErrChildTrieDoesNotExist
    else
      match mapGet keyToChild currentTx.childChangeSet with
      | some childChanges =>
        let nextKey := nextSortedKey childChanges.sortedKeys key
        match t.state.GetChild keyToChild with
        | .error _ => .ok nextKey
        | .ok child =>
          let nextKeyOnState :=
            ((childTrie child).KeysFrom key).find? (fun k => decide (k ∉ childChanges.deletes))
          .ok (mergeNextKey nextKey nextKeyOnState)
      | none => onState
  | none => onState

/-- `GetKeysWithPrefixFromChild`; the keys come in ascending order. -/
def GetKeysWithPrefixFromChild (t : TrieState) (keyToChild p : Key) :
    Except TrieError (List Key) :=
  let onState : Except TrieError (List Key) :=
    match t.state.GetChild keyToChild with
    | .error e => .error e
    | .ok child => .ok ((childTrie child).PrefixedKeys p)
  match t.getCurrentTransaction with
  | some currentTx =>
    if keyToChild ∈ currentTx.deletes then .error .ErrChildTrieDoesNotExist
    else
      match mapGet keyToChild currentTx.childChangeSet with
      | some childChanges =>
        match t.state.GetChild keyToChild with
        | .error e =>
          if childChanges.upserts.length = 0 then .error e
          else .ok ((mapKeys childChanges.upserts).filter (fun k => hasPfx p k))
        | .ok child => .ok ((mapKeys (childTrie child).Entries).filter (fun k => hasPfx p k))
      | none => onState
  | none => onState

/-- The deletion loop of `DeleteChildLimit` without a transaction: each key
is deleted from the child, `deleted` is incremented as a `uint32`, and the
loop stops once `deleted` equals the limit. -/
def deleteLoop (limitUint : Nat) : List Key → Gossamer.Trie → Nat → Gossamer.Trie × Nat
  | [], child, deleted => (child, deleted)
  | k :: ks, child, deleted =>
    let child' := child.Delete k
    let deleted' := (deleted + 1) % 2 ^ 32
    if deleted' = limitUint then (child', deleted') else deleteLoop limitUint ks child' deleted'

/-- `DeleteChildLimit`, with its `(deleted, allDeleted, err)`; `limit` is the
Go `*[]byte`, `none` the nil pointer.  The child handed out by `GetChild` is
the trie's own, so its deletions are written back under the child key. -/
def DeleteChildLimit (t : TrieState) (key : Key) (limit : Option (List Nat)) :
    Except Panic (TrieState × Nat × Bool × Option TrieError) :=
  match t.transactions with
  | currentTx :: rest =>
    let deleteLimit : Except Panic Int :=
      match limit with
      | none => .ok (-1)
      | some b =>
        match Uint32 b with
        | some n => .ok (Int.ofNat n)
        | none => .error .indexOutOfRange
    match deleteLimit with
    | .error p => .error p
    | .ok deleteLimit =>
      match t.state.GetChild key with
      | .error e =>
        match mapGet key currentTx.childChangeSet with
        | none => .ok (t, 0, false, some e)
        | some _ =>
          let r := currentTx.deleteChildLimit key [] deleteLimit
          .ok ({ t with transactions := r.1 :: rest }, r.2.1, r.2.2, none)
      | .ok child =>
        let r := currentTx.deleteChildLimit key (mapKeys (childTrie child).Entries) deleteLimit
        .ok ({ t with transactions := r.1 :: rest }, r.2.1, r.2.2, none)
  | [] =>
    match t.state.GetChild key with
    | .error e => .ok (t, 0, false, some e)
    | .ok child =>
      let childTrieEntries := (childTrie child).Entries
      let qtyEntries := childTrieEntries.length % 2 ^ 32
      match limit with
      | none => .ok ({ t with state := t.state.DeleteChild key }, qtyEntries, true, none)
      | some b =>
        match Uint32 b with
        | none => .error .indexOutOfRange
        | some limitUint =>
          let keys := sortStrings (mapKeys childTrieEntries)
          let r := deleteLoop limitUint keys (childTrie child) 0
          let st := { t.state with children := mapPut key r.1.entries t.state.children }
          .ok ({ t with state := st }, r.2, decide (r.2 = qtyEntries), none)

end TrieState

/-! ## Sequences of overlay calls -/

/-- The overlay mutations of `trie.go`. -/
inductive Mutation where
  | put (key : Key) (value : Value)
  | delete (key : Key)
  | clearPrefix (p : Key)
  | clearPrefixLimit (p : Key) (limit : Nat)
  | setChildStorage (keyToChild key : Key) (value : Value)
  | deleteChild (keyToChild : Key)
  | clearChildStorage (keyToChild key : Key)
  deriving DecidableEq, Repr

/-- The state after one mutation. -/
def Mutation.apply (m : Mutation) (t : TrieState) : TrieState :=
  match m with
  | .put k v => t.Put k v
  | .delete k => t.Delete k
  | .clearPrefix p => t.ClearPrefix p
  | .clearPrefixLimit p n => (t.ClearPrefixLimit p n).1
  | .setChildStorage c k v => t.SetChildStorage c k v
  | .deleteChild c => t.DeleteChild c
  | .clearChildStorage c k => (t.ClearChildStorage c k).1

/-- One call on the overlay. -/
inductive Call where
  | mutate (m : Mutation)
  | start
  | commit
  | rollback
  deriving DecidableEq, Repr

/-- The state after one call, or its panic. -/
def Call.step (c : Call) (t : TrieState) : Except Panic TrieState :=
  match c with
  | .mutate m => .ok (m.apply t)
  | .start => .ok t.StartTransaction
  | .commit => t.CommitTransaction
  | .rollback => t.RollbackTransaction

/-- A sequence of calls run in order; a panic ends the run. -/
def run : List Call → TrieState → Except Panic TrieState
  | [], t => .ok t
  | c :: cs, t =>
    match c.step t with
    | .ok t' => run cs t'
    | .error p => .error p

/-- A well-bracketed sequence of calls: nothing, a mutation followed by
more, or a transaction (its body, then commit or rollback) followed by more. -/
inductive Prog where
  | done
  | op (m : Mutation) (rest : Prog)
  | nested (body : Prog) (commit : Bool) (rest : Prog)
  deriving DecidableEq, Repr

/-- The calls of a well-bracketed sequence, in order. -/
def Prog.calls : Prog → List Call
  | .done => []
  | .op m rest => .mutate m :: rest.calls
  | .nested body c rest =>
    .start :: (body.calls ++ (if c then Call.commit else Call.rollback) :: rest.calls)

/-- The mutations of a well-bracketed sequence that lie inside committed
branches (or outside every transaction), in order. -/
def Prog.committed : Prog → List Mutation
  | .done => []
  | .op m rest => m :: rest.committed
  | .nested body c rest => (if c then body.committed else []) ++ rest.committed

/-- Whether a mutation is a `Put` or a `Delete`. -/
def Mutation.isPutDelete : Mutation → Bool
  | .put _ _ => true
  | .delete _ => true
  | _ => false

/-- Whether every mutation of the sequence is a `Put` or a `Delete`. -/
def Prog.putDeleteOnly : Prog → Bool
  | .done => true
  | .op m rest => m.isPutDelete && rest.putDeleteOnly
  | .nested body _ rest => body.putDeleteOnly && rest.putDeleteOnly

/-- The mutations applied one after the other, directly on the trie (no transaction open). -/
def replay (ms : List Mutation) (tr : Trie) : Trie :=
  (ms.foldl (fun t m => m.apply t) (TrieState.NewTrieState tr)).state

/-! ## Auxiliary definitions for the proofs -/

/-- The innermost diff after a mutation made with that diff on top of the stack. -/
def Mutation.onTop (m : Mutation) (tr : Trie) (d : storageDiff) : storageDiff :=
  match (m.apply { state := tr, transactions := [d] }).transactions with
  | d' :: _ => d'
  | [] => d

/-- The innermost diff after a well-bracketed sequence run with that diff on top. -/
def Prog.onTop (tr : Trie) : Prog → storageDiff → storageDiff
  | .done, d => d
  | .op m rest, d => rest.onTop tr (m.onTop tr d)
  | .nested body c rest, d => rest.onTop tr (if c then body.onTop tr d.snapshot else d)

/-- A flat list of mutations as a well-bracketed sequence. -/
def Prog.ofMutations : List Mutation → Prog
  | [] => .done
  | m :: ms => .op m (Prog.ofMutations ms)

/-- A trie with one entry and one child trie, for the concrete instances. -/
def sampleTrie : Trie :=
  { entries := [([1], some [7])], children := [([9], [([3], some [4]), ([5], some [6])])] }

/-- A state with two open transactions over `sampleTrie`. -/
def sampleOpen2 : TrieState :=
  { state := sampleTrie, transactions := [newStorageDiff.upsert [2] (some [5]), newStorageDiff] }

/-! ## The next-key rule in the words of the specification -/

/-- The first entry of a key sequence that is strictly greater than `k`. -/
def firstAbove (keys : List Key) (k : Key) : Option Key :=
  keys.find? (fun s => decide (k < s))

/-- The first key of the trie that is strictly greater than `k` and not in `deletes`. -/
def firstLiveOnState (tr : Trie) (deletes : List Key) (k : Key) : Option Key :=
  (mapKeys tr.entries).find? (fun s => decide (k < s) && decide (s ∉ deletes))

/-- The smaller of two candidates, either of which may be missing. -/
def smallerOf : Option Key → Option Key → Option Key
  | none, b => b
  | some a, none => some a
  | some a, some b => some (min a b)

/-- The merge-scan of the specification: the smaller of the first sorted key
of the diff above `k` and the first undeleted trie key above `k`. -/
def NextKeySpec (tr : Trie) (tx : storageDiff) (k : Key) : Option Key :=
  smallerOf (firstAbove tx.sortedKeys k) (firstLiveOnState tr tx.deletes k)

/-! ## Representation invariants -/

/-- A map kept in strictly ascending key order. -/
def keysSorted {β : Type} (m : List (Key × β)) : Prop :=
  (mapKeys m).Sorted (· < ·)

/-- The representation invariant of the modelled trie: its entries are in key order. -/
def Trie.WF (tr : Trie) : Prop :=
  keysSorted tr.entries

/-- The keys that the `Delete` mutations of a list name. -/
def deletedKeys : List Mutation → List Key
  | [] => []
  | .delete k :: ms => k :: deletedKeys ms
  | _ :: ms => deletedKeys ms

/-- The upserts of a diff written over a map, in order. -/
def foldPut (us E : List (Key × Value)) : List (Key × Value) :=
  us.foldl (fun acc e => mapPut e.1 e.2 acc) E

/-- The deleted keys of a diff removed from a map, in order. -/
def foldDel {β : Type} (ds : List Key) (E : List (Key × β)) : List (Key × β) :=
  ds.foldl (fun acc k => mapDel k acc) E

/-- What the induction over a sequence of `Put` and `Delete` keeps true of the
innermost diff: its upserts are in key order, it stages no child change and
none of its deleted keys names a child trie of the underlying trie. -/
def DiffInv (d : storageDiff) (tr : Trie) : Prop :=
  keysSorted d.upserts ∧ d.childChangeSet = [] ∧ ∀ k ∈ d.deletes, k ∉ mapKeys tr.children

/-- The scenario of the specification: `begin; put(a,1); begin; put(a,2);
put(b,3); rollback; commit`, with `a = [97]` and `b = [98]`. -/
def nestedRollbackScenario : Prog :=
  .nested
    (.op (.put [97] (some [1]))
      (.nested (.op (.put [97] (some [2])) (.op (.put [98] (some [3])) .done)) false .done))
    true .done

/-- A transaction that deletes the key `[9]` and commits. -/
def deleteNineScenario : Prog :=
  .nested (.op (.delete [9]) .done) true .done

/-- Every open transaction has its `sortedKeys` in strictly ascending order. -/
def SortedKeysInv (t : TrieState) : Prop :=
  ∀ d ∈ t.transactions, d.sortedKeys.Sorted (· < ·)

/-! ## Warp-sync proofs (`lib/grandpa/warpsync/warp_sync.go`) -/

/-- A 256-bit hash, as its bytes. -/
abbrev Hash := List Nat

/-- The Go `grandpa.AuthorityList`: pairs of authority id (32 bytes) and weight. -/
abbrev AuthorityList := List (List Nat × Nat)

/-- The Go `MaxWarpSyncProofSize`. -/
def MaxWarpSyncProofSize : Nat := 8 * 1024 * 1024

/-- The errors of `warp_sync.go`: those it creates or wraps, and the errors
handed back by its collaborators (`collaborator`, with an opaque code). -/
inductive WarpError where
  | collaborator (code : Nat)
  | missingStartBlock (cause : WarpError)
  | gettingBestBlockHeader (cause : WarpError)
  | startBlockNotFinalized
  | gettingAuthChanges (cause : WarpError)
  | findingScheduledChange (cause : WarpError)
  | gettingDigestValue (cause : WarpError)
  | decodingWarpSyncProof (cause : WarpError)
  | emptyWarpSyncProof
  | verifyingWarpSyncProof (cause : WarpError)
  | mismatchHeaderJustification
  | cannotParseAuthorities (cause : WarpError)
  | missingAuthoritySetChange
  deriving DecidableEq, Repr

/-- The value of a `types.DigestItem`. -/
inductive DigestValue where
  | PreRuntimeDigest (engine data : List Nat)
  | ConsensusDigest (engine data : List Nat)
  | SealDigest (engine data : List Nat)
  | RuntimeEnvironmentUpdated
  deriving DecidableEq, Repr

/-- The Go `types.DigestItem`, a varying data type; `none` is an item whose
value is not set, on which `Value()` returns an error. -/
abbrev DigestItem := Option DigestValue

/-- The Go `types.Header`. -/
structure Header where
  ParentHash : Hash
  Number : Nat
  StateRoot : Hash
  ExtrinsicsRoot : Hash
  Digest : List DigestItem
  deriving DecidableEq, Repr

/-- The Go `types.GrandpaAuthoritiesRaw`. -/
structure GrandpaAuthoritiesRaw where
  Key : List Nat
  ID : Nat
  deriving DecidableEq, Repr

/-- The Go `types.GrandpaScheduledChange`. -/
structure GrandpaScheduledChange where
  Auths : List GrandpaAuthoritiesRaw
  Delay : Nat
  deriving DecidableEq, Repr

/-- The value of a decoded `types.GrandpaConsensusDigest`. -/
inductive GrandpaConsensusDigest where
  | ScheduledChange (change : GrandpaScheduledChange)
  | ForcedChange (change : GrandpaScheduledChange)
  | OnDisabled (id : Nat)
  | Pause (delay : Nat)
  | Resume (delay : Nat)
  deriving DecidableEq, Repr

/-- A precommit: the block voted for. -/
structure Precommit where
  TargetHash : Hash
  TargetNumber : Nat
  deriving DecidableEq, Repr

/-- A precommit with the signature and the id of its voter. -/
structure SignedPrecommit where
  Precommit : Precommit
  Signature : List Nat
  ID : List Nat
  deriving DecidableEq, Repr

/-- The commit of a justification. -/
structure Commit where
  TargetHash : Hash
  TargetNumber : Nat
  Precommits : List SignedPrecommit
  deriving DecidableEq, Repr

/-- The Go `GrandpaJustification`: round, commit and the headers of the vote ancestries. -/
structure GrandpaJustification where
  Round : Nat
  Commit : Commit
  VoteAncestries : List Header
  deriving DecidableEq, Repr

/-- The Go `WarpSyncFragment`. -/
structure WarpSyncFragment where
  Header : Header
  Justification : GrandpaJustification
  deriving DecidableEq, Repr

/-- The Go `WarpSyncProof`; `proofsLength` is the size accumulator, which is not transmitted. -/
structure WarpSyncProof where
  Proofs : List WarpSyncFragment
  IsFinished : Bool
  proofsLength : Nat
  deriving DecidableEq, Repr

/-- The Go `SetIdAuthorityList`. -/
structure SetIdAuthorityList where
  SetID : Nat
  AuthorityList : AuthorityList
  deriving DecidableEq, Repr

/-- The Go `WarpSyncVerificationResult`. -/
structure WarpSyncVerificationResult where
  SetId : Nat
  AuthorityList : AuthorityList
  Header : Header
  Completed : Bool
  deriving DecidableEq, Repr

/-- The collaborators of `warp_sync.go` whose code is not embedded here, as
parameters: header hashing, the SCALE codec (`pkg/scale`), key parsing and
the verification of a justification against a set id and an authority list. -/
structure Externals where
  headerHash : Header → Hash
  unmarshalGrandpaDigest : List Nat → Except WarpError GrandpaConsensusDigest
  newPublic : List Nat → Except WarpError (List Nat)
  verifyJustification : GrandpaJustification → Nat → AuthorityList → Except WarpError Unit
  decodeJustification : List Nat → Except WarpError GrandpaJustification
  marshalFragment : WarpSyncFragment → Except WarpError (List Nat)
  compact : Nat → List Nat
  unmarshalProof : List Nat → Except WarpError WarpSyncProof

/-- The Go interface `BlockState`. -/
structure BlockState where
  GetHeader : Hash → Except WarpError Header
  GetHeaderByNumber : Nat → Except WarpError Header
  GetJustification : Hash → Except WarpError (List Nat)
  GetHighestFinalisedHeader : Except WarpError Header

/-- The Go interface `GrandpaState`, with the one method `Generate` calls. -/
structure GrandpaState where
  GetAuthoritiesChangesFromBlock : Nat → Except WarpError (List Nat)

/-- The Go `WarpSyncProofProvider`; the keys of `hardForks` are the pairs
(header hash, number) that the Go code formats as `"%v-%v"`. -/
structure WarpSyncProofProvider where
  blockState : BlockState
  grandpaState : GrandpaState
  hardForks : List ((Hash × Nat) × SetIdAuthorityList)

/-- A query made to the block state or the GRANDPA state. -/
inductive Query where
  | GetHeader (hash : Hash)
  | GetHeaderByNumber (number : Nat)
  | GetJustification (hash : Hash)
  | GetHighestFinalisedHeader
  | GetAuthoritiesChangesFromBlock (number : Nat)
  deriving DecidableEq, Repr

/-- Modelled from the spec: the GRANDPA engine id `types.GrandpaEngineID`,
the four bytes of "FRNK". -/
def GrandpaEngineID : List Nat := [70, 82, 78, 75]

/-- The Go `NewWarpSyncProof`. -/
def NewWarpSyncProof : WarpSyncProof :=
  { Proofs := [], IsFinished := false, proofsLength := 0 }

/-- The Go `NewWarpSyncProofProvider`: the hard-fork map is left empty. -/
def NewWarpSyncProofProvider (blockState : BlockState) (grandpaState : GrandpaState) :
    WarpSyncProofProvider :=
  { blockState := blockState, grandpaState := grandpaState, hardForks := [] }

/-- The lookup `hardForks[key]`. -/
def hardForkLookup (hardForks : List ((Hash × Nat) × SetIdAuthorityList)) (key : Hash × Nat) :
    Option SetIdAuthorityList :=
  match hardForks with
  | [] => none
  | (k, v) :: rest => if key = k then some v else hardForkLookup rest key

/-- The loop of `findScheduledChange` over the digest items. -/
def findScheduledChangeIn (x : Externals) :
    List DigestItem → Except WarpError (Option GrandpaScheduledChange)
  | [] => .ok none
  | none :: _ => .error (.gettingDigestValue (.collaborator 0))
  | some (.ConsensusDigest engine data) :: rest =>
    if engine = GrandpaEngineID then
      match x.unmarshalGrandpaDigest data with
      | .error e => .error e
      | .ok (.ScheduledChange change) => .ok (some change)
      | .ok _ => findScheduledChangeIn x rest
    else findScheduledChangeIn x rest
  | some _ :: rest => findScheduledChangeIn x rest

/-- The Go `findScheduledChange`. -/
def findScheduledChange (x : Externals) (header : Header) :
    Except WarpError (Option GrandpaScheduledChange) :=
  findScheduledChangeIn x header.Digest

/-- The Go `grandpaAuthoritiesRawToAuthorities`. -/
def grandpaAuthoritiesRawToAuthorities (x : Externals) :
    List GrandpaAuthoritiesRaw → Except WarpError AuthorityList
  | [] => .ok []
  | r :: rest =>
    match x.newPublic r.Key with
    | .error e => .error e
    | .ok pkey =>
      match grandpaAuthoritiesRawToAuthorities x rest with
      | .error e => .error e
      | .ok ad => .ok ((pkey, r.ID) :: ad)

namespace WarpSyncProof

/-- The Go `addFragment`: the fragment is appended unless the accumulated
size would reach `MaxWarpSyncProofSize`; returns the proof and `limitReached`. -/
def addFragment (x : Externals) (w : WarpSyncProof) (fragment : WarpSyncFragment) :
    Except WarpError (WarpSyncProof × Bool) :=
  match x.marshalFragment fragment with
  | .error e => .error e
  | .ok encodedFragment =>
    if w.proofsLength + encodedFragment.length ≥ MaxWarpSyncProofSize then .ok (w, true)
    else
      .ok ({ w with proofsLength := w.proofsLength + encodedFragment.length
                    Proofs := w.Proofs ++ [fragment] }, false)

/-- The Go `lastProofBlockNumber`, a `uint32`. -/
def lastProofBlockNumber (w : WarpSyncProof) : Nat :=
  match w.Proofs.getLast? with
  | none => 0
  | some last => (last.Justification.Commit.TargetNumber + 1) % 2 ^ 32

/-- The loop of the Go `verify` over the fragments still to walk, carrying
the current set id and authorities; `rest = []` is the Go test
`fragmentNumber == len(w.Proofs)-1`, and the set id is a `uint64`. -/
def verifyLoop (x : Externals) (isFinished : Bool)
    (hardForks : List ((Hash × Nat) × SetIdAuthorityList)) :
    List WarpSyncFragment → SetIdAuthorityList → Except WarpError SetIdAuthorityList
  | [], setIdAuth => .ok setIdAuth
  | proof :: rest, setIdAuth =>
    let headerHash := x.headerHash proof.Header
    match hardForkLookup hardForks (headerHash, proof.Header.Number) with
    | some fork =>
      verifyLoop x isFinished hardForks rest
        { SetID := fork.SetID, AuthorityList := fork.AuthorityList }
    | none =>
      match x.verifyJustification proof.Justification setIdAuth.SetID setIdAuth.AuthorityList with
      | .error e => .error e
      | .ok _ =>
        if proof.Justification.Commit.TargetHash ≠ headerHash then
          .error .mismatchHeaderJustification
        else
          match findScheduledChange x proof.Header with
          | .error e => .error (.findingScheduledChange e)
          | .ok (some scheduledChange) =>
            match grandpaAuthoritiesRawToAuthorities x scheduledChange.Auths with
            | .error e => .error (.cannotParseAuthorities e)
            | .ok auths =>
              verifyLoop x isFinished hardForks rest
                { SetID := (setIdAuth.SetID + 1) % 2 ^ 64, AuthorityList := auths }
          | .ok none =>
            if rest ≠ [] ∨ isFinished = false then .error .missingAuthoritySetChange
            else verifyLoop x isFinished hardForks rest setIdAuth

/-- The Go `verify`: the fragment walk from the given set id and authorities. -/
def verify (x : Externals) (w : WarpSyncProof) (setId : Nat) (authorities : AuthorityList)
    (hardForks : List ((Hash × Nat) × SetIdAuthorityList)) :
    Except WarpError SetIdAuthorityList :=
  verifyLoop x w.IsFinished hardForks w.Proofs { SetID := setId, AuthorityList := authorities }

end WarpSyncProof

/-- The encodings of the fragments, one after the other. -/
def marshalFragments (x : Externals) : List WarpSyncFragment → Except WarpError (List Nat)
  | [] => .ok []
  | f :: rest =>
    match x.marshalFragment f with
    | .error e => .error e
    | .ok enc =>
      match marshalFragments x rest with
      | .error e => .error e
      | .ok encs => .ok (enc ++ encs)

/-- Modelled from the spec: `scale.Marshal` of a `WarpSyncProof`, the wire
format `(compact_len, repeat WarpSyncFragment) ++ bool(is_finished)`; the
size accumulator is not part of it. -/
def marshalProof (x : Externals) (w : WarpSyncProof) : Except WarpError (List Nat) :=
  match marshalFragments x w.Proofs with
  | .error e => .error e
  | .ok encs => .ok (x.compact w.Proofs.length ++ encs ++ [if w.IsFinished then 1 else 0])

namespace WarpSyncProofProvider

/-- The authority-set-change loop of `Generate`: the proof so far, the
queries made so far, and the block numbers still to visit; returns the
proof and `limitReached`. -/
def generateLoop (x : Externals) (blockState : BlockState) :
    List Nat → WarpSyncProof → List Query →
      List Query × Except WarpError (WarpSyncProof × Bool)
  | [], finalProof, trace => (trace, .ok (finalProof, false))
  | blockNumber :: rest, finalProof, trace =>
    let trace1 := trace ++ [Query.GetHeaderByNumber blockNumber]
    match blockState.GetHeaderByNumber blockNumber with
    | .error e => (trace1, .error e)
    | .ok header =>
      match findScheduledChange x header with
      | .error e => (trace1, .error (.findingScheduledChange e))
      | .ok none => (trace1, .ok (finalProof, false))
      | .ok (some _) =>
        let trace2 := trace1 ++ [Query.GetJustification (x.headerHash header)]
        match blockState.GetJustification (x.headerHash header) with
        | .error e => (trace2, .error e)
        | .ok encJustification =>
          match x.decodeJustification encJustification with
          | .error e => (trace2, .error e)
          | .ok justification =>
            match finalProof.addFragment x { Header := header, Justification := justification } with
            | .error e => (trace2, .error e)
            | .ok (finalProof', true) => (trace2, .ok (finalProof', true))
            | .ok (finalProof', false) => generateLoop x blockState rest finalProof' trace2

/-- The closing part of `Generate` when the limit was not reached: the
terminal fragment for the highest finalized header, and `IsFinished`. -/
def generateTerminal (x : Externals) (blockState : BlockState) (finalProof : WarpSyncProof)
    (trace : List Query) : List Query × Except WarpError WarpSyncProof :=
  let trace1 := trace ++ [Query.GetHighestFinalisedHeader]
  match blockState.GetHighestFinalisedHeader with
  | .error e => (trace1, .error (.gettingBestBlockHeader e))
  | .ok lastFinalizedBlockHeader =>
    let trace2 := trace1 ++ [Query.GetJustification (x.headerHash lastFinalizedBlockHeader)]
    match blockState.GetJustification (x.headerHash lastFinalizedBlockHeader) with
    | .error e => (trace2, .error e)
    | .ok latestJustification =>
      match x.decodeJustification latestJustification with
      | .error e => (trace2, .error e)
      | .ok justification =>
        if justification.Commit.TargetNumber ≥ finalProof.lastProofBlockNumber then
          match finalProof.addFragment x
              { Header := lastFinalizedBlockHeader, Justification := justification } with
          | .error e => (trace2, .error e)
          | .ok (finalProof', _) => (trace2, .ok { finalProof' with IsFinished := true })
        else (trace2, .ok { finalProof with IsFinished := true })

/-- The proof that `Generate` builds before encoding it, with the queries made. -/
def generateProof (x : Externals) (p : WarpSyncProofProvider) (start : Hash) :
    List Query × Except WarpError WarpSyncProof :=
  let trace0 := [Query.GetHeader start]
  match p.blockState.GetHeader start with
  | .error e => (trace0, .error (.missingStartBlock e))
  | .ok beginBlockHeader =>
    let trace1 := trace0 ++ [Query.GetHighestFinalisedHeader]
    match p.blockState.GetHighestFinalisedHeader with
    | .error e => (trace1, .error (.gettingBestBlockHeader e))
    | .ok lastFinalizedBlockHeader =>
      if beginBlockHeader.Number > lastFinalizedBlockHeader.Number then
        (trace1, .error .startBlockNotFinalized)
      else
        let trace2 := trace1 ++ [Query.GetAuthoritiesChangesFromBlock beginBlockHeader.Number]
        match p.grandpaState.GetAuthoritiesChangesFromBlock beginBlockHeader.Number with
        | .error e => (trace2, .error (.gettingAuthChanges e))
        | .ok authoritySetChanges =>
          match generateLoop x p.blockState authoritySetChanges NewWarpSyncProof trace2 with
          | (trace3, .error e) => (trace3, .error e)
          | (trace3, .ok (finalProof, true)) => (trace3, .ok finalProof)
          | (trace3, .ok (finalProof, false)) => generateTerminal x p.blockState finalProof trace3

/-- The Go `Generate`: the queries made to the block and GRANDPA state, and
the encoded proof or the error. -/
def Generate (x : Externals) (p : WarpSyncProofProvider) (start : Hash) :
    List Query × Except WarpError (List Nat) :=
  match generateProof x p start with
  | (trace, .error e) => (trace, .error e)
  | (trace, .ok finalProof) => (trace, marshalProof x finalProof)

/-- The Go `Verify`. -/
def Verify (x : Externals) (p : WarpSyncProofProvider) (encodedProof : List Nat) (setId : Nat)
    (authorities : AuthorityList) : Except WarpError WarpSyncVerificationResult :=
  match x.unmarshalProof encodedProof with
  | .error e => .error (.decodingWarpSyncProof e)
  | .ok proof =>
    match proof.Proofs.getLast? with
    | none => .error .emptyWarpSyncProof
    | some lastProof =>
      match proof.verify x setId authorities p.hardForks with
      | .error e => .error (.verifyingWarpSyncProof e)
      | .ok nextSetAndAuthorities =>
        .ok { SetId := nextSetAndAuthorities.SetID
              AuthorityList := nextSetAndAuthorities.AuthorityList
              Header := lastProof.Header
              Completed := proof.IsFinished }

end WarpSyncProofProvider

/-! ## The handoffs of a proof, in the words of the specification -/

/-- The scheduled changes carried by the headers of the fragments, in order:
the handoffs of the proof. -/
def handoffs (x : Externals) : List WarpSyncFragment → List GrandpaScheduledChange
  | [] => []
  | f :: rest =>
    match findScheduledChange x f.Header with
    | .ok (some change) => change :: handoffs x rest
    | _ => handoffs x rest

/-- The authorities after the handoffs: those parsed from the last handoff,
or the given ones when there is none. -/
def lastHandoffAuthorities (x : Externals) (fragments : List WarpSyncFragment)
    (authorities : AuthorityList) : Except WarpError AuthorityList :=
  match (handoffs x fragments).getLast? with
  | some change => grandpaAuthoritiesRawToAuthorities x change.Auths
  | none => .ok authorities

/-- Whether the fragment is keyed in the hard-fork map. -/
def hardForkMatched (x : Externals) (hardForks : List ((Hash × Nat) × SetIdAuthorityList))
    (f : WarpSyncFragment) : Bool :=
  (hardForkLookup hardForks (x.headerHash f.Header, f.Header.Number)).isSome

/-! ## Concrete collaborators for the instances -/

/-- A toy decoder of GRANDPA consensus digests: `[1, k]` schedules the one
authority whose key is 32 times the byte `k`. -/
def sampleUnmarshalDigest : List Nat → Except WarpError GrandpaConsensusDigest
  | 1 :: k :: _ =>
    .ok (.ScheduledChange { Auths := [{ Key := List.replicate 32 k, ID := 1 }], Delay := 0 })
  | 2 :: _ => .ok (.ForcedChange { Auths := [], Delay := 0 })
  | [] => .error (.collaborator 1)
  | _ => .ok (.Pause 0)

/-- A toy justification decoder: round, target number, then the target hash. -/
def sampleDecodeJustification : List Nat → Except WarpError GrandpaJustification
  | r :: n :: h =>
    .ok { Round := r, Commit := { TargetHash := h, TargetNumber := n, Precommits := [] },
          VoteAncestries := [] }
  | _ => .error (.collaborator 2)

/-- The toy header of block `n`, with a scheduled change to the authority `k` when `k ≠ 0`. -/
def sampleHeader (n k : Nat) : Header :=
  { ParentHash := [n - 1], Number := n, StateRoot := [], ExtrinsicsRoot := [],
    Digest := if k = 0 then [] else [some (.ConsensusDigest GrandpaEngineID [1, k])] }

/-- The toy justification of block `n` signed in round `r`; its target is the hash `[n]`. -/
def sampleJustification (r n : Nat) : GrandpaJustification :=
  { Round := r, Commit := { TargetHash := [n], TargetNumber := n, Precommits := [] },
    VoteAncestries := [] }

/-- A two-fragment proof: the handoff at block 10 and the terminal block 12. -/
def sampleProof : WarpSyncProof :=
  { Proofs := [{ Header := sampleHeader 10 7, Justification := sampleJustification 0 10 },
               { Header := sampleHeader 12 0, Justification := sampleJustification 1 12 }],
    IsFinished := true, proofsLength := 0 }

/-- Toy collaborators: the hash of a header is its number, a justification
verifies when its round is the set id, a fragment encodes to three bytes,
and the decoder knows the encodings of the empty proof and of `sampleProof`,
finished or not. -/
def sampleExternals : Externals :=
  { headerHash := fun h => [h.Number]
    unmarshalGrandpaDigest := sampleUnmarshalDigest
    newPublic := fun k => if k.length = 32 then .ok k else .error (.collaborator 3)
    verifyJustification := fun j s a =>
      if j.Round = s ∧ a ≠ [] then .ok () else .error (.collaborator 4)
    decodeJustification := sampleDecodeJustification
    marshalFragment := fun f => .ok [f.Header.Number, f.Justification.Round, 0]
    compact := fun n => [4 * n]
    unmarshalProof := fun enc =>
      if enc = [0, 1] then .ok { Proofs := [], IsFinished := true, proofsLength := 0 }
      else if enc = [8, 10, 0, 0, 12, 1, 0, 1] then .ok sampleProof
      else if enc = [8, 10, 0, 0, 12, 1, 0, 0] then .ok { sampleProof with IsFinished := false }
      else .error (.collaborator 5) }

/-- A toy chain: headers 1 to 12, an authority change at block 10, block 12
the highest finalized one, justifications stored for blocks 10 and 12. -/
def sampleBlockState : BlockState :=
  { GetHeader := fun h =>
      match h with
      | [n] => if 1 ≤ n ∧ n ≤ 12 then .ok (sampleHeader n (if n = 10 then 7 else 0))
               else .error (.collaborator 6)
      | _ => .error (.collaborator 6)
    GetHeaderByNumber := fun n =>
      if 1 ≤ n ∧ n ≤ 12 then .ok (sampleHeader n (if n = 10 then 7 else 0))
      else .error (.collaborator 6)
    GetJustification := fun h =>
      if h = [10] then .ok [0, 10, 10] else if h = [12] then .ok [1, 12, 12]
      else .error (.collaborator 7)
    GetHighestFinalisedHeader := .ok (sampleHeader 12 0) }

/-- The toy GRANDPA state: the one change at block 10. -/
def sampleGrandpaState : GrandpaState :=
  { GetAuthoritiesChangesFromBlock := fun n => .ok (if n ≤ 10 then [10] else []) }

/-- The provider over the toy chain. -/
def sampleProvider : WarpSyncProofProvider :=
  NewWarpSyncProofProvider sampleBlockState sampleGrandpaState

/-- The provider over the toy chain with a hard fork keyed at block 10. -/
def sampleForkProvider : WarpSyncProofProvider :=
  { blockState := sampleBlockState, grandpaState := sampleGrandpaState,
    hardForks := [(([10], 10), { SetID := 5, AuthorityList := [(List.replicate 32 9, 1)] })] }

/-- The toy fragment of block `n`: header with a change to `k` (none when
`k = 0`), justification of round `r` targeting the block `t`. -/
def sampleFragment (n k r t : Nat) : WarpSyncFragment :=
  { Header := sampleHeader n k, Justification := sampleJustification r t }

/-- The chain condition of the round trip: every authority-set-change block
of the list carries a scheduled-change digest and a stored justification
that decodes, verifies under the set active at that block and targets the
block, and the scheduled authorities parse.  Returns the fragments of these
blocks and the set after the last handoff; `none` when the condition fails. -/
def handoffFragments (x : Externals) (blockState : BlockState) :
    List Nat → SetIdAuthorityList → Option (List WarpSyncFragment × SetIdAuthorityList)
  | [], cur => some ([], cur)
  | n :: rest, cur =>
    match blockState.GetHeaderByNumber n with
    | .error _ => none
    | .ok header =>
      match findScheduledChange x header with
      | .ok (some change) =>
        match blockState.GetJustification (x.headerHash header) with
        | .error _ => none
        | .ok enc =>
          match x.decodeJustification enc with
          | .error _ => none
          | .ok j =>
            match x.verifyJustification j cur.SetID cur.AuthorityList with
            | .error _ => none
            | .ok _ =>
              if j.Commit.TargetHash = x.headerHash header then
                match grandpaAuthoritiesRawToAuthorities x change.Auths with
                | .error _ => none
                | .ok auths =>
                  match handoffFragments x blockState rest
                      { SetID := (cur.SetID + 1) % 2 ^ 64, AuthorityList := auths } with
                  | some (frags, final) =>
                    some ({ Header := header, Justification := j } :: frags, final)
                  | none => none
              else none
      | _ => none

/-- An encoding of `n` bytes, all zero. -/
def zeroBytes (n : Nat) : List Nat :=
  List.replicate n 0

/-- Toy collaborators whose fragments all encode to the given bytes. -/
def fixedSizeExternals (z : List Nat) : Externals :=
  { sampleExternals with marshalFragment := fun _ => .ok z }

/-- A chain at its genesis: block 1 is the highest finalized block, the
authority set never changed, and no justification is stored. -/
def genesisProvider : WarpSyncProofProvider :=
  NewWarpSyncProofProvider
    { GetHeader := fun h => if h = [1] then .ok (sampleHeader 1 0) else .error (.collaborator 6)
      GetHeaderByNumber := fun n =>
        if n = 1 then .ok (sampleHeader 1 0) else .error (.collaborator 6)
      GetJustification := fun _ => .error (.collaborator 7)
      GetHighestFinalisedHeader := .ok (sampleHeader 1 0) }
    { GetAuthoritiesChangesFromBlock := fun _ => .ok [] }

/-- The accumulator of a proof is the total size of its encoded fragments,
and it is below the limit. -/
def SizeInv (x : Externals) (w : WarpSyncProof) : Prop :=
  ∃ encs, marshalFragments x w.Proofs = .ok encs ∧ encs.length = w.proofsLength ∧
    w.proofsLength < MaxWarpSyncProofSize

/-- The fragments that `Generate` appends after those of the change blocks:
the highest finalized header with its justification, unless the commit
number of that justification is below `lastProofBlockNumber`. -/
def terminalFragments (frags : List WarpSyncFragment) (lastHeader : Header)
    (justification : GrandpaJustification) : List WarpSyncFragment :=
  if justification.Commit.TargetNumber ≥
      WarpSyncProof.lastProofBlockNumber { Proofs := frags, IsFinished := false, proofsLength := 0 }
  then [{ Header := lastHeader, Justification := justification }] else []

/-- The error `errStartBlockNotFinalized` is private to the package: no
collaborator of `Generate` whose error is passed on unwrapped returns it. -/
def ForeignErrors (x : Externals) (p : WarpSyncProofProvider) : Prop :=
  (∀ n, p.blockState.GetHeaderByNumber n ≠ .error .startBlockNotFinalized) ∧
  (∀ h, p.blockState.GetJustification h ≠ .error .startBlockNotFinalized) ∧
  (∀ enc, x.decodeJustification enc ≠ .error .startBlockNotFinalized) ∧
  (∀ f, x.marshalFragment f ≠ .error .startBlockNotFinalized)

/-- The toy chain of the test `TestGenerateWarpSyncProofBlockNotFinalized`:
block 2 is the highest finalized one and block 3 is known. -/
def notFinalizedProvider : WarpSyncProofProvider :=
  NewWarpSyncProofProvider
    { sampleBlockState with GetHighestFinalisedHeader := .ok (sampleHeader 2 0) }
    sampleGrandpaState

/-! ## The warp sync strategy (`dot/sync/warp_sync.go`) -/

namespace Sync

/-- The Go `peer.ID`, a string of bytes. -/
abbrev PeerID := List Nat

/-- The errors returned by the strategy: `errBadBlockReceived` and the
errors of its collaborators. -/
inductive SyncError where
  | errBadBlockReceived
  | collaborator (code : Nat)
  deriving DecidableEq, Repr

/-- The panics of the strategy. -/
inductive SyncPanic where
  | failedToGetCurrentAuthorities (cause : WarpError)
  | failToEncodeWarpProof
  deriving DecidableEq, Repr

/-- The Go `peerset.ReputationChange`. -/
structure ReputationChange where
  Value : Int
  Reason : String
  deriving DecidableEq, Repr

/-- The Go `Change`: a reputation change and the peer it is for. -/
structure Change where
  who : PeerID
  rep : ReputationChange
  deriving DecidableEq, Repr

/-- The Go `network.BlockAnnounceMessage`; `Number` is a Go `uint`. -/
structure BlockAnnounceMessage where
  ParentHash : Hash
  Number : Nat
  StateRoot : Hash
  ExtrinsicsRoot : Hash
  Digest : List DigestItem
  BestBlock : Bool
  deriving DecidableEq, Repr

/-- The Go `network.BlockAnnounceHandshake`; `BestBlockNumber` is a `uint32`. -/
structure BlockAnnounceHandshake where
  Roles : Nat
  BestBlockNumber : Nat
  BestBlockHash : Hash
  GenesisHash : Hash
  deriving DecidableEq, Repr

/-- The Go `types.BlockData`, as far as the strategy is concerned: a value
that is stored and handed out. -/
structure BlockData where
  Hash : Hash
  Header : Option Header
  Body : Option (List (List Nat))
  Justification : Option (List Nat)
  deriving DecidableEq, Repr

/-- The direction of a block request. -/
inductive SyncDirection where
  | Ascending
  | Descending
  deriving DecidableEq, Repr

/-- The start of a block request: the variant built by `messages.NewFromBlock`. -/
inductive FromBlock where
  | hash (h : Hash)
  | number (n : Nat)
  deriving DecidableEq, Repr

/-- Modelled from the spec: the two requests of the package `messages` that
the strategy builds, `NewWarpProofRequest(begin)` and
`NewBlockRequest(startingBlock, max, requestedData, direction)`, as the
records of their arguments. -/
inductive Request where
  | WarpProofRequest (Begin : Hash)
  | BlockRequestMessage (StartingBlock : FromBlock) (Max : Nat) (RequestedData : Nat)
      (Direction : SyncDirection)
  deriving DecidableEq, Repr

/-- The dynamic type and value of a response: a `*warpsync.WarpSyncProof` or
a `*messages.BlockResponseMessage`. -/
inductive Response where
  | WarpSyncProof (proof : WarpSyncProof)
  | BlockResponseMessage (BlockData : List BlockData)
  deriving DecidableEq, Repr

/-- A `network.RequestMaker`: `none` is the nil interface, `some n` a handle. -/
abbrev RequestMaker := Option Nat

/-- The Go `SyncTask`; a nil request or response slot is `none`. -/
structure SyncTask where
  request : Option Request
  response : Option Response
  requestMaker : RequestMaker
  deriving DecidableEq, Repr

/-- The Go `SyncTaskResult`; a nil response is `none`. -/
structure SyncTaskResult where
  who : PeerID
  completed : Bool
  request : Option Request
  response : Option Response
  deriving DecidableEq, Repr

/-- The Go `RequestResponseData` of the shared validator; a nil
`responseData` is the empty list. -/
structure RequestResponseData where
  req : Option Request
  responseData : List BlockData
  deriving DecidableEq, Repr

/-- Modelled from the spec: `PeerView`, the best block of one peer. -/
structure peerView where
  bestBlockHash : Hash
  bestBlockNumber : Nat
  deriving DecidableEq, Repr

/-- Modelled from the spec: `peerViewSet`, the view of each peer, a map
from the peer to its `(best_hash, best_number)`. -/
structure peerViewSet where
  view : List (PeerID × peerView)
  deriving DecidableEq, Repr

/-- Modelled from the spec: `NewPeerViewSet`, no view known. -/
def NewPeerViewSet : peerViewSet :=
  { view := [] }

/-- Modelled from the spec: `update`, the view of the peer becomes
`(bestHash, bestNumber)`; `bestNumber` is a `uint32`. -/
def peerViewSet.update (p : peerViewSet) (peerID : PeerID) (bestHash : Hash)
    (bestNumber : Nat) : peerViewSet :=
  { view := mapPut peerID { bestBlockHash := bestHash, bestBlockNumber := bestNumber } p.view }

/-- Modelled from the spec: `getTarget`, "the maximum best_number known". -/
def peerViewSet.getTarget (p : peerViewSet) : Nat :=
  p.view.foldl (fun m v => max m v.2.bestBlockNumber) 0

/-- The collaborators of the strategy whose code is not embedded here, as
parameters: the codec and header hashing (`codec`), the hash of an announce
(`msg.Hash()`), the hexadecimal form of a hash (`common.Hash.String()`), the
shared validator of block responses (`validateResults`), the reputation
changes of `peerset` (each the pair of its `Value` and `Reason` constants)
and the `RequestedData` flags of `messages`. -/
structure Collaborators where
  codec : Externals
  announceHash : BlockAnnounceMessage → Except SyncError Hash
  hashString : Hash → String
  validateResults : List SyncTaskResult → List String →
    List Change × List PeerID × List RequestResponseData
  BadBlockAnnouncement : ReputationChange
  GossipSuccess : ReputationChange
  BadWarpProof : ReputationChange
  UnexpectedResponse : ReputationChange
  RequestedDataHeader : Nat
  RequestedDataBody : Nat
  RequestedDataJustification : Nat

/-- The Go `WarpSyncPhase`, a `uint`. -/
abbrev WarpSyncPhase := Nat

/-- The phase `WarpProof`. -/
def WarpProof : WarpSyncPhase := 0

/-- The phase `TargetBlock`. -/
def TargetBlock : WarpSyncPhase := 1

/-- The phase `Completed`. -/
def Completed : WarpSyncPhase := 2

/-- The Go interface `WarpSyncProofProvider` of the package `sync`. -/
structure WarpSyncProofProvider where
  CurrentAuthorities : Except WarpError AuthorityList
  Verify : List Nat → Nat → AuthorityList → Except WarpError WarpSyncVerificationResult

/-- The Go interface `BlockState` of the package `sync`, with the one method
the strategy calls. -/
structure BlockState where
  GetHighestFinalisedHeader : Except SyncError Header

/-- The Go `WarpSyncStrategy`; `startedAt` is a time in some unit and
`syncedFragments` a counter that no result depends on. -/
structure WarpSyncStrategy where
  peers : peerViewSet
  badBlocks : List String
  warpSyncReqMaker : RequestMaker
  syncReqMaker : RequestMaker
  warpSyncProvider : WarpSyncProofProvider
  blockState : BlockState
  startedAt : Nat
  phase : WarpSyncPhase
  syncedFragments : Nat
  setId : Nat
  authorities : AuthorityList
  lastBlock : Option Header
  result : BlockData

/-- The Go `WarpSyncConfig`, without the telemetry. -/
structure WarpSyncConfig where
  BadBlocks : List String
  WarpSyncRequestMaker : RequestMaker
  SyncRequestMaker : RequestMaker
  WarpSyncProvider : WarpSyncProofProvider
  BlockState : BlockState
  Peers : peerViewSet

/-- The zero value of `types.BlockData`. -/
def zeroBlockData : BlockData :=
  { Hash := [], Header := none, Body := none, Justification := none }

/-- The Go `NewWarpSyncStrategy`; it panics when the provider has no current authorities. -/
def NewWarpSyncStrategy (cfg : WarpSyncConfig) : Except SyncPanic WarpSyncStrategy :=
  match cfg.WarpSyncProvider.CurrentAuthorities with
  | .error e => .error (.failedToGetCurrentAuthorities e)
  | .ok authorities =>
    .ok { warpSyncProvider := cfg.WarpSyncProvider
          blockState := cfg.BlockState
          badBlocks := cfg.BadBlocks
          warpSyncReqMaker := cfg.WarpSyncRequestMaker
          syncReqMaker := cfg.SyncRequestMaker
          peers := cfg.Peers
          setId := 0
          authorities := authorities
          startedAt := 0
          phase := WarpProof
          syncedFragments := 0
          lastBlock := none
          result := zeroBlockData }

/-- The values returned by `Process`. -/
structure ProcessResult where
  done : Bool
  repChanges : List Change
  bans : List PeerID
  err : Option SyncError
  deriving DecidableEq, Repr

namespace WarpSyncStrategy

/-- The Go `OnBlockAnnounce`: the reputation change and the error, either of
which may be nil, and the strategy afterwards.  The announced number, a
`uint`, is converted to `uint32` for the peer view. -/
def OnBlockAnnounce (x : Collaborators) (w : WarpSyncStrategy) (who : PeerID)
    (msg : BlockAnnounceMessage) : (Option Change × Option SyncError) × WarpSyncStrategy :=
  match x.announceHash msg with
  | .error e => ((none, some e), w)
  | .ok blockAnnounceHeaderHash =>
    if x.hashString blockAnnounceHeaderHash ∈ w.badBlocks then
      ((some { who := who, rep := x.BadBlockAnnouncement }, some .errBadBlockReceived), w)
    else
      let w' :=
        if msg.BestBlock then
          { w with peers := w.peers.update who blockAnnounceHeaderHash (msg.Number % 2 ^ 32) }
        else w
      ((some { who := who, rep := x.GossipSuccess }, none), w')

/-- The Go `OnBlockAnnounceHandshake`. -/
def OnBlockAnnounceHandshake (w : WarpSyncStrategy) (who : PeerID)
    (msg : BlockAnnounceHandshake) : Option SyncError × WarpSyncStrategy :=
  (none, { w with peers := w.peers.update who msg.BestBlockHash msg.BestBlockNumber })

/-- The Go `lastBlockHeader`: the last block, read from the block state and
kept when there is none yet. -/
def lastBlockHeader (w : WarpSyncStrategy) : Except SyncError Header × WarpSyncStrategy :=
  match w.lastBlock with
  | none =>
    match w.blockState.GetHighestFinalisedHeader with
    | .error e => (.error e, w)
    | .ok header => (.ok header, { w with lastBlock := some header })
  | some header => (.ok header, w)

/-- The Go `NextActions`, called at the time `now`. -/
def NextActions (x : Collaborators) (w : WarpSyncStrategy) (now : Nat) :
    Except SyncError (List SyncTask) × WarpSyncStrategy :=
  match lastBlockHeader { w with startedAt := now } with
  | (.error e, w') => (.error e, w')
  | (.ok lastBlock, w') =>
    let task : SyncTask :=
      if w'.phase = WarpProof then
        { request := some (.WarpProofRequest (x.codec.headerHash lastBlock))
          response := some (.WarpSyncProof { Proofs := [], IsFinished := false, proofsLength := 0 })
          requestMaker := w'.warpSyncReqMaker }
      else if w'.phase = TargetBlock then
        { request := some (.BlockRequestMessage (.hash (x.codec.headerHash lastBlock)) 1
            (x.RequestedDataHeader + x.RequestedDataBody + x.RequestedDataJustification)
            .Ascending)
          response := some (.BlockResponseMessage [])
          requestMaker := w'.syncReqMaker }
      else { request := none, response := none, requestMaker := none }
    (.ok [task], w')

/-- The Go `IsSynced`. -/
def IsSynced (w : WarpSyncStrategy) : Bool :=
  decide (w.phase = Completed)

/-- The Go `Result`. -/
def Result (w : WarpSyncStrategy) : BlockData :=
  w.result

/-- The loop of `validateWarpSyncResults` over the results still to visit,
carrying `repChanges`, `peersToBlock`, `bestProof` and `bestResult`. -/
def validateLoop (x : Collaborators) (w : WarpSyncStrategy) :
    List SyncTaskResult →
      List Change × List PeerID × WarpSyncProof × Option WarpSyncVerificationResult →
      Except SyncPanic
        (List Change × List PeerID × WarpSyncProof × Option WarpSyncVerificationResult)
  | [], acc => .ok acc
  | result :: rest, (repChanges, peersToBlock, bestProof, bestResult) =>
    match result.response with
    | some (.WarpSyncProof response) =>
      if result.completed = false then
        validateLoop x w rest (repChanges, peersToBlock, bestProof, bestResult)
      else
        match marshalProof x.codec response with
        | .error _ => .error .failToEncodeWarpProof
        | .ok encodedProof =>
          match w.warpSyncProvider.Verify encodedProof w.setId w.authorities with
          | .error _ =>
            validateLoop x w rest
              (repChanges ++ [{ who := result.who, rep := x.BadWarpProof }],
               peersToBlock ++ [result.who], bestProof, bestResult)
          | .ok res =>
            if response.IsFinished = true ∨ response.Proofs.length > bestProof.Proofs.length then
              validateLoop x w rest (repChanges, peersToBlock, response, some res)
            else validateLoop x w rest (repChanges, peersToBlock, bestProof, bestResult)
    | _ =>
      validateLoop x w rest
        (repChanges ++ [{ who := result.who, rep := x.UnexpectedResponse }],
         peersToBlock ++ [result.who], bestProof, bestResult)

/-- The Go `validateWarpSyncResults`: the reputation changes, the peers to
block, the selected verification result and the strategy afterwards. -/
def validateWarpSyncResults (x : Collaborators) (w : WarpSyncStrategy)
    (results : List SyncTaskResult) :
    Except SyncPanic
      ((List Change × List PeerID × Option WarpSyncVerificationResult) × WarpSyncStrategy) :=
  match validateLoop x w results
      ([], [], { Proofs := [], IsFinished := false, proofsLength := 0 }, none) with
  | .error p => .error p
  | .ok (repChanges, peersToBlock, bestProof, bestResult) =>
    .ok ((repChanges, peersToBlock, bestResult),
      { w with syncedFragments := w.syncedFragments + bestProof.Proofs.length })

/-- The Go `Process`. -/
def Process (x : Collaborators) (w : WarpSyncStrategy) (results : List SyncTaskResult) :
    Except SyncPanic (ProcessResult × WarpSyncStrategy) :=
  if w.phase = WarpProof then
    match validateWarpSyncResults x w results with
    | .error p => .error p
    | .ok ((repChanges, bans, warpProofResult), w₁) =>
      let w₂ :=
        match warpProofResult with
        | some r =>
          if r.Completed = false then
            { w₁ with lastBlock := some r.Header, setId := r.SetId,
                      authorities := r.AuthorityList }
          else { w₁ with lastBlock := some r.Header, phase := TargetBlock }
        | none => w₁
      .ok ({ done := IsSynced w₂, repChanges := repChanges, bans := bans, err := none }, w₂)
  else if w.phase = TargetBlock then
    match x.validateResults results w.badBlocks with
    | (repChanges, bans, validRes) =>
      let w₂ :=
        match validRes with
        | first :: _ =>
          match first.responseData with
          | blockData :: _ => { w with result := blockData, phase := Completed }
          | [] => w
        | [] => w
      .ok ({ done := IsSynced w₂, repChanges := repChanges, bans := bans, err := none }, w₂)
  else .ok ({ done := IsSynced w, repChanges := [], bans := [], err := none }, w)

end WarpSyncStrategy

end Sync

namespace Sync

/-! ### Runs of the strategy and the words of the specification -/

/-- A call of one of the operations of the strategy. -/
inductive StrategyCall where
  | OnBlockAnnounce (who : PeerID) (msg : BlockAnnounceMessage)
  | OnBlockAnnounceHandshake (who : PeerID) (msg : BlockAnnounceHandshake)
  | NextActions (now : Nat)
  | Process (results : List SyncTaskResult)

/-- The strategy after one call, or the panic of the call. -/
def StrategyCall.step (x : Collaborators) (w : WarpSyncStrategy) :
    StrategyCall → Except SyncPanic WarpSyncStrategy
  | .OnBlockAnnounce who msg => .ok (w.OnBlockAnnounce x who msg).2
  | .OnBlockAnnounceHandshake who msg => .ok (w.OnBlockAnnounceHandshake who msg).2
  | .NextActions now => .ok (w.NextActions x now).2
  | .Process results =>
    match w.Process x results with
    | .error p => .error p
    | .ok (_, w') => .ok w'

/-- The strategy after a sequence of calls. -/
def runCalls (x : Collaborators) : WarpSyncStrategy → List StrategyCall →
    Except SyncPanic WarpSyncStrategy
  | w, [] => .ok w
  | w, c :: rest =>
    match c.step x w with
    | .error p => .error p
    | .ok w' => runCalls x w' rest

/-- Whether the call is a `Process` in phase `WarpProof` that selects a
verification result: a proof is processed. -/
def StrategyCall.processesProof (x : Collaborators) (w : WarpSyncStrategy) :
    StrategyCall → Bool
  | .Process results =>
    decide (w.phase = WarpProof) &&
      (match w.validateWarpSyncResults x results with
       | .ok ((_, _, some _), _) => true
       | _ => false)
  | _ => false

/-- The number of proofs processed along a sequence of calls. -/
def proofsProcessed (x : Collaborators) : WarpSyncStrategy → List StrategyCall → Nat
  | _, [] => 0
  | w, c :: rest =>
    match c.step x w with
    | .error _ => 0
    | .ok w' => (if c.processesProof x w then 1 else 0) + proofsProcessed x w' rest

/-- Every completed `WarpSyncProof` response of the list encodes, as the
strategy expects of a response that was decoded. -/
def Encodable (x : Collaborators) (results : List SyncTaskResult) : Prop :=
  ∀ r ∈ results, ∀ proof, r.response = some (.WarpSyncProof proof) → r.completed = true →
    ∃ enc, marshalProof x.codec proof = .ok enc

/-- The response of the result is not a `WarpSyncProof`. -/
def unexpectedResponse (r : SyncTaskResult) : Bool :=
  match r.response with
  | some (.WarpSyncProof _) => false
  | _ => true

/-- The result carries a completed `WarpSyncProof` whose encoding the
provider rejects for the set id and the authorities of the strategy. -/
def failsVerification (x : Collaborators) (w : WarpSyncStrategy) (r : SyncTaskResult) : Bool :=
  match r.response with
  | some (.WarpSyncProof proof) =>
    r.completed &&
      (match marshalProof x.codec proof with
       | .ok enc =>
         (match w.warpSyncProvider.Verify enc w.setId w.authorities with
          | .error _ => true
          | .ok _ => false)
       | .error _ => false)
  | _ => false

/-- The peers to penalize, in the words of the specification: those whose
response is not a `WarpSyncProof` or whose completed proof fails verification. -/
def penalized (x : Collaborators) (w : WarpSyncStrategy) (r : SyncTaskResult) : Bool :=
  unexpectedResponse r || failsVerification x w r

/-- The reputation change of a penalized peer, in the words of the
specification: `UnexpectedResponse`, respectively `BadWarpProof`. -/
def penaltyOf (x : Collaborators) (r : SyncTaskResult) : Change :=
  { who := r.who, rep := if unexpectedResponse r then x.UnexpectedResponse else x.BadWarpProof }

/-! ### Concrete collaborators for the instances -/

/-- A toy validator of block responses: every completed block response is
valid and nobody is penalized. -/
def sampleValidateResults (results : List SyncTaskResult) (_badBlocks : List String) :
    List Change × List PeerID × List RequestResponseData :=
  ([], [], results.filterMap (fun r =>
    match r.response with
    | some (.BlockResponseMessage blockData) =>
      if r.completed then some { req := r.request, responseData := blockData } else none
    | _ => none))

/-- Toy collaborators: the codec of `sampleExternals`, the hash of an
announce is its number, a hash prints as the characters of its bytes. -/
def sampleCollaborators : Collaborators :=
  { codec := sampleExternals
    announceHash := fun msg => .ok [msg.Number]
    hashString := fun h => String.mk (h.map Char.ofNat)
    validateResults := sampleValidateResults
    BadBlockAnnouncement := { Value := -4, Reason := "Bad block announcement" }
    GossipSuccess := { Value := 1, Reason := "Successful gossip" }
    BadWarpProof := { Value := -3, Reason := "Bad warp proof" }
    UnexpectedResponse := { Value := -2, Reason := "Unexpected response" }
    RequestedDataHeader := 1
    RequestedDataBody := 2
    RequestedDataJustification := 16 }

/-- A toy provider: it rejects the encodings of at most two bytes (the empty
proofs) and accepts the others, reporting the length of the encoding as the
number of the header and the last byte as `Completed`. -/
def sampleSyncProvider : WarpSyncProofProvider :=
  { CurrentAuthorities := .ok []
    Verify := fun enc setId authorities =>
      if enc.length ≤ 2 then .error .emptyWarpSyncProof
      else .ok { SetId := setId + 1, AuthorityList := authorities,
                 Header := sampleHeader enc.length 0,
                 Completed := decide (enc.getLast? = some 1) } }

/-- A toy configuration: the block with the hash `[66]` ("B") is a bad
block and block 1 is the highest finalized one. -/
def sampleConfig : WarpSyncConfig :=
  { BadBlocks := ["B"]
    WarpSyncRequestMaker := some 1
    SyncRequestMaker := some 2
    WarpSyncProvider := sampleSyncProvider
    BlockState := { GetHighestFinalisedHeader := .ok (sampleHeader 1 0) }
    Peers := NewPeerViewSet }

/-- The strategy that `NewWarpSyncStrategy` builds from the toy configuration. -/
def sampleStrategy : WarpSyncStrategy :=
  { peers := NewPeerViewSet
    badBlocks := ["B"]
    warpSyncReqMaker := some 1
    syncReqMaker := some 2
    warpSyncProvider := sampleSyncProvider
    blockState := { GetHighestFinalisedHeader := .ok (sampleHeader 1 0) }
    startedAt := 0
    phase := WarpProof
    syncedFragments := 0
    setId := 0
    authorities := []
    lastBlock := none
    result := zeroBlockData }

/-- An announce of the block `n`, with the given `BestBlock` flag. -/
def sampleAnnounce (n : Nat) (best : Bool) : BlockAnnounceMessage :=
  { ParentHash := [0, 1, 2], Number := n, StateRoot := [3, 3, 3, 3],
    ExtrinsicsRoot := [4, 4, 4, 4], Digest := [], BestBlock := best }

/-- A toy proof of `n` fragments. -/
def sampleProofOf (n : Nat) (finished : Bool) : WarpSyncProof :=
  { Proofs := List.replicate n (sampleFragment 10 7 0 10), IsFinished := finished,
    proofsLength := 0 }

/-- The completed result of the peer `[k]` carrying a toy proof of `n` fragments. -/
def sampleProofResult (k n : Nat) (finished : Bool) : SyncTaskResult :=
  { who := [k], completed := true, request := some (.WarpProofRequest [1]),
    response := some (.WarpSyncProof (sampleProofOf n finished)) }

/-- The completed result of the peer `[k]` carrying a block response. -/
def sampleBlockResult (k : Nat) (blockData : List BlockData) : SyncTaskResult :=
  { who := [k], completed := true,
    request := some (.BlockRequestMessage (.hash [1]) 1 19 .Ascending),
    response := some (.BlockResponseMessage blockData) }

/-- The toy block data of the block with the hash `[n]`. -/
def sampleBlockData (n : Nat) : BlockData :=
  { Hash := [n], Header := some (sampleHeader n 0), Body := some [], Justification := none }

end Sync

namespace Sync

/-- The last block of the strategy is still the one the block state gives
as the highest finalized header, or none is kept yet. -/
def LastBlockInv (blockState : BlockState) (w : WarpSyncStrategy) : Prop :=
  w.blockState = blockState ∧
  (w.lastBlock = none ∨
    ∃ header, blockState.GetHighestFinalisedHeader = .ok header ∧ w.lastBlock = some header)

/-- The candidate of a result, in the words of the specification: the proof
of a completed `WarpSyncProof` response that the provider verifies, with the
verification result. -/
def candidate (x : Collaborators) (w : WarpSyncStrategy) (r : SyncTaskResult) :
    Option (WarpSyncProof × WarpSyncVerificationResult) :=
  match r.response with
  | some (.WarpSyncProof proof) =>
    if r.completed = true then
      match marshalProof x.codec proof with
      | .ok enc =>
        match w.warpSyncProvider.Verify enc w.setId w.authorities with
        | .ok res => some (proof, res)
        | .error _ => none
      | .error _ => none
    else none
  | _ => none

/-- The strategy in phase `TargetBlock` after the toy proofs were processed. -/
def sampleTargetStrategy : WarpSyncStrategy :=
  { sampleStrategy with phase := TargetBlock, lastBlock := some (sampleHeader 12 0) }

end Sync

/-- A trie holding `[1] ↦ [7]`, one open transaction, and `Delete([1])` in it. -/
def deletedOneScenario : TrieState :=
  ((TrieState.NewTrieState sampleTrie).StartTransaction).Delete [1]

/-- Over `sampleTrie`, whose child `[9]` holds `[3] ↦ [4]` and `[5] ↦ [6]`:
one open transaction in which `[8] ↦ [2]` is set and `[3]` is cleared in the child. -/
def stagedChildScenario : TrieState :=
  (((TrieState.NewTrieState sampleTrie).StartTransaction).SetChildStorage [9] [8]
    (some [2])).ClearChildStorage [9] [3] |>.1

/-- The proof built from `NewWarpSyncProof` by `addFragment` calls with the
given fragments, one after the other; a call that fails or reaches the limit
leaves the proof as it is. -/
def buildProof (x : Externals) : List WarpSyncFragment → WarpSyncProof → WarpSyncProof
  | [], w => w
  | f :: rest, w =>
    match w.addFragment x f with
    | .ok (w', _) => buildProof x rest w'
    | .error _ => buildProof x rest w

/-- A proof whose one fragment has the greatest `uint32` as its commit target number. -/
def lastBlockProof : WarpSyncProof :=
  { Proofs := [{ Header := sampleHeader 4294967295 0,
                 Justification := sampleJustification 0 4294967295 }],
    IsFinished := false, proofsLength := 3 }

namespace Sync

/-! ## The sync service (`dot/sync/service.go`, `dot/sync/configuration.go`) -/

/-- A value of the Go interface `Strategy` held by the service: the identity
of a strategy object.  A nil interface is `none`. -/
abbrev Strategy := Nat

/-- A `time.Duration`, in nanoseconds. -/
abbrev Duration := Int

/-- The Go `time.Second`. -/
def Second : Duration := 1000000000

/-- The Go `waitPeersDefaultTimeout`. -/
def waitPeersDefaultTimeout : Duration := 10 * Second

/-- The Go `minPeersDefault`. -/
def minPeersDefault : Int := 1

/-- The worker pool that `newSyncWorkerPool(net)` builds, by the network it was built for. -/
structure syncWorkerPool where
  network : Option Nat
  deriving DecidableEq, Repr

/-- The Go `SyncService`, without the mutex, the wait group and the stop
channel; the network and the block state are identities of objects, and
`seenBlockSyncRequests` is the capacity of the cache. -/
structure SyncService where
  network : Option Nat
  blockState : Option Nat
  currentStrategy : Option Strategy
  fullSyncStrategy : Option Strategy
  warpSyncStrategy : Option Strategy
  workerPool : Option syncWorkerPool
  waitPeersDuration : Duration
  minPeers : Int
  slotDuration : Duration
  seenBlockSyncRequests : Nat
  deriving DecidableEq, Repr

/-- The options of `configuration.go`, each by its argument. -/
inductive ServiceConfig where
  | WithWarpSyncStrategy (warpSyncStrategy : Option Strategy)
  | WithFullSyncStrategy (fullSyncStrategy : Option Strategy)
  | WithNetwork (net : Option Nat)
  | WithBlockState (bs : Option Nat)
  | WithSlotDuration (slotDuration : Duration)
  | WithMinPeers (min : Int)
  deriving DecidableEq, Repr

/-- The function that the option is: what it does to the service. -/
def ServiceConfig.apply : ServiceConfig → SyncService → SyncService
  | .WithWarpSyncStrategy warpSyncStrategy, svc => { svc with warpSyncStrategy := warpSyncStrategy }
  | .WithFullSyncStrategy fullSyncStrategy, svc => { svc with fullSyncStrategy := fullSyncStrategy }
  | .WithNetwork net, svc => { svc with network := net, workerPool := some { network := net } }
  | .WithBlockState bs, svc => { svc with blockState := bs }
  | .WithSlotDuration slotDuration, svc => { svc with slotDuration := slotDuration }
  | .WithMinPeers min, svc => { svc with minPeers := min }

/-- The Go `NewSyncService`: the defaults, the options in order, then the
initial strategy. -/
def NewSyncService (cfgs : List ServiceConfig) : SyncService :=
  let svc := cfgs.foldl (fun svc cfg => cfg.apply svc)
    { network := none, blockState := none, currentStrategy := none, fullSyncStrategy := none,
      warpSyncStrategy := none, workerPool := none,
      waitPeersDuration := waitPeersDefaultTimeout, minPeers := minPeersDefault,
      slotDuration := 0, seenBlockSyncRequests := 100 }
  if svc.warpSyncStrategy ≠ none then { svc with currentStrategy := svc.warpSyncStrategy }
  else { svc with currentStrategy := svc.fullSyncStrategy }

/-- The warp-sync strategy that the options configure: the argument of the
last `WithWarpSyncStrategy`, nil when there is none. -/
def configuredWarp (cfgs : List ServiceConfig) : Option Strategy :=
  (cfgs.filterMap (fun cfg =>
    match cfg with
    | .WithWarpSyncStrategy s => some s
    | _ => none)).getLast?.getD none

/-- The full-sync strategy that the options configure. -/
def configuredFull (cfgs : List ServiceConfig) : Option Strategy :=
  (cfgs.filterMap (fun cfg =>
    match cfg with
    | .WithFullSyncStrategy s => some s
    | _ => none)).getLast?.getD none

/-- The `min_peers` that the options set, if any does. -/
def configuredMinPeers (cfgs : List ServiceConfig) : Option Int :=
  (cfgs.filterMap (fun cfg =>
    match cfg with
    | .WithMinPeers n => some n
    | _ => none)).getLast?

/-- The panics of a tick: a call on a nil strategy, or the panic of the strategy. -/
inductive ServicePanic where
  | nilPointerDereference
  | strategy (p : SyncPanic)
  deriving DecidableEq, Repr

/-- The behaviour of the strategy objects, over the store `σ` of their
states: what each method does when called on the strategy of the given identity. -/
structure StrategyOps (σ : Type) where
  NextActions : Strategy → σ → Except SyncError (List SyncTask) × σ
  Process : Strategy → List SyncTaskResult → σ → Except SyncPanic (ProcessResult × σ)
  ShowMetrics : Strategy → σ → σ

/-- What the collaborators of one tick answer: the block state, and the
worker pool for the submitted tasks. -/
structure TickEnv where
  GetHighestFinalisedHeader : Except SyncError Header
  BestBlockHeader : Except SyncError Header
  submitRequests : List SyncTask → List SyncTaskResult

/-- What a tick does to the outside: the reputation changes reported to the
network (`ReportPeer`) and the peers banned (`ignorePeerAsWorker`), in order. -/
structure TickEffects where
  reported : List Change
  ignored : List PeerID
  deriving DecidableEq, Repr

/-- The Go `runStrategy`, one tick: the service and the store of the
strategies afterwards, and the effects; the log lines are left out. -/
def runStrategy {σ : Type} (ops : StrategyOps σ) (env : TickEnv) (s : SyncService) (st : σ) :
    Except ServicePanic ((SyncService × σ) × TickEffects) :=
  match env.GetHighestFinalisedHeader with
  | .error _ => .ok ((s, st), { reported := [], ignored := [] })
  | .ok _ =>
    match env.BestBlockHeader with
    | .error _ => .ok ((s, st), { reported := [], ignored := [] })
    | .ok _ =>
      match s.currentStrategy with
      | none => .error .nilPointerDereference
      | some current =>
        match ops.NextActions current st with
        | (.error _, st₁) => .ok ((s, st₁), { reported := [], ignored := [] })
        | (.ok tasks, st₁) =>
          if tasks.length = 0 then .ok ((s, st₁), { reported := [], ignored := [] })
          else
            match ops.Process current (env.submitRequests tasks) st₁ with
            | .error p => .error (.strategy p)
            | .ok (out, st₂) =>
              if out.err ≠ none then .ok ((s, st₂), { reported := [], ignored := [] })
              else
                let s' :=
                  if out.done = true then
                    if s.warpSyncStrategy ≠ none then
                      { s with currentStrategy := s.fullSyncStrategy }
                    else s
                  else s
                .ok ((s', ops.ShowMetrics current st₂),
                  { reported := out.repChanges, ignored := out.bans })

/-- What `NextActions` returns in the tick, when the tick calls it. -/
def tickNextActions {σ : Type} (ops : StrategyOps σ) (env : TickEnv) (s : SyncService)
    (st : σ) : Option (Except SyncError (List SyncTask)) :=
  match env.GetHighestFinalisedHeader, env.BestBlockHeader, s.currentStrategy with
  | .ok _, .ok _, some current => some (ops.NextActions current st).1
  | _, _, _ => none

/-- What `Process` returns in the tick, when the tick calls it and it returns. -/
def tickProcess {σ : Type} (ops : StrategyOps σ) (env : TickEnv) (s : SyncService)
    (st : σ) : Option ProcessResult :=
  match env.GetHighestFinalisedHeader, env.BestBlockHeader, s.currentStrategy with
  | .ok _, .ok _, some current =>
    match ops.NextActions current st with
    | (.ok tasks, st₁) =>
      if tasks.length = 0 then none
      else
        match ops.Process current (env.submitRequests tasks) st₁ with
        | .ok (out, _) => some out
        | .error _ => none
    | (.error _, _) => none
  | _, _, _ => none

/-- The service and the store after a sequence of ticks. -/
def runTicks {σ : Type} (ops : StrategyOps σ) : List TickEnv → SyncService → σ →
    Except ServicePanic (SyncService × σ)
  | [], s, st => .ok (s, st)
  | env :: rest, s, st =>
    match runStrategy ops env s st with
    | .error p => .error p
    | .ok ((s', st'), _) => runTicks ops rest s' st'

/-- Toy strategies over a store that counts the `Process` calls: the
strategy 1 (warp) is done at its second `Process`, the strategy 2 (full)
never; each asks for one task. -/
def sampleOps : StrategyOps Nat :=
  { NextActions := fun _ n => (.ok [{ request := none, response := none, requestMaker := none }], n)
    Process := fun strategy _ n =>
      .ok ({ done := decide (strategy = 1 ∧ n ≥ 1), repChanges := [], bans := [], err := none },
        n + 1)
    ShowMetrics := fun _ n => n }

/-- A tick environment in which the block state answers. -/
def sampleTickEnv : TickEnv :=
  { GetHighestFinalisedHeader := .ok (sampleHeader 1 0)
    BestBlockHeader := .ok (sampleHeader 1 0)
    submitRequests := fun _ => [] }

end Sync

/-! ## GRANDPA justification verification and ancestry

`internal/client/consensus/grandpa/justification.go` is not among the
sources; its tests are (`justification_test.go`). -/

/-- Modelled from the spec: the reasons of a `BadJustification` in the error
list of the spec; the function that reports them, `verifyWithVoterSet` of
`justification.go`, is missing. -/
inductive BadJustification where
  | InvalidCommitTarget
  | InvalidCommit
  | InvalidPrecommitAncestries
  | UnusedAncestryHeaders
  | SignatureFailed
  deriving DecidableEq, Repr

/-- Modelled from the spec: the errors of justification verification and of
the ancestry traversal (`errBadJustification` and
`errBlockNotDescendentOfBase` in `justification_test.go`); their
declarations in `justification.go` are missing. -/
inductive JustificationError where
  | errBadJustification (reason : BadJustification)
  | errBlockNotDescendentOfBase
  deriving DecidableEq, Repr

/-- Modelled from the spec: the collaborators of the missing
`justification.go`, as parameters: header hashing, and the check of the
signature of a precommit by the claimed authority over the localized payload
(precommit, round, set id). -/
structure GrandpaExternals where
  headerHash : Header → Hash
  checkMessageSignature : Precommit → List Nat → List Nat → Nat → Nat → Bool

/-- Modelled from the spec: the `AncestryChain` of §4.3, "a lookup from hash
to header built from `vote_ancestries`"; the type `ancestryChain` of
`justification.go` is missing (`Test_newAncestryChain` shows its one field,
the map `ancestry`). -/
structure ancestryChain where
  ancestry : List (Hash × Header)
  deriving DecidableEq, Repr

/-- Modelled from the spec: `newAncestryChain` of the missing
`justification.go`, the "mapping from each header's hash to the header
itself". -/
def newAncestryChain (headerHash : Header → Hash) (headers : List Header) : ancestryChain :=
  { ancestry := headers.foldl (fun m header => mapPut (headerHash header) header m) [] }

namespace ancestryChain

/-- Modelled from the spec: the traversal of §4.3 step 4, missing with
`justification.go`: "starting from precommit target, follow parent-hash
links until either commit target is reached (success, collecting the
intermediate set of visited hashes) or a header is missing
(`BlockNotDescendantOfBase`)".  The result lists the hashes whose header
was looked up, the starting block first; `none` is a traversal that has not
ended within `fuel` look-ups. -/
def visit (ac : ancestryChain) (base : Hash) :
    Nat → Hash → Option (Except JustificationError (List Hash))
  | 0, _ => none
  | fuel + 1, current =>
    if current = base then some (.ok [])
    else
      match mapGet current ac.ancestry with
      | none => some (.error .errBlockNotDescendentOfBase)
      | some header =>
        match visit ac base fuel header.ParentHash with
        | some (.ok rest) => some (.ok (current :: rest))
        | other => other

/-- Modelled from the spec: `Ancestry` of the missing `justification.go`,
"`ancestry(base, block)` → ordered sequence of intermediate hashes
(excluding both endpoints; empty when base==block)": the hashes visited from
`block`, without `block` itself.  The traversal gets one look-up more than
the chain has headers; `none` is a traversal that does not end, which then
goes round a cycle of parent links. -/
def Ancestry (ac : ancestryChain) (base block : Hash) :
    Option (Except JustificationError (List Hash)) :=
  match ac.visit base (ac.ancestry.length + 1) block with
  | none => none
  | some (.error e) => some (.error e)
  | some (.ok visited) => some (.ok visited.tail)

/-- Modelled from the spec: `IsEqualOrDescendantOf` of the missing
`justification.go`, "`is_equal_or_descendant_of(base, block)` → bool":
whether the traversal from `block` reaches `base`. -/
def IsEqualOrDescendantOf (ac : ancestryChain) (base block : Hash) : Option Bool :=
  match ac.Ancestry base block with
  | none => none
  | some (.error _) => some false
  | some (.ok _) => some true

/-- Following parent-hash links from `block` through headers present in the
chain reaches `base`; `path` lists the hashes passed, from `block` to the
child of `base`. -/
inductive Reaches (ac : ancestryChain) (base : Hash) : Hash → List Hash → Prop where
  | arrived : Reaches ac base base []
  | step (block : Hash) (header : Header) (rest : List Hash) :
      block ≠ base → mapGet block ac.ancestry = some header →
      Reaches ac base header.ParentHash rest → Reaches ac base block (block :: rest)

/-- No cycle of parent links in the chain: the hashes can be ranked so that
the parent hash of every header of the chain ranks below the hash of the
header.  A hash function gives no header whose hash is the parent hash of
one of its ancestors. -/
def Acyclic (ac : ancestryChain) : Prop :=
  ∃ rank : Hash → Nat, ∀ e ∈ ac.ancestry, rank e.2.ParentHash < rank e.1

/-- Modelled from the spec: the loop of §4.3 step 4 in the missing
`verifyWithVoterSet`, over the precommits in order: "for each precommit
whose target ≠ commit target, compute the ancestry path from commit target
to precommit target using the chain", collecting the visited hashes. -/
def visitedHashes (ac : ancestryChain) (base : Hash) :
    List SignedPrecommit → Option (Except JustificationError (List Hash))
  | [] => some (.ok [])
  | signed :: rest =>
    if signed.Precommit.TargetHash = base then visitedHashes ac base rest
    else
      match ac.visit base (ac.ancestry.length + 1) signed.Precommit.TargetHash with
      | none => none
      | some (.error e) => some (.error e)
      | some (.ok visited) =>
        match visitedHashes ac base rest with
        | some (.ok more) => some (.ok (visited ++ more))
        | other => other

/-- The hashes visited while walking from each precommit target back to the
commit target `base`. -/
def Visited (ac : ancestryChain) (base : Hash) (precommits : List SignedPrecommit)
    (h : Hash) : Prop :=
  ∃ signed ∈ precommits, signed.Precommit.TargetHash ≠ base ∧
    ∃ path, ac.Reaches base signed.Precommit.TargetHash path ∧ h ∈ path

end ancestryChain

/-- Modelled from the spec: the weight of a voter in the voter set, 0 for an
id that is not a voter (`grandpa.VoterSet` of `pkg/finality-grandpa` is missing). -/
def voterWeight (voters : AuthorityList) (id : List Nat) : Nat :=
  match voters.find? (fun e => decide (e.1 = id)) with
  | some e => e.2
  | none => 0

/-- Modelled from the spec: `threshold(voters) = floor(2·total_weight/3) + 1`. -/
def threshold (voters : AuthorityList) : Nat :=
  2 * (voters.map Prod.snd).sum / 3 + 1

namespace GrandpaJustification

/-- Modelled from the spec: the valid weight of §4.3 step 2, computed by the
missing `verifyWithVoterSet`: the "signed weight of precommits whose
signature verifies over the canonical localized payload
`(Precommit, {target_hash, target_number}, round, set_id)` against the
claimed authority; duplicate voter IDs count once". -/
def validWeight (x : GrandpaExternals) (j : GrandpaJustification) (setID : Nat)
    (voters : AuthorityList) : Nat :=
  ((((j.Commit.Precommits.filter (fun signed =>
      x.checkMessageSignature signed.Precommit signed.ID signed.Signature j.Round setID)).map
    (fun signed => signed.ID)).dedup).map (voterWeight voters)).sum

/-- Modelled from the spec: `verifyWithVoterSet` of the missing
`justification.go`, steps 2 to 5 of §4.3: the commit is valid iff the valid
weight reaches the threshold; every precommit target other than the commit
target is walked back to the commit target through the ancestry chain of
`vote_ancestries`; and "the set of headers in `vote_ancestries` must be
exactly the set of headers visited".  `none` is a verification that does
not end. -/
def verifyWithVoterSet (x : GrandpaExternals) (j : GrandpaJustification) (setID : Nat)
    (voters : AuthorityList) : Option (Except JustificationError Unit) :=
  if j.validWeight x setID voters < threshold voters then
    some (.error (.errBadJustification .InvalidCommit))
  else
    match (newAncestryChain x.headerHash j.VoteAncestries).visitedHashes
        j.Commit.TargetHash j.Commit.Precommits with
    | none => none
    | some (.error _) => some (.error (.errBadJustification .InvalidPrecommitAncestries))
    | some (.ok visited) =>
      if (j.VoteAncestries.map x.headerHash).all (fun h => decide (h ∈ visited)) = true ∧
          visited.all (fun h => decide (h ∈ j.VoteAncestries.map x.headerHash)) = true then
        some (.ok ())
      else some (.error (.errBadJustification .InvalidPrecommitAncestries))

/-- Modelled from the spec: the verification of §4.3 "given (justification,
expected_target_hash, expected_target_number, voters)", which
`DecodeGrandpaJustificationVerifyFinalizes` of the missing
`justification.go` runs on the decoded justification: step 1, then
`verifyWithVoterSet`. -/
def verifyFinalizes (x : GrandpaExternals) (j : GrandpaJustification)
    (expectedHash : Hash) (expectedNumber : Nat) (setID : Nat) (voters : AuthorityList) :
    Option (Except JustificationError Unit) :=
  if j.Commit.TargetHash = expectedHash ∧ j.Commit.TargetNumber = expectedNumber then
    j.verifyWithVoterSet x setID voters
  else some (.error (.errBadJustification .InvalidCommitTarget))

end GrandpaJustification

/-- The headers of the tests of `justification_test.go`, by number: the
header `n` has the parent hash `[n - 1]`. -/
def testHeader (n : Nat) : Header :=
  { ParentHash := [n - 1], Number := n, StateRoot := [], ExtrinsicsRoot := [], Digest := [] }

/-- Toy collaborators: the hash of a header is its number, and the signature
of a voter is its id followed by the target number, the round and the set id. -/
def sampleGrandpaExternals : GrandpaExternals :=
  { headerHash := fun header => [header.Number]
    checkMessageSignature := fun precommit id signature round setID =>
      decide (signature = id ++ [precommit.TargetNumber, round, setID]) }

/-- The precommit of the voter `id` for the block `n` in the round `round`
of the set `setID`, as `makePrecommit` of the tests builds it. -/
def makePrecommit (n round setID : Nat) (id : List Nat) : SignedPrecommit :=
  { Precommit := { TargetHash := [n], TargetNumber := n }
    Signature := id ++ [n, round, setID]
    ID := id }

/-- The four voters of weight 1 of the tests. -/
def testVoters : AuthorityList := [([1], 1), ([2], 1), ([3], 1), ([4], 1)]

/-- The justification of the tests of `verifyWithVoterSet`: round 1, the
commit of block 1 with precommits of two voters for block 1 and of a third
for block 2, and the given vote ancestries. -/
def testJustification (voteAncestries : List Header) : GrandpaJustification :=
  { Round := 1
    Commit := { TargetHash := [1], TargetNumber := 1
                Precommits := [makePrecommit 1 1 2 [1], makePrecommit 1 1 2 [2],
                  makePrecommit 2 1 2 [3]] }
    VoteAncestries := voteAncestries }

/-- A proof of one fragment, the handoff of block 10 signed in the round
`2 ^ 64 - 1`, which the toy verifier accepts under the set id `2 ^ 64 - 1`. -/
def lastSetIdProof : WarpSyncProof :=
  { Proofs := [sampleFragment 10 7 18446744073709551615 10], IsFinished := false,
    proofsLength := 0 }

/-- The invariant of the specification on a diff: its `sorted_keys` are the
keys it upserts and the keys it deletes. -/
def KeysUnion (d : storageDiff) : Prop :=
  ∀ key, key ∈ d.sortedKeys ↔ key ∈ mapKeys d.upserts ∨ key ∈ d.deletes

/-- Every open transaction lists in `sortedKeys` the keys it upserts and deletes. -/
def KeysUnionInv (t : TrieState) : Prop :=
  ∀ d ∈ t.transactions, KeysUnion d

/-! # Properties -/

/-! ## Running well-bracketed sequences -/

theorem run_append (a b : List Call) (t : TrieState) :
    run (a ++ b) t = (match run a t with | .ok t' => run b t' | .error p => .error p) := by
  induction a generalizing t with
  | nil => simp [run]
  | cons c cs ih =>
    simp only [List.cons_append, run]
    cases c.step t with
    | ok t' => simpa using ih t'
    | error p => rfl

theorem Mutation.apply_open (m : Mutation) (tr : Trie) (d : storageDiff) (rest : List storageDiff) :
    m.apply { state := tr, transactions := d :: rest }
      = { state := tr, transactions := m.onTop tr d :: rest } := by
  cases m <;> rfl

theorem Prog.run_open (p : Prog) (tr : Trie) (d : storageDiff) (rest : List storageDiff) :
    run p.calls { state := tr, transactions := d :: rest }
      = .ok { state := tr, transactions := p.onTop tr d :: rest } := by
  induction p generalizing d rest with
  | done => rfl
  | op m r ih =>
    simp only [Prog.calls, run, Call.step, Mutation.apply_open, Prog.onTop]
    exact ih _ _
  | nested body c r ihb ihr =>
    simp only [Prog.calls, run, Call.step, TrieState.StartTransaction,
      TrieState.getCurrentTransaction, List.head?, run_append, storageDiff.snapshot]
    rw [ihb]
    cases c
    · simp only [run, Call.step, TrieState.RollbackTransaction, Prog.onTop]
      simpa using ihr d rest
    · simp only [run, Call.step, TrieState.CommitTransaction, Prog.onTop, storageDiff.snapshot]
      simpa using ihr _ rest

theorem Prog.calls_ofMutations (ms : List Mutation) :
    (Prog.ofMutations ms).calls = ms.map Call.mutate := by
  induction ms with
  | nil => rfl
  | cons m ms ih => simp [Prog.ofMutations, Prog.calls, ih]

/-! ## Rollback, commit and root -/

theorem run_start_rollback (t : TrieState) (p : Prog) :
    run (Call.start :: (p.calls ++ [Call.rollback])) t = .ok t := by
  obtain ⟨tr, txs⟩ := t
  simp only [run, Call.step, TrieState.StartTransaction, run_append, Prog.run_open,
    TrieState.RollbackTransaction]

/-- C1: whatever well-bracketed sequence of overlay mutations (with any
nested transactions) runs between a `StartTransaction` and its matching
`RollbackTransaction`, the run does not panic and ends in the very state it
started from: `Get` and `NextKey` answer as before for every key, the
underlying trie is unchanged and so is the transaction depth. -/
theorem rollback_restores_state (t : TrieState) (p : Prog) :
    ∃ t', run (Call.start :: (p.calls ++ [Call.rollback])) t = .ok t' ∧
      (∀ k, t'.Get k = t.Get k) ∧ (∀ k, t'.NextKey k = t.NextKey k) ∧
      t'.state = t.state ∧ t'.transactions.length = t.transactions.length ∧ t' = t :=
  ⟨t, run_start_rollback t p, fun _ => rfl, fun _ => rfl, rfl, rfl, rfl⟩

/-- The flat case of C1: a plain list of mutations between start and rollback. -/
theorem flat_rollback_restores (t : TrieState) (ms : List Mutation) :
    run (Call.start :: (ms.map Call.mutate ++ [Call.rollback])) t = .ok t := by
  rw [← Prog.calls_ofMutations]
  exact run_start_rollback t _

/-- C3: with a transaction already open, `StartTransaction; ops;
CommitTransaction` ends in exactly the state that running `ops` directly
reaches, so `Get`, `NextKey` and `TrieEntries` agree on every key and the
depth is the one before. -/
theorem nested_commit_same_as_direct (t : TrieState) (p : Prog)
    (h : t.transactions ≠ []) :
    ∃ t₁ t₂, run (Call.start :: (p.calls ++ [Call.commit])) t = .ok t₁ ∧
      run p.calls t = .ok t₂ ∧
      (∀ k, t₁.Get k = t₂.Get k) ∧ (∀ k, t₁.NextKey k = t₂.NextKey k) ∧
      t₁.TrieEntries = t₂.TrieEntries ∧
      t₁.transactions.length = t.transactions.length ∧ t₁ = t₂ := by
  obtain ⟨tr, txs⟩ := t
  cases txs with
  | nil => exact absurd rfl h
  | cons d rest =>
    refine ⟨⟨tr, p.onTop tr d :: rest⟩, ⟨tr, p.onTop tr d :: rest⟩, ?_, Prog.run_open p tr d rest,
      fun _ => rfl, fun _ => rfl, rfl, rfl, rfl⟩
    simp only [run, Call.step, TrieState.StartTransaction, TrieState.getCurrentTransaction,
      List.head?, run_append, Prog.run_open, TrieState.CommitTransaction, storageDiff.snapshot]

/-- An instance of C3: one `Put` inside a nested transaction over two open ones. -/
theorem nested_commit_same_as_direct_witness :
    ∃ t₁ t₂, run (Call.start :: ((Prog.op (.put [1] (some [2])) .done).calls ++ [Call.commit]))
        sampleOpen2 = .ok t₁ ∧
      run (Prog.op (.put [1] (some [2])) .done).calls sampleOpen2 = .ok t₂ ∧
      (∀ k, t₁.Get k = t₂.Get k) ∧ (∀ k, t₁.NextKey k = t₂.NextKey k) ∧
      t₁.TrieEntries = t₂.TrieEntries ∧
      t₁.transactions.length = sampleOpen2.transactions.length ∧ t₁ = t₂ :=
  nested_commit_same_as_direct sampleOpen2 (Prog.op (.put [1] (some [2])) .done) (by decide)

/-- C4: while a transaction is open, no mutation, no `StartTransaction`, no
`RollbackTransaction` and no `CommitTransaction` at depth two or more
changes the underlying trie. -/
theorem open_transaction_keeps_trie (t : TrieState) (h : t.transactions ≠ []) :
    (∀ m : Mutation, (m.apply t).state = t.state) ∧
    t.StartTransaction.state = t.state ∧
    t.RollbackTransaction.map (fun t' => t'.state) = .ok t.state ∧
    (2 ≤ t.transactions.length →
      t.CommitTransaction.map (fun t' => t'.state) = .ok t.state) := by
  obtain ⟨tr, txs⟩ := t
  cases txs with
  | nil => exact absurd rfl h
  | cons d rest =>
    refine ⟨fun m => by rw [Mutation.apply_open], rfl, rfl, ?_⟩
    intro h2
    cases rest with
    | nil => simp at h2
    | cons d2 rest2 => rfl

/-- An instance of C4 on a state with two open transactions. -/
theorem open_transaction_keeps_trie_witness :
    sampleOpen2.transactions ≠ [] ∧ 2 ≤ sampleOpen2.transactions.length ∧
    (∀ m : Mutation, (m.apply sampleOpen2).state = sampleOpen2.state) ∧
    sampleOpen2.StartTransaction.state = sampleOpen2.state ∧
    sampleOpen2.RollbackTransaction.map (fun t' => t'.state) = .ok sampleOpen2.state ∧
    sampleOpen2.CommitTransaction.map (fun t' => t'.state) = .ok sampleOpen2.state :=
  have h := open_transaction_keeps_trie sampleOpen2 (by decide)
  ⟨by decide, by decide, h.1, h.2.1, h.2.2.1, h.2.2.2 (by decide)⟩

/-- C7: `RollbackTransaction` panics exactly on an empty stack, and so does
`CommitTransaction`; when they do not panic the depth goes down by exactly one. -/
theorem rollback_commit_panic_iff_empty (t : TrieState) :
    (t.RollbackTransaction = .error .noTransactionsToRollback ↔ t.transactions = []) ∧
    (t.CommitTransaction = .error .noTransactionsToCommit ↔ t.transactions = []) ∧
    (match t.RollbackTransaction with
      | .error p => p = .noTransactionsToRollback ∧ t.transactions = []
      | .ok t' => t'.transactions.length + 1 = t.transactions.length) ∧
    (match t.CommitTransaction with
      | .error p => p = .noTransactionsToCommit ∧ t.transactions = []
      | .ok t' => t'.transactions.length + 1 = t.transactions.length) := by
  obtain ⟨tr, txs⟩ := t
  cases txs with
  | nil => simp [TrieState.RollbackTransaction, TrieState.CommitTransaction]
  | cons d rest =>
    cases rest with
    | nil => simp [TrieState.RollbackTransaction, TrieState.CommitTransaction]
    | cons d2 rest2 => simp [TrieState.RollbackTransaction, TrieState.CommitTransaction]

/-- C8: `Root` returns exactly when one transaction is open: it applies that
transaction to the trie, leaves the stack empty and returns the hash of the
resulting trie; with no open transaction it panics with "no transactions to
commit" and with two or more with "running transactions". -/
theorem root_succeeds_iff_one_open {H : Type} (hash : Trie → H) (t : TrieState) :
    ((∃ r, t.Root hash = .ok r) ↔ t.transactions.length = 1) ∧
    (match t.transactions with
      | [] => t.Root hash = .error (.noTransactionsToCommit, t)
      | [tx] => t.Root hash = .ok (hash (tx.applyToTrie t.state),
          { state := tx.applyToTrie t.state, transactions := [] })
      | tx :: _ :: rest => t.Root hash = .error (.rootWithRunningTransactions,
          { state := t.state, transactions := tx :: rest })) := by
  obtain ⟨tr, txs⟩ := t
  cases txs with
  | nil => simp [TrieState.Root, TrieState.CommitTransaction]
  | cons d rest =>
    cases rest with
    | nil => simp [TrieState.Root, TrieState.CommitTransaction, TrieState.getCurrentTransaction]
    | cons d2 rest2 =>
      simp [TrieState.Root, TrieState.CommitTransaction, TrieState.getCurrentTransaction]

/-! ## Reads through the overlay -/

theorem mem_setAdd (k x : Key) (s : List Key) : x ∈ setAdd k s ↔ x = k ∨ x ∈ s := by
  induction s with
  | nil => simp [setAdd]
  | cons a rest ih =>
    simp only [setAdd]
    split_ifs with h1 h2
    · simp
    · subst h2; simp
    · simp only [List.mem_cons, ih]; tauto

theorem mapGet_mapDel {β : Type} (k x : Key) (m : List (Key × β)) :
    mapGet x (mapDel k m) = if x = k then none else mapGet x m := by
  induction m with
  | nil => simp [mapDel, mapGet]
  | cons e rest ih =>
    obtain ⟨a, b⟩ := e
    simp only [mapDel, List.filter_cons] at ih ⊢
    by_cases ha : a = k
    · subst ha
      simp only [ne_eq, not_true_eq_false, decide_False, Bool.false_eq_true, ↓reduceIte, ih, mapGet]
      split_ifs <;> simp_all
    · simp only [ne_eq, ha, not_false_eq_true, decide_True, ↓reduceIte, mapGet, ih]
      split_ifs <;> simp_all

/-- What `Get` does with a transaction open: a non-nil upsert or a delete of
the innermost diff answers; a nil upsert, like an untouched key, goes to the trie. -/
theorem Get_open (tr : Trie) (tx : storageDiff) (rest : List storageDiff) (k : Key) :
    TrieState.Get { state := tr, transactions := tx :: rest } k
      = (match mapGet k tx.upserts with
        | some (some v) => some v
        | some none => tr.Get k
        | none => if k ∈ tx.deletes then none else tr.Get k) := by
  simp only [TrieState.Get, TrieState.getCurrentTransaction, List.head?, storageDiff.get,
    childDiff.get]
  cases h : mapGet k tx.upserts with
  | none => by_cases hd : k ∈ tx.deletes <;> simp [hd]
  | some v => cases v <;> simp

/-- C5, at the failing input: over a trie holding `[1] ↦ [7]`, after
`StartTransaction; Put([1], nil)` the key `[1]` is in the innermost diff's
upserts with the value nil, yet `Get([1])` answers `[7]` from the trie. -/
theorem get_skips_nil_upsert :
    (((TrieState.NewTrieState sampleTrie).StartTransaction.Put [1] none).transactions.map
        (fun tx => mapGet [1] tx.upserts)) = [some none] ∧
    ((TrieState.NewTrieState sampleTrie).StartTransaction.Put [1] none).Get [1] = some [7] ∧
    sampleTrie.Get [1] = some [7] := by
  decide

/-- After `DeleteChild(c)` in a transaction the two listing reads fail with
`ErrChildTrieDoesNotExist`, while `GetChildStorage` is whatever the
underlying trie answers. -/
theorem reads_after_DeleteChild (tr : Trie) (tx : storageDiff)
    (rest : List storageDiff) (c k : Key) :
    (TrieState.DeleteChild { state := tr, transactions := tx :: rest } c).GetChildNextKey c k
      = .error .ErrChildTrieDoesNotExist ∧
    (TrieState.DeleteChild { state := tr, transactions := tx :: rest } c).GetKeysWithPrefixFromChild
      c k = .error .ErrChildTrieDoesNotExist ∧
    (TrieState.DeleteChild { state := tr, transactions := tx :: rest } c).GetChildStorage c k
      = tr.GetFromChild c k := by
  have hmem : c ∈ setAdd c tx.deletes := (mem_setAdd c c _).2 (Or.inl rfl)
  refine ⟨?_, ?_, ?_⟩
  · simp [TrieState.DeleteChild, TrieState.GetChildNextKey, TrieState.getCurrentTransaction,
      storageDiff.delete, childDiff.delete, hmem]
  · simp [TrieState.DeleteChild, TrieState.GetKeysWithPrefixFromChild,
      TrieState.getCurrentTransaction, storageDiff.delete, childDiff.delete, hmem]
  · simp [TrieState.DeleteChild, TrieState.GetChildStorage, TrieState.getCurrentTransaction,
      storageDiff.delete, storageDiff.getFromChild, mapGet_mapDel]

/-- C9, at the failing input: over a trie whose child `[9]` holds `[3] ↦ [4]`,
after `StartTransaction; DeleteChild([9])` the reads `GetChildNextKey` and
`GetKeysWithPrefixFromChild` fail with `ErrChildTrieDoesNotExist`, but
`GetChildStorage([9], [3])` still returns `[4]`. -/
theorem getChildStorage_after_deleteChild :
    ((TrieState.NewTrieState sampleTrie).StartTransaction.DeleteChild [9]).GetChildNextKey [9] []
      = .error .ErrChildTrieDoesNotExist ∧
    ((TrieState.NewTrieState sampleTrie).StartTransaction.DeleteChild
      [9]).GetKeysWithPrefixFromChild [9] [] = .error .ErrChildTrieDoesNotExist ∧
    ((TrieState.NewTrieState sampleTrie).StartTransaction.DeleteChild [9]).GetChildStorage [9] [3]
      = .ok (some [4]) := by
  decide

/-- C10, at the failing input: with no transaction open, a child `[9]` of
two entries and the limit bytes `00 00 00 00` (L = 0), `DeleteChildLimit`
deletes both entries and reports `deleted = 2`, `allDeleted = true`. -/
theorem deleteChildLimit_zero_deletes_all :
    Uint32 [0, 0, 0, 0] = some 0 ∧
    (TrieState.NewTrieState sampleTrie).DeleteChildLimit [9] (some [0, 0, 0, 0])
      = .ok ({ state := { entries := [([1], some [7])], children := [([9], [])] },
               transactions := [] }, 2, true, none) := by
  decide

/-! ## Binary search and `NextKey` -/

theorem binarySearchLoop_spec (x : List Key) (target : Key)
    (hmono : ∀ a b, a ≤ b → b < x.length → x.getD b [] < target → x.getD a [] < target) :
    ∀ fuel i j, i ≤ j → j ≤ x.length → j - i ≤ fuel →
      (∀ idx, idx < i → x.getD idx [] < target) →
      (∀ idx, j ≤ idx → idx < x.length → ¬ x.getD idx [] < target) →
      (∀ idx, idx < binarySearchLoop x target fuel i j → x.getD idx [] < target) ∧
      (∀ idx, binarySearchLoop x target fuel i j ≤ idx → idx < x.length →
        ¬ x.getD idx [] < target) ∧
      binarySearchLoop x target fuel i j ≤ x.length := by
  intro fuel
  induction fuel with
  | zero =>
    intro i j hij hjn hfuel hlo hhi
    have : i = j := by omega
    subst this
    exact ⟨hlo, hhi, hjn⟩
  | succ fuel ih =>
    intro i j hij hjn hfuel hlo hhi
    simp only [binarySearchLoop]
    by_cases hlt : i < j
    · simp only [hlt, ↓reduceIte]
      have h1 : i ≤ (i + j) / 2 := by omega
      have h2 : (i + j) / 2 < j := by omega
      by_cases hP : x.getD ((i + j) / 2) [] < target
      · simp only [hP, ↓reduceIte]
        apply ih ((i + j) / 2 + 1) j (by omega) hjn (by omega)
        · intro idx hidx
          exact hmono idx ((i + j) / 2) (by omega) (by omega) hP
        · exact hhi
      · simp only [hP, ↓reduceIte]
        apply ih i ((i + j) / 2) h1 (by omega) (by omega) hlo
        intro idx hidx hn hc
        exact hP (hmono ((i + j) / 2) idx hidx hn hc)
    · simp only [hlt, ↓reduceIte]
      have : i = j := by omega
      subst this
      exact ⟨hlo, hhi, hjn⟩

theorem sorted_getD_lt (x : List Key) (hs : x.Sorted (· < ·)) (a b : Nat) (hab : a < b)
    (hb : b < x.length) : x.getD a [] < x.getD b [] := by
  rw [List.getD_eq_getElem _ _ (by omega), List.getD_eq_getElem _ _ hb]
  exact (List.pairwise_iff_getElem.1 hs) a b (by omega) hb hab

theorem find?_eq_get?_of_boundary (x : List Key) (k : Key) :
    ∀ p : Nat, (∀ idx, idx < p → idx < x.length → ¬ k < x.getD idx []) →
      (p < x.length → k < x.getD p []) →
      x.find? (fun s => decide (k < s)) = x.get? p := by
  induction x with
  | nil => intro p _ _; simp
  | cons a rest ih =>
    intro p hlo hp
    cases p with
    | zero =>
      have : k < a := by simpa using hp (by simp)
      simp [List.find?, this]
    | succ q =>
      have hna : ¬ k < a := by simpa using hlo 0 (by omega) (by simp)
      simp only [List.find?, hna, decide_False, List.get?_cons_succ]
      apply ih q
      · intro idx h1 h2
        simpa using hlo (idx + 1) (by omega) (by simp; omega)
      · intro h1
        simpa using hp (by simp; omega)

/-- On a strictly sorted key sequence the binary search of `NextKey` selects
the first entry strictly greater than the key. -/
theorem nextSortedKey_eq_firstAbove (x : List Key) (k : Key) (hs : x.Sorted (· < ·)) :
    nextSortedKey x k = firstAbove x k := by
  have hmono : ∀ a b, a ≤ b → b < x.length → x.getD b [] < k → x.getD a [] < k := by
    intro a b hab hb hlt
    rcases Nat.eq_or_lt_of_le hab with h | h
    · subst h; exact hlt
    · exact lt_trans (sorted_getD_lt x hs a b h hb) hlt
  obtain ⟨hlo, hhi, hle⟩ := binarySearchLoop_spec x k hmono x.length 0 x.length
    (Nat.zero_le _) (le_refl _) (by omega) (by intro idx h; omega)
    (by intro idx h1 h2; omega)
  unfold nextSortedKey firstAbove BinarySearch
  simp only
  set r := binarySearchLoop x k x.length 0 x.length with hr
  by_cases hfound : r < x.length ∧ x.getD r [] = k
  · have hf : (decide (r < x.length) && decide (x.getD r [] = k)) = true := by
      rw [Bool.and_eq_true]
      exact ⟨decide_eq_true hfound.1, decide_eq_true hfound.2⟩
    simp only [hf, ↓reduceIte]
    have hfind := find?_eq_get?_of_boundary x k (r + 1)
      (by
        intro idx h1 h2
        rcases Nat.eq_or_lt_of_le (Nat.lt_succ_iff.1 h1) with h | h
        · subst h; rw [hfound.2]; exact lt_irrefl _
        · exact not_lt_of_gt (hlo idx h))
      (by
        intro h1
        have := sorted_getD_lt x hs r (r + 1) (by omega) h1
        rwa [hfound.2] at this)
    rw [hfind]
    split_ifs with h
    · rfl
    · rw [List.get?_eq_none.2 (by omega)]
  · have hf : (decide (r < x.length) && decide (x.getD r [] = k)) = false := by
      rw [Bool.and_eq_false_iff]
      by_cases h1 : r < x.length
      · right; exact decide_eq_false (fun h2 => hfound ⟨h1, h2⟩)
      · left; exact decide_eq_false h1
    simp only [hf, Bool.false_eq_true, ↓reduceIte]
    have hfind := find?_eq_get?_of_boundary x k r
      (by intro idx h1 h2; exact not_lt_of_gt (hlo idx h1))
      (by
        intro h1
        have h2 := hhi r (le_refl _) h1
        have h3 : x.getD r [] ≠ k := fun h => hfound ⟨h1, h⟩
        exact lt_of_le_of_ne (not_lt.1 h2) (Ne.symm h3))
    rw [hfind]
    split_ifs with h
    · rfl
    · rw [List.get?_eq_none.2 (by omega)]

theorem mergeNextKey_eq_smallerOf (a b : Option Key) : mergeNextKey a b = smallerOf a b := by
  cases a with
  | none => cases b <;> rfl
  | some nk =>
    cases b with
    | none => rfl
    | some ks =>
      simp only [mergeNextKey, smallerOf]
      by_cases h : ks < nk
      · simp [h, min_eq_right (le_of_lt h)]
      · simp [h, min_eq_left (not_lt.1 h)]

theorem smallerOf_eq_none (a b : Option Key) : smallerOf a b = none ↔ a = none ∧ b = none := by
  cases a <;> cases b <;> simp [smallerOf]

/-- C6: with a transaction open whose `sortedKeys` are in strictly ascending
order, `NextKey(k)` is the smaller of the first entry of `sortedKeys`
strictly greater than `k` and the first trie key strictly greater than `k`
that the innermost diff does not delete; it is nil exactly when neither exists. -/
theorem nextKey_open_is_merge_scan (tr : Trie) (tx : storageDiff) (rest : List storageDiff)
    (k : Key) (hs : tx.sortedKeys.Sorted (· < ·)) :
    TrieState.NextKey { state := tr, transactions := tx :: rest } k = NextKeySpec tr tx k ∧
    (TrieState.NextKey { state := tr, transactions := tx :: rest } k = none ↔
      firstAbove tx.sortedKeys k = none ∧ firstLiveOnState tr tx.deletes k = none) := by
  have h : TrieState.NextKey { state := tr, transactions := tx :: rest } k
      = NextKeySpec tr tx k := by
    simp only [TrieState.NextKey, TrieState.getCurrentTransaction, List.head?, NextKeySpec,
      nextSortedKey_eq_firstAbove _ _ hs, mergeNextKey_eq_smallerOf, Trie.KeysFrom,
      List.find?_filter, firstLiveOnState]
    congr 2
    funext a
    by_cases h1 : k < a <;> by_cases h2 : a ∈ tx.deletes <;> simp [h1, h2]
  refine ⟨h, ?_⟩
  rw [h, NextKeySpec, smallerOf_eq_none]

/-- An instance of C6: the staged key `[2]` comes after `[1]`. -/
theorem nextKey_open_is_merge_scan_witness :
    (newStorageDiff.upsert [2] (some [5])).sortedKeys.Sorted (· < ·) ∧
    TrieState.NextKey sampleOpen2 [1] = some [2] ∧
    NextKeySpec sampleTrie (newStorageDiff.upsert [2] (some [5])) [1] = some [2] :=
  have h := nextKey_open_is_merge_scan sampleTrie (newStorageDiff.upsert [2] (some [5]))
    [newStorageDiff] [1] (by decide)
  ⟨by decide, h.1.trans (by decide), by decide⟩

/-! ## Sorted association lists -/

theorem mapGet_mapPut {β : Type} (k x : Key) (v : β) (m : List (Key × β)) :
    mapGet x (mapPut k v m) = if x = k then some v else mapGet x m := by
  induction m with
  | nil => simp [mapPut, mapGet]
  | cons e rest ih =>
    obtain ⟨a, b⟩ := e
    simp only [mapPut]
    by_cases h1 : k < a
    · simp only [h1, ↓reduceIte, mapGet]
    · by_cases h2 : k = a
      · subst h2
        simp only [lt_self_iff_false, ↓reduceIte, mapGet]
        by_cases hx : x = k <;> simp [hx]
      · simp only [h1, h2, ↓reduceIte, mapGet, ih]
        by_cases hx : x = k
        · subst hx; simp [h2]
        · simp [hx]

theorem mem_mapKeys_mapPut {β : Type} (k x : Key) (v : β) (m : List (Key × β)) :
    x ∈ mapKeys (mapPut k v m) ↔ x = k ∨ x ∈ mapKeys m := by
  induction m with
  | nil => simp [mapPut, mapKeys]
  | cons e rest ih =>
    obtain ⟨a, b⟩ := e
    simp only [mapPut]
    split_ifs with h1 h2
    · simp [mapKeys]
    · subst h2; simp [mapKeys]
    · simp only [mapKeys, List.map_cons, List.mem_cons] at ih ⊢
      rw [ih]; tauto

theorem keysSorted_mapPut {β : Type} (k : Key) (v : β) (m : List (Key × β))
    (h : keysSorted m) : keysSorted (mapPut k v m) := by
  induction m with
  | nil => simp [mapPut, keysSorted, mapKeys]
  | cons e rest ih =>
    obtain ⟨a, b⟩ := e
    simp only [keysSorted, mapKeys, List.map_cons, List.sorted_cons] at h
    simp only [mapPut]
    split_ifs with h1 h2
    · simp only [keysSorted, mapKeys, List.map_cons, List.sorted_cons, List.mem_cons]
      refine ⟨?_, h⟩
      intro y hy
      rcases hy with rfl | hy
      · exact h1
      · exact lt_trans h1 (h.1 y hy)
    · subst h2
      simpa only [keysSorted, mapKeys, List.map_cons, List.sorted_cons] using h
    · have hlt : a < k := lt_of_le_of_ne (not_lt.1 h1) (Ne.symm h2)
      have ih' := ih h.2
      simp only [keysSorted, mapKeys, List.map_cons, List.sorted_cons]
      refine ⟨?_, ih'⟩
      intro y hy
      rcases (mem_mapKeys_mapPut k y v rest).1 hy with rfl | hy
      · exact hlt
      · exact h.1 y hy

theorem keysSorted_mapDel {β : Type} (k : Key) (m : List (Key × β))
    (h : keysSorted m) : keysSorted (mapDel k m) := by
  unfold keysSorted mapKeys at *
  unfold mapDel
  exact (List.pairwise_map.2 ((List.pairwise_map.1 h).filter _))

theorem mapGet_eq_none_of_not_mem {β : Type} (x : Key) (m : List (Key × β))
    (h : x ∉ mapKeys m) : mapGet x m = none := by
  induction m with
  | nil => rfl
  | cons e rest ih =>
    obtain ⟨a, b⟩ := e
    simp only [mapKeys, List.map_cons, List.mem_cons, not_or] at h
    simp only [mapGet, h.1, ↓reduceIte]
    exact ih h.2

theorem mem_mapKeys_of_mapGet {β : Type} (x : Key) (v : β) (m : List (Key × β))
    (h : mapGet x m = some v) : x ∈ mapKeys m := by
  by_contra hc
  rw [mapGet_eq_none_of_not_mem x m hc] at h
  exact Option.noConfusion h

theorem mapDel_eq_self {β : Type} (k : Key) (m : List (Key × β)) (h : k ∉ mapKeys m) :
    mapDel k m = m := by
  unfold mapDel
  rw [List.filter_eq_self]
  intro e he
  have : e.1 ≠ k := by
    intro hk
    exact h (hk ▸ List.mem_map_of_mem Prod.fst he)
  simpa using this

/-- Two key-sorted maps with the same lookups are the same list. -/
theorem keysSorted_ext {β : Type} (m₁ m₂ : List (Key × β)) (h₁ : keysSorted m₁)
    (h₂ : keysSorted m₂) (h : ∀ x, mapGet x m₁ = mapGet x m₂) : m₁ = m₂ := by
  induction m₁ generalizing m₂ with
  | nil =>
    cases m₂ with
    | nil => rfl
    | cons e rest =>
      have := h e.1
      simp [mapGet] at this
  | cons e₁ r₁ ih =>
    obtain ⟨a, b⟩ := e₁
    cases m₂ with
    | nil =>
      have := h a
      simp [mapGet] at this
    | cons e₂ r₂ =>
      obtain ⟨c, d⟩ := e₂
      simp only [keysSorted, mapKeys, List.map_cons, List.sorted_cons] at h₁ h₂
      have hac : a = c := by
        by_contra hne
        have h1 := h a
        simp only [mapGet, ↓reduceIte, hne] at h1
        have h2 := h c
        simp only [mapGet, ↓reduceIte, Ne.symm hne] at h2
        have hca : c < a := h₂.1 a (mem_mapKeys_of_mapGet a b r₂ h1.symm)
        have hac' : a < c := h₁.1 c (mem_mapKeys_of_mapGet c d r₁ h2)
        exact lt_asymm hca hac'
      subst hac
      have hbd : b = d := by
        have h1 := h a
        simpa [mapGet] using h1
      subst hbd
      have hrest : r₁ = r₂ := by
        apply ih r₂ h₁.2 h₂.2
        intro x
        by_cases hx : x = a
        · subst hx
          rw [mapGet_eq_none_of_not_mem x r₁ (fun hm => lt_irrefl _ (h₁.1 x hm)),
            mapGet_eq_none_of_not_mem x r₂ (fun hm => lt_irrefl _ (h₂.1 x hm))]
        · have := h x
          simpa [mapGet, hx] using this
      rw [hrest]

/-! ## Applying a diff to the trie -/

theorem foldl_Put_eq (us : List (Key × Value)) (tr : Trie) :
    us.foldl (fun acc e => acc.Put e.1 e.2) tr
      = { entries := foldPut us tr.entries, children := tr.children } := by
  induction us generalizing tr with
  | nil => rfl
  | cons e rest ih =>
    rw [List.foldl_cons, ih]
    rfl

theorem foldl_Delete_eq (ds : List Key) (tr : Trie) :
    ds.foldl (fun acc k => (acc.DeleteChild k).Delete k) tr
      = { entries := foldDel ds tr.entries, children := foldDel ds tr.children } := by
  induction ds generalizing tr with
  | nil => rfl
  | cons e rest ih =>
    rw [List.foldl_cons, ih]
    rfl

theorem applyToTrie_eq (d : storageDiff) (tr : Trie) (h : d.childChangeSet = []) :
    d.applyToTrie tr = { entries := foldDel d.deletes (foldPut d.upserts tr.entries),
                         children := foldDel d.deletes tr.children } := by
  simp only [storageDiff.applyToTrie, h, List.foldl_nil, foldl_Put_eq, foldl_Delete_eq]

theorem mapGet_foldPut (us E : List (Key × Value)) (x : Key) (h : keysSorted us) :
    mapGet x (foldPut us E) = (match mapGet x us with
      | some v => some v
      | none => mapGet x E) := by
  induction us generalizing E with
  | nil => rfl
  | cons e rest ih =>
    obtain ⟨a, b⟩ := e
    simp only [keysSorted, mapKeys, List.map_cons, List.sorted_cons] at h
    have ih' := ih (mapPut a b E) h.2
    simp only [foldPut, List.foldl_cons] at ih' ⊢
    rw [ih', mapGet_mapPut]
    by_cases hx : x = a
    · subst hx
      rw [mapGet_eq_none_of_not_mem x rest (fun hm => lt_irrefl _ (h.1 x hm))]
      simp [mapGet]
    · simp [mapGet, hx]

theorem mapGet_foldDel {β : Type} (ds : List Key) (E : List (Key × β)) (x : Key) :
    mapGet x (foldDel ds E) = if x ∈ ds then none else mapGet x E := by
  induction ds generalizing E with
  | nil => simp [foldDel]
  | cons k rest ih =>
    have ih' := ih (mapDel k E)
    simp only [foldDel, List.foldl_cons] at ih' ⊢
    rw [ih', mapGet_mapDel]
    by_cases h1 : x ∈ rest <;> by_cases h2 : x = k <;> simp [h1, h2]

theorem keysSorted_foldPut (us E : List (Key × Value)) (h : keysSorted E) :
    keysSorted (foldPut us E) := by
  induction us generalizing E with
  | nil => exact h
  | cons e rest ih => exact ih _ (keysSorted_mapPut e.1 e.2 E h)

theorem keysSorted_foldDel {β : Type} (ds : List Key) (E : List (Key × β)) (h : keysSorted E) :
    keysSorted (foldDel ds E) := by
  induction ds generalizing E with
  | nil => exact h
  | cons k rest ih => exact ih _ (keysSorted_mapDel k E h)

theorem foldDel_eq_self {β : Type} (ds : List Key) (C : List (Key × β))
    (h : ∀ k ∈ ds, k ∉ mapKeys C) : foldDel ds C = C := by
  induction ds with
  | nil => rfl
  | cons k rest ih =>
    simp only [foldDel, List.foldl_cons]
    rw [mapDel_eq_self k C (h k (List.mem_cons_self _ _))]
    exact ih (fun k' hk' => h k' (List.mem_cons_of_mem _ hk'))

theorem mem_setDel (k x : Key) (s : List Key) : x ∈ setDel k s ↔ x ∈ s ∧ x ≠ k := by
  simp [setDel]

/-- A diff without child changes whose deleted keys name no child trie
leaves the child tries alone and yields entries in key order. -/
theorem applyToTrie_of_inv (d : storageDiff) (tr : Trie) (hd : DiffInv d tr) (hw : tr.WF) :
    (d.applyToTrie tr).children = tr.children ∧ (d.applyToTrie tr).WF ∧
    ∀ x, mapGet x (d.applyToTrie tr).entries
      = if x ∈ d.deletes then none else (match mapGet x d.upserts with
          | some v => some v
          | none => mapGet x tr.entries) := by
  obtain ⟨hs, hc, hk⟩ := hd
  rw [applyToTrie_eq d tr hc]
  refine ⟨foldDel_eq_self _ _ hk, keysSorted_foldDel _ _ (keysSorted_foldPut _ _ hw), ?_⟩
  intro x
  simp only [mapGet_foldDel, mapGet_foldPut _ _ _ hs]

theorem Trie.ext_of_entries (a b : Trie) (ha : a.WF) (hb : b.WF)
    (hc : a.children = b.children) (h : ∀ x, mapGet x a.entries = mapGet x b.entries) :
    a = b := by
  obtain ⟨ae, ac⟩ := a
  obtain ⟨be, bc⟩ := b
  simp only at hc
  subst hc
  simp only [Trie.mk.injEq, and_true]
  exact keysSorted_ext ae be ha hb h

/-- An upsert staged on the diff is a `Put` on the trie the diff is applied to. -/
theorem applyToTrie_upsert (d : storageDiff) (tr : Trie) (k : Key) (v : Value)
    (hd : DiffInv d tr) (hw : tr.WF) :
    DiffInv (d.upsert k v) tr ∧ (d.upsert k v).applyToTrie tr = (d.applyToTrie tr).Put k v := by
  have hd' : DiffInv (d.upsert k v) tr := by
    refine ⟨keysSorted_mapPut k v _ hd.1, hd.2.1, ?_⟩
    intro x hx
    exact hd.2.2 x ((mem_setDel k x _).1 hx).1
  refine ⟨hd', ?_⟩
  obtain ⟨h1, h2, h3⟩ := applyToTrie_of_inv d tr hd hw
  obtain ⟨g1, g2, g3⟩ := applyToTrie_of_inv (d.upsert k v) tr hd' hw
  have hw' : ((d.applyToTrie tr).Put k v).WF := keysSorted_mapPut k v _ h2
  apply Trie.ext_of_entries _ _ g2 hw'
  · rw [g1]; exact h1.symm
  · intro x
    rw [g3]
    simp only [Trie.Put, mapGet_mapPut, h3, storageDiff.upsert, childDiff.upsert, mem_setDel]
    by_cases hx : x = k
    · subst hx; simp
    · by_cases hm : x ∈ d.deletes <;> simp [hx, hm]

/-- A delete staged on the diff is a `Delete` on the trie the diff is applied
to, when the key names no child trie. -/
theorem applyToTrie_delete (d : storageDiff) (tr : Trie) (k : Key)
    (hd : DiffInv d tr) (hw : tr.WF) (hk : k ∉ mapKeys tr.children) :
    DiffInv (d.delete k) tr ∧ (d.delete k).applyToTrie tr = (d.applyToTrie tr).Delete k := by
  have hd' : DiffInv (d.delete k) tr := by
    refine ⟨keysSorted_mapDel k _ hd.1, ?_, ?_⟩
    · simp [storageDiff.delete, hd.2.1, mapDel]
    · intro x hx
      rcases (mem_setAdd k x _).1 hx with rfl | hx
      · exact hk
      · exact hd.2.2 x hx
  refine ⟨hd', ?_⟩
  obtain ⟨h1, h2, h3⟩ := applyToTrie_of_inv d tr hd hw
  obtain ⟨g1, g2, g3⟩ := applyToTrie_of_inv (d.delete k) tr hd' hw
  have hw' : ((d.applyToTrie tr).Delete k).WF := keysSorted_mapDel k _ h2
  apply Trie.ext_of_entries _ _ g2 hw'
  · rw [g1]; exact h1.symm
  · intro x
    rw [g3]
    simp only [Trie.Delete, mapGet_mapDel, h3, storageDiff.delete, childDiff.delete, mem_setAdd]
    by_cases hx : x = k
    · subst hx; simp
    · by_cases hm : x ∈ d.deletes <;> simp [hx, hm]

/-! ## Committed branches replayed on the trie -/

theorem Mutation.apply_closed (m : Mutation) (tr : Trie) :
    m.apply (TrieState.NewTrieState tr)
      = TrieState.NewTrieState (m.apply (TrieState.NewTrieState tr)).state := by
  cases m with
  | clearChildStorage c k =>
    simp only [Mutation.apply, TrieState.ClearChildStorage, TrieState.NewTrieState]
    cases tr.ClearFromChild c k <;> rfl
  | _ => rfl

theorem replay_cons (m : Mutation) (ms : List Mutation) (tr : Trie) :
    replay (m :: ms) tr = replay ms (m.apply (TrieState.NewTrieState tr)).state := by
  simp only [replay, List.foldl_cons]
  rw [Mutation.apply_closed]
  rfl

theorem replay_append (a b : List Mutation) (tr : Trie) :
    replay (a ++ b) tr = replay b (replay a tr) := by
  induction a generalizing tr with
  | nil => rfl
  | cons m ms ih => simp only [List.cons_append, replay_cons, ih]

theorem deletedKeys_append (a b : List Mutation) :
    deletedKeys (a ++ b) = deletedKeys a ++ deletedKeys b := by
  induction a with
  | nil => rfl
  | cons m ms ih => cases m <;> simp [deletedKeys, ih]

/-- One staged `Put` or `Delete` is that operation on the applied trie. -/
theorem Mutation.applyToTrie_step (m : Mutation) (d : storageDiff) (tr : Trie) (hm : m.isPutDelete = true)
    (hd : DiffInv d tr) (hw : tr.WF) (hk : ∀ k ∈ deletedKeys [m], k ∉ mapKeys tr.children) :
    DiffInv (m.onTop tr d) tr ∧
    (m.onTop tr d).applyToTrie tr = (m.apply (TrieState.NewTrieState (d.applyToTrie tr))).state := by
  cases m with
  | put k v => exact applyToTrie_upsert d tr k v hd hw
  | delete k => exact applyToTrie_delete d tr k hd hw (hk k (by simp [deletedKeys]))
  | _ => simp [Mutation.isPutDelete] at hm

/-- A `Put` or `Delete` made directly keeps the entries in key order and the child tries. -/
theorem apply_direct_keeps (m : Mutation) (tr : Trie) (hm : m.isPutDelete = true) (hw : tr.WF) :
    (m.apply (TrieState.NewTrieState tr)).state.WF ∧
    (m.apply (TrieState.NewTrieState tr)).state.children = tr.children := by
  cases m with
  | put k v => exact ⟨keysSorted_mapPut k v _ hw, rfl⟩
  | delete k => exact ⟨keysSorted_mapDel k _ hw, rfl⟩
  | _ => simp [Mutation.isPutDelete] at hm

/-- The diff left on top by a sequence of `Put` and `Delete`, applied to the
trie, is the replay of the committed mutations on the trie the initial diff gives. -/
theorem Prog.applyToTrie_onTop (p : Prog) (tr : Trie) (hw : tr.WF) :
    ∀ d, p.putDeleteOnly = true → DiffInv d tr →
      (∀ k ∈ deletedKeys p.committed, k ∉ mapKeys tr.children) →
      DiffInv (p.onTop tr d) tr ∧
      (p.onTop tr d).applyToTrie tr = replay p.committed (d.applyToTrie tr) := by
  induction p with
  | done => intro d _ hd _; exact ⟨hd, rfl⟩
  | op m r ih =>
    intro d hp hd hk
    simp only [Prog.putDeleteOnly, Bool.and_eq_true] at hp
    simp only [Prog.committed] at hk
    rw [show m :: r.committed = [m] ++ r.committed from rfl, deletedKeys_append] at hk
    have hm := Mutation.applyToTrie_step m d tr hp.1 hd hw
      (fun k hk' => hk k (List.mem_append.2 (Or.inl hk')))
    have hr := ih (m.onTop tr d) hp.2 hm.1
      (fun k hk' => hk k (List.mem_append.2 (Or.inr hk')))
    refine ⟨hr.1, ?_⟩
    simp only [Prog.onTop, Prog.committed, replay_cons]
    rw [hr.2, hm.2]
  | nested b c r ihb ihr =>
    intro d hp hd hk
    simp only [Prog.putDeleteOnly, Bool.and_eq_true] at hp
    cases c with
    | false =>
      simp only [Prog.committed, Bool.false_eq_true, ↓reduceIte, List.nil_append] at hk
      simpa [Prog.onTop, Prog.committed] using ihr d hp.2 hd hk
    | true =>
      simp only [Prog.committed, ↓reduceIte, deletedKeys_append, List.mem_append] at hk
      have hb := ihb d hp.1 hd (fun k hk' => hk k (Or.inl hk'))
      have hr := ihr (b.onTop tr d) hp.2 hb.1 (fun k hk' => hk k (Or.inr hk'))
      refine ⟨by simpa [Prog.onTop, storageDiff.snapshot] using hr.1, ?_⟩
      simp only [Prog.onTop, Prog.committed, ↓reduceIte, storageDiff.snapshot, replay_append]
      rw [hr.2, hb.2]

theorem DiffInv_new (tr : Trie) : DiffInv newStorageDiff tr := by
  refine ⟨?_, rfl, ?_⟩
  · simp [keysSorted, mapKeys, newStorageDiff]
  · intro k hk
    simp [newStorageDiff] at hk

theorem replay_keeps (ms : List Mutation) (tr : Trie) (hms : ∀ m ∈ ms, m.isPutDelete = true)
    (hw : tr.WF) : (replay ms tr).WF ∧ (replay ms tr).children = tr.children := by
  induction ms generalizing tr with
  | nil => exact ⟨hw, rfl⟩
  | cons m ms ih =>
    have h1 := apply_direct_keeps m tr (hms m (List.mem_cons_self _ _)) hw
    have h2 := ih _ (fun m' hm' => hms m' (List.mem_cons_of_mem _ hm')) h1.1
    rw [replay_cons]
    exact ⟨h2.1, h2.2.trans h1.2⟩

theorem Prog.committed_isPutDelete (p : Prog) (hp : p.putDeleteOnly = true) :
    ∀ m ∈ p.committed, m.isPutDelete = true := by
  induction p with
  | done => intro m hm; simp [Prog.committed] at hm
  | op m r ih =>
    simp only [Prog.putDeleteOnly, Bool.and_eq_true] at hp
    intro m' hm'
    simp only [Prog.committed, List.mem_cons] at hm'
    rcases hm' with rfl | hm'
    · exact hp.1
    · exact ih hp.2 m' hm'
  | nested b c r ihb ihr =>
    simp only [Prog.putDeleteOnly, Bool.and_eq_true] at hp
    intro m' hm'
    simp only [Prog.committed, List.mem_append] at hm'
    rcases hm' with hm' | hm'
    · cases c with
      | false => simp at hm'
      | true => exact ihb hp.1 m' (by simpa using hm')
    · exact ihr hp.2 m' hm'

/-- A well-bracketed sequence of `Put` and `Delete` run from an empty stack
ends on an empty stack over the replay of its committed mutations. -/
theorem Prog.run_closed (p : Prog) :
    ∀ tr : Trie, tr.WF → p.putDeleteOnly = true →
      (∀ k ∈ deletedKeys p.committed, k ∉ mapKeys tr.children) →
      run p.calls (TrieState.NewTrieState tr)
        = .ok (TrieState.NewTrieState (replay p.committed tr)) := by
  induction p with
  | done => intro tr _ _ _; rfl
  | op m r ih =>
    intro tr hw hp hk
    simp only [Prog.putDeleteOnly, Bool.and_eq_true] at hp
    have h1 := apply_direct_keeps m tr hp.1 hw
    simp only [Prog.calls, run, Call.step, Prog.committed, replay_cons]
    rw [Mutation.apply_closed]
    apply ih _ h1.1 hp.2
    intro k hk'
    rw [h1.2]
    apply hk k
    rw [Prog.committed, show m :: r.committed = [m] ++ r.committed from rfl, deletedKeys_append]
    exact List.mem_append.2 (Or.inr hk')
  | nested b c r ihb ihr =>
    intro tr hw hp hk
    simp only [Prog.putDeleteOnly, Bool.and_eq_true] at hp
    simp only [Prog.calls, run, Call.step, TrieState.StartTransaction, TrieState.NewTrieState,
      TrieState.getCurrentTransaction, List.head?, run_append, Prog.run_open,
      storageDiff.snapshot]
    cases c with
    | false =>
      simp only [Prog.committed, Bool.false_eq_true, ↓reduceIte, List.nil_append] at hk ⊢
      simp only [run, Call.step, TrieState.RollbackTransaction]
      exact ihr tr hw hp.2 hk
    | true =>
      simp only [Prog.committed, ↓reduceIte, deletedKeys_append, List.mem_append] at hk
      simp only [↓reduceIte, run, Call.step, TrieState.CommitTransaction, Prog.committed,
        replay_append]
      have hb := Prog.applyToTrie_onTop b tr hw newStorageDiff hp.1 (DiffInv_new tr)
        (fun k hk' => hk k (Or.inl hk'))
      have hnew : newStorageDiff.applyToTrie tr = tr := rfl
      rw [hb.2, hnew]
      have hkeep := replay_keeps b.committed tr (Prog.committed_isPutDelete b hp.1) hw
      apply ihr _ hkeep.1 hp.2
      intro k hk'
      rw [hkeep.2]
      exact hk k (Or.inr hk')

/-- C2 as stated fails: over a trie with a child trie under `[9]`,
`begin; delete([9]); commit` also removes that child trie, which the replay
of `Delete([9])` on the trie leaves in place. -/
theorem committed_delete_drops_child :
    deleteNineScenario.putDeleteOnly = true ∧
    (mapKeys sampleTrie.entries).Sorted (· < ·) ∧
    run deleteNineScenario.calls (TrieState.NewTrieState sampleTrie)
      ≠ .ok (TrieState.NewTrieState (replay deleteNineScenario.committed sampleTrie)) := by
  decide

/-- C2, amended: for a trie with entries in key order and a well-bracketed
sequence of `StartTransaction`, `Put`, `Delete`, `CommitTransaction` and
`RollbackTransaction` in which no committed `Delete` names a child trie, the
run from an empty stack ends on an empty stack over the trie obtained by
replaying, in order, the mutations of the committed branches; and closing
the sequence with `Root` instead of the outermost commit returns the hash of
that trie. -/
theorem committed_branches_replayed {H : Type} (hash : Trie → H) (tr : Trie) (p : Prog)
    (hw : tr.WF) (hp : p.putDeleteOnly = true)
    (hk : ∀ k ∈ deletedKeys p.committed, k ∉ mapKeys tr.children) :
    run p.calls (TrieState.NewTrieState tr)
      = .ok (TrieState.NewTrieState (replay p.committed tr)) ∧
    ∃ t, run (Call.start :: p.calls) (TrieState.NewTrieState tr) = .ok t ∧
      t.Root hash = .ok (hash (replay p.committed tr),
        TrieState.NewTrieState (replay p.committed tr)) := by
  refine ⟨Prog.run_closed p tr hw hp hk,
    ⟨{ state := tr, transactions := [p.onTop tr newStorageDiff] }, ?_, ?_⟩⟩
  · simp only [run, Call.step, TrieState.StartTransaction, TrieState.NewTrieState,
      TrieState.getCurrentTransaction, List.head?, storageDiff.snapshot]
    exact Prog.run_open p tr newStorageDiff []
  · have h := Prog.applyToTrie_onTop p tr hw newStorageDiff hp (DiffInv_new tr) hk
    have hnew : newStorageDiff.applyToTrie tr = tr := rfl
    simp only [TrieState.Root, TrieState.CommitTransaction, TrieState.getCurrentTransaction,
      List.head?, h.2, hnew, TrieState.NewTrieState]

/-- An instance of amended C2, the scenario of the specification: after
`begin; put(a,1); begin; put(a,2); put(b,3); rollback; commit` the trie is
the initial one with `a = 1`, and `b` is absent. -/
theorem committed_branches_replayed_witness :
    sampleTrie.WF ∧ nestedRollbackScenario.putDeleteOnly = true ∧
    run nestedRollbackScenario.calls (TrieState.NewTrieState sampleTrie)
      = .ok (TrieState.NewTrieState (replay [.put [97] (some [1])] sampleTrie)) ∧
    (replay [.put [97] (some [1])] sampleTrie).Get [97] = some [1] ∧
    (replay [.put [97] (some [1])] sampleTrie).Get [98] = none :=
  have hw : sampleTrie.WF := by unfold Trie.WF keysSorted; decide
  have h := committed_branches_replayed (fun _ => ()) sampleTrie nestedRollbackScenario hw
    (by decide) (by decide)
  ⟨hw, by decide, h.1, by decide, by decide⟩

/-! ## `sortedKeys` stays sorted -/

theorem sorted_setAdd (k : Key) (s : List Key) (h : s.Sorted (· < ·)) :
    (setAdd k s).Sorted (· < ·) := by
  induction s with
  | nil => simp [setAdd]
  | cons a rest ih =>
    rw [List.sorted_cons] at h
    simp only [setAdd]
    by_cases h1 : k < a
    · simp only [h1, ↓reduceIte, List.sorted_cons, List.mem_cons]
      refine ⟨?_, h⟩
      intro y hy
      rcases hy with rfl | hy
      · exact h1
      · exact lt_trans h1 (h.1 y hy)
    · by_cases h2 : k = a
      · subst h2
        simp only [lt_self_iff_false, ↓reduceIte, List.sorted_cons]
        exact h
      · simp only [h1, h2, ↓reduceIte, List.sorted_cons]
        refine ⟨?_, ih h.2⟩
        intro y hy
        rcases (mem_setAdd k y rest).1 hy with rfl | hy
        · exact lt_of_le_of_ne (not_lt.1 h1) (Ne.symm h2)
        · exact h.1 y hy

theorem sortedKeys_foldl_delete (ks : List Key) (d : storageDiff)
    (h : d.sortedKeys.Sorted (· < ·)) :
    (ks.foldl (fun d k => d.delete k) d).sortedKeys.Sorted (· < ·) := by
  induction ks generalizing d with
  | nil => exact h
  | cons k rest ih => exact ih _ (sorted_setAdd k _ h)

theorem Mutation.onTop_sortedKeys (m : Mutation) (tr : Trie) (d : storageDiff)
    (h : d.sortedKeys.Sorted (· < ·)) : (m.onTop tr d).sortedKeys.Sorted (· < ·) := by
  cases m with
  | put k v => exact sorted_setAdd k _ h
  | delete k => exact sorted_setAdd k _ h
  | clearPrefix p => exact sortedKeys_foldl_delete _ d h
  | clearPrefixLimit p n => exact sortedKeys_foldl_delete _ d h
  | setChildStorage c k v => exact h
  | deleteChild c => exact sorted_setAdd c _ h
  | clearChildStorage c k => exact h

/-- Every call keeps the `sortedKeys` of all open transactions strictly sorted. -/
theorem Call.step_sortedKeys (c : Call) (t t' : TrieState) (h : SortedKeysInv t)
    (hs : c.step t = .ok t') : SortedKeysInv t' := by
  obtain ⟨tr, txs⟩ := t
  cases c with
  | mutate m =>
    cases txs with
    | nil =>
      simp only [Call.step, Except.ok.injEq] at hs
      rw [← hs, show (⟨tr, []⟩ : TrieState) = TrieState.NewTrieState tr from rfl,
        Mutation.apply_closed]
      intro d hd
      simp [TrieState.NewTrieState] at hd
    | cons d rest =>
      simp only [Call.step, Mutation.apply_open, Except.ok.injEq] at hs
      subst hs
      intro d' hd'
      simp only [List.mem_cons] at hd'
      rcases hd' with rfl | hd'
      · exact Mutation.onTop_sortedKeys m tr d (h d (List.mem_cons_self _ _))
      · exact h d' (List.mem_cons_of_mem _ hd')
  | start =>
    simp only [Call.step, Except.ok.injEq] at hs
    subst hs
    cases txs with
    | nil =>
      intro d hd
      simp only [TrieState.StartTransaction, TrieState.getCurrentTransaction, List.head?,
        List.mem_singleton] at hd
      subst hd
      simp [storageDiff.snapshot, newStorageDiff]
    | cons d rest =>
      intro d' hd'
      simp only [TrieState.StartTransaction, TrieState.getCurrentTransaction, List.head?,
        storageDiff.snapshot, List.mem_cons] at hd'
      rcases hd' with rfl | hd'
      · exact h d' (List.mem_cons_self _ _)
      · exact h d' (List.mem_cons.2 hd')
  | commit =>
    cases txs with
    | nil => simp [Call.step, TrieState.CommitTransaction] at hs
    | cons d rest =>
      cases rest with
      | nil =>
        simp only [Call.step, TrieState.CommitTransaction, Except.ok.injEq] at hs
        subst hs
        intro d' hd'
        simp at hd'
      | cons d2 rest2 =>
        simp only [Call.step, TrieState.CommitTransaction, Except.ok.injEq] at hs
        subst hs
        intro d' hd'
        simp only [List.mem_cons] at hd'
        rcases hd' with rfl | hd'
        · exact h d' (List.mem_cons_self _ _)
        · exact h d' (List.mem_cons_of_mem _ (List.mem_cons_of_mem _ hd'))
  | rollback =>
    cases txs with
    | nil => simp [Call.step, TrieState.RollbackTransaction] at hs
    | cons d rest =>
      simp only [Call.step, TrieState.RollbackTransaction, Except.ok.injEq] at hs
      subst hs
      intro d' hd'
      exact h d' (List.mem_cons_of_mem _ hd')

/-- In every state reached from a fresh `TrieState` by any sequence of calls,
the `sortedKeys` of the open transactions are strictly sorted. -/
theorem run_sortedKeys (cs : List Call) (t t' : TrieState) (h : SortedKeysInv t)
    (hs : run cs t = .ok t') : SortedKeysInv t' := by
  induction cs generalizing t with
  | nil =>
    simp only [run, Except.ok.injEq] at hs
    exact hs ▸ h
  | cons c rest ih =>
    simp only [run] at hs
    cases hc : c.step t with
    | error p => rw [hc] at hs; exact Except.noConfusion hs
    | ok t₁ =>
      rw [hc] at hs
      exact ih t₁ (Call.step_sortedKeys c t t₁ h hc) hs

/-- With the limit 0 the deletion loop of `DeleteChildLimit` never meets its
stop test: it deletes every key it is given. -/
theorem deleteLoop_limit_zero (keys : List Key) (child : Trie) (deleted : Nat)
    (h : deleted + keys.length < 2 ^ 32) :
    TrieState.deleteLoop 0 keys child deleted
      = (keys.foldl (fun c k => c.Delete k) child, deleted + keys.length) := by
  induction keys generalizing child deleted with
  | nil => rfl
  | cons k rest ih =>
    simp only [List.length_cons] at h
    have h1 : (deleted + 1) % 2 ^ 32 = deleted + 1 := Nat.mod_eq_of_lt (by omega)
    simp only [TrieState.deleteLoop, h1, Nat.add_one_ne_zero, ↓reduceIte, List.foldl_cons,
      List.length_cons]
    rw [ih _ _ (by omega)]
    congr 1
    omega

/-- The fuel of the binary search is enough on every input: any two amounts
of at least `j - i` give the same position, so the loop has run to its end. -/
theorem binarySearchLoop_fuel (x : List Key) (target : Key) :
    ∀ fuel fuel' i j, j - i ≤ fuel → j - i ≤ fuel' →
      binarySearchLoop x target fuel i j = binarySearchLoop x target fuel' i j := by
  intro fuel
  induction fuel with
  | zero =>
    intro fuel' i j h _
    cases fuel' with
    | zero => rfl
    | succ n =>
      have hij : ¬ i < j := by omega
      simp [binarySearchLoop, hij]
  | succ n ih =>
    intro fuel' i j h h'
    cases fuel' with
    | zero =>
      have hij : ¬ i < j := by omega
      simp [binarySearchLoop, hij]
    | succ n' =>
      simp only [binarySearchLoop]
      by_cases hij : i < j
      · simp only [hij, ↓reduceIte]
        have h1 : i ≤ (i + j) / 2 := by omega
        have h2 : (i + j) / 2 < j := by omega
        by_cases hP : x.getD ((i + j) / 2) [] < target
        · simp only [hP, ↓reduceIte]
          exact ih n' _ _ (by omega) (by omega)
        · simp only [hP, ↓reduceIte]
          exact ih n' _ _ (by omega) (by omega)
      · simp only [hij, ↓reduceIte]

/-! ## Verification of warp-sync proofs -/

/-- C16: `Verify` rejects every encoded proof that decodes to an empty
fragment list, whatever the set id, the authorities and `IsFinished` are:
it returns the error "empty warp sync proof". -/
theorem verify_rejects_empty_proof (x : Externals) (p : WarpSyncProofProvider)
    (encodedProof : List Nat) (setId : Nat) (authorities : AuthorityList) (proof : WarpSyncProof)
    (hdec : x.unmarshalProof encodedProof = .ok proof) (hempty : proof.Proofs = []) :
    p.Verify x encodedProof setId authorities = .error .emptyWarpSyncProof := by
  simp [WarpSyncProofProvider.Verify, hdec, hempty]

/-- An instance of C16: the encoding `[0, 1]` of the empty finished proof. -/
theorem verify_rejects_empty_proof_witness :
    sampleExternals.unmarshalProof [0, 1]
      = .ok { Proofs := [], IsFinished := true, proofsLength := 0 } ∧
    sampleProvider.Verify sampleExternals [0, 1] 5 [(List.replicate 32 1, 1)]
      = .error .emptyWarpSyncProof :=
  ⟨by decide, verify_rejects_empty_proof sampleExternals sampleProvider [0, 1] 5
    [(List.replicate 32 1, 1)] { Proofs := [], IsFinished := true, proofsLength := 0 }
    (by decide) rfl⟩

/-- What a successful `Verify` returns: the outcome of the fragment walk,
the header of the last fragment and the `IsFinished` flag of the decoded proof. -/
theorem Verify_ok_iff (x : Externals) (p : WarpSyncProofProvider) (encodedProof : List Nat)
    (setId : Nat) (authorities : AuthorityList) (proof : WarpSyncProof)
    (result : WarpSyncVerificationResult) (hdec : x.unmarshalProof encodedProof = .ok proof) :
    p.Verify x encodedProof setId authorities = .ok result ↔
      ∃ last next, proof.Proofs.getLast? = some last ∧
        proof.verify x setId authorities p.hardForks = .ok next ∧
        result = { SetId := next.SetID, AuthorityList := next.AuthorityList,
                   Header := last.Header, Completed := proof.IsFinished } := by
  simp only [WarpSyncProofProvider.Verify, hdec]
  cases hl : proof.Proofs.getLast? with
  | none => simp
  | some last =>
    cases hv : proof.verify x setId authorities p.hardForks with
    | error e => simp
    | ok next =>
      simp only [Except.ok.injEq, Option.some.injEq, exists_and_left, exists_eq_left']
      constructor
      · intro h; exact h.symm
      · intro h; exact h.symm

/-- C17: whenever `Verify` succeeds on an encoding that decodes to the proof
`P`, the result's `Header` is the header of `P`'s last fragment and the
result's `Completed` equals `P.IsFinished`. -/
theorem verify_result_header_and_completed (x : Externals) (p : WarpSyncProofProvider)
    (encodedProof : List Nat) (setId : Nat) (authorities : AuthorityList) (proof : WarpSyncProof)
    (result : WarpSyncVerificationResult) (hdec : x.unmarshalProof encodedProof = .ok proof)
    (hok : p.Verify x encodedProof setId authorities = .ok result) :
    (∃ last, proof.Proofs.getLast? = some last ∧ result.Header = last.Header) ∧
    result.Completed = proof.IsFinished := by
  obtain ⟨last, next, hl, _, hr⟩ :=
    (Verify_ok_iff x p encodedProof setId authorities proof result hdec).1 hok
  subst hr
  exact ⟨⟨last, hl, rfl⟩, rfl⟩

/-- An instance of C17 on the two-fragment proof of the toy chain. -/
theorem verify_result_header_and_completed_witness :
    sampleExternals.unmarshalProof [8, 10, 0, 0, 12, 1, 0, 1] = .ok sampleProof ∧
    (∃ last, sampleProof.Proofs.getLast? = some last ∧ sampleHeader 12 0 = last.Header) ∧
    true = sampleProof.IsFinished :=
  ⟨by decide,
    verify_result_header_and_completed sampleExternals sampleProvider
      [8, 10, 0, 0, 12, 1, 0, 1] 0 [(List.replicate 32 1, 1)] sampleProof
      { SetId := 1, AuthorityList := [(List.replicate 32 7, 1)], Header := sampleHeader 12 0,
        Completed := true } (by decide) (by decide)⟩

/-- C20: when the block state returns an error for the header of `start`,
`Generate(start)` fails with `errMissingStartBlock` wrapping that error, and
the query for that header is the only one it makes. -/
theorem generate_missing_start_block (x : Externals) (p : WarpSyncProofProvider) (start : Hash)
    (e : WarpError) (h : p.blockState.GetHeader start = .error e) :
    p.Generate x start = ([Query.GetHeader start], .error (.missingStartBlock e)) := by
  simp [WarpSyncProofProvider.Generate, WarpSyncProofProvider.generateProof, h]

/-- An instance of C20: the toy chain has no block with the hash `[99]`. -/
theorem generate_missing_start_block_witness :
    sampleProvider.blockState.GetHeader [99] = .error (.collaborator 6) ∧
    sampleProvider.Generate sampleExternals [99]
      = ([Query.GetHeader [99]], .error (.missingStartBlock (.collaborator 6))) :=
  ⟨by decide, generate_missing_start_block sampleExternals sampleProvider [99]
    (.collaborator 6) (by decide)⟩

/-! ## The fragment walk -/

theorem hardForkLookup_nil (key : Hash × Nat) : hardForkLookup [] key = none := rfl

/-- With an empty hard-fork map a successful walk adds one to the set id per
handoff and ends on the authorities of the last handoff. -/
theorem verifyLoop_handoffs (x : Externals) (isFinished : Bool) :
    ∀ (fragments : List WarpSyncFragment) (cur r : SetIdAuthorityList),
      cur.SetID < 2 ^ 64 →
      WarpSyncProof.verifyLoop x isFinished [] fragments cur = .ok r →
      r.SetID = (cur.SetID + (handoffs x fragments).length) % 2 ^ 64 ∧
      lastHandoffAuthorities x fragments cur.AuthorityList = .ok r.AuthorityList := by
  intro fragments
  induction fragments with
  | nil =>
    intro cur r hlt h
    simp only [WarpSyncProof.verifyLoop, Except.ok.injEq] at h
    subst h
    refine ⟨?_, by simp [handoffs, lastHandoffAuthorities]⟩
    simp only [handoffs, List.length_nil, Nat.add_zero]
    exact (Nat.mod_eq_of_lt hlt).symm
  | cons f rest ih =>
    intro cur r hlt h
    rw [WarpSyncProof.verifyLoop] at h
    simp only [hardForkLookup_nil] at h
    cases hv : x.verifyJustification f.Justification cur.SetID cur.AuthorityList with
    | error e => simp [hv] at h
    | ok u =>
      simp only [hv] at h
      by_cases ht : f.Justification.Commit.TargetHash ≠ x.headerHash f.Header
      · simp [ht] at h
      · simp only [ht, ↓reduceIte] at h
        cases hsc : findScheduledChange x f.Header with
        | error e => simp [hsc] at h
        | ok o =>
          cases o with
          | none =>
            simp only [hsc] at h
            by_cases hr : rest ≠ [] ∨ isFinished = false
            · simp [hr] at h
            · simp only [hr, ↓reduceIte] at h
              have := ih cur r hlt h
              simpa [handoffs, lastHandoffAuthorities, hsc] using this
          | some change =>
            simp only [hsc] at h
            cases hp : grandpaAuthoritiesRawToAuthorities x change.Auths with
            | error e => simp [hp] at h
            | ok auths =>
              simp only [hp] at h
              have hlt' : (cur.SetID + 1) % 2 ^ 64 < 2 ^ 64 := Nat.mod_lt _ (by norm_num)
              obtain ⟨h1, h2⟩ := ih _ r hlt' h
              simp only at h1 h2
              constructor
              · rw [h1]
                simp only [handoffs, hsc, List.length_cons]
                omega
              · simp only [lastHandoffAuthorities, handoffs, hsc] at h2 ⊢
                cases hh : handoffs x rest with
                | nil =>
                  simp only [hh, List.getLast?_nil, Except.ok.injEq] at h2
                  simp [hp, h2]
                | cons c cs =>
                  simp only [hh] at h2
                  simpa [List.getLast?_cons_cons] using h2

/-- C12 as stated fails: from the set id `2 ^ 64 - 1` the walk of a proof
with one handoff returns the set id 0, not one more than the input. -/
theorem verify_set_id_wraps :
    lastSetIdProof.verify sampleExternals 18446744073709551615 [(List.replicate 32 1, 1)] []
      = .ok { SetID := 0, AuthorityList := [(List.replicate 32 7, 1)] } ∧
    (handoffs sampleExternals lastSetIdProof.Proofs).length = 1 ∧
    (0 : Nat) ≠ 18446744073709551615 + 1 := by
  decide

/-- C12, amended: with an empty hard-fork map, when the fragment walk
succeeds from `(set_id, authorities)`, the returned set id is the `uint64`
sum of `set_id` and the number of fragments whose header carries a
scheduled-change digest: exactly that sum when it is below `2 ^ 64`, and the
sum modulo `2 ^ 64` otherwise; the returned authority list is parsed from
the last such fragment, or is the input list when there is none. -/
theorem verify_counts_handoffs (x : Externals) (proof : WarpSyncProof) (setId : Nat)
    (authorities : AuthorityList) (r : SetIdAuthorityList) (hid : setId < 2 ^ 64)
    (hok : proof.verify x setId authorities [] = .ok r) :
    r.SetID = (setId + (handoffs x proof.Proofs).length) % 2 ^ 64 ∧
    (setId + (handoffs x proof.Proofs).length < 2 ^ 64 →
      r.SetID = setId + (handoffs x proof.Proofs).length) ∧
    lastHandoffAuthorities x proof.Proofs authorities = .ok r.AuthorityList := by
  obtain ⟨h1, h2⟩ := verifyLoop_handoffs x proof.IsFinished proof.Proofs
    { SetID := setId, AuthorityList := authorities } r hid hok
  exact ⟨h1, fun hlt => h1.trans (Nat.mod_eq_of_lt hlt), h2⟩

/-- An instance of C12: the toy proof has one handoff, to the authority `7`. -/
theorem verify_counts_handoffs_witness :
    sampleProof.verify sampleExternals 0 [(List.replicate 32 1, 1)] []
      = .ok { SetID := 1, AuthorityList := [(List.replicate 32 7, 1)] } ∧
    (handoffs sampleExternals sampleProof.Proofs).length = 1 ∧
    (1 : Nat) = (0 + (handoffs sampleExternals sampleProof.Proofs).length) % 2 ^ 64 ∧
    lastHandoffAuthorities sampleExternals sampleProof.Proofs [(List.replicate 32 1, 1)]
      = .ok [(List.replicate 32 7, 1)] :=
  have h := verify_counts_handoffs sampleExternals sampleProof 0 [(List.replicate 32 1, 1)]
    { SetID := 1, AuthorityList := [(List.replicate 32 7, 1)] } (by norm_num) (by decide)
  ⟨by decide, by decide, h.1, h.2.2⟩

/-- The walk fails when it meets a fragment outside the hard-fork map whose
header has no scheduled change and that is not the last one of a finished proof. -/
theorem verifyLoop_missing_change (x : Externals) (isFinished : Bool)
    (hardForks : List ((Hash × Nat) × SetIdAuthorityList)) (f : WarpSyncFragment)
    (post : List WarpSyncFragment) (hm : hardForkMatched x hardForks f = false)
    (hsc : ∀ change, findScheduledChange x f.Header ≠ .ok (some change))
    (hlast : post ≠ [] ∨ isFinished = false) :
    ∀ (pre : List WarpSyncFragment) (cur : SetIdAuthorityList),
      ∃ e, WarpSyncProof.verifyLoop x isFinished hardForks (pre ++ f :: post) cur = .error e := by
  have hlook : hardForkLookup hardForks (x.headerHash f.Header, f.Header.Number) = none := by
    simpa [hardForkMatched] using hm
  intro pre
  induction pre with
  | nil =>
    intro cur
    rw [List.nil_append, WarpSyncProof.verifyLoop]
    simp only [hlook]
    cases hv : x.verifyJustification f.Justification cur.SetID cur.AuthorityList with
    | error e => exact ⟨e, rfl⟩
    | ok u =>
      simp only
      by_cases ht : f.Justification.Commit.TargetHash ≠ x.headerHash f.Header
      · exact ⟨.mismatchHeaderJustification, by simp [ht]⟩
      · simp only [ht, ↓reduceIte]
        cases hf : findScheduledChange x f.Header with
        | error e => exact ⟨_, rfl⟩
        | ok o =>
          cases o with
          | none => exact ⟨.missingAuthoritySetChange, by simp [hlast]⟩
          | some change => exact absurd hf (hsc change)
  | cons g pre ih =>
    intro cur
    rw [List.cons_append, WarpSyncProof.verifyLoop]
    cases hl : hardForkLookup hardForks (x.headerHash g.Header, g.Header.Number) with
    | some fork => exact ih _
    | none =>
      simp only
      cases hv : x.verifyJustification g.Justification cur.SetID cur.AuthorityList with
      | error e => exact ⟨e, rfl⟩
      | ok u =>
        simp only
        by_cases ht : g.Justification.Commit.TargetHash ≠ x.headerHash g.Header
        · exact ⟨.mismatchHeaderJustification, by simp [ht]⟩
        · simp only [ht, ↓reduceIte]
          cases hf : findScheduledChange x g.Header with
          | error e => exact ⟨_, rfl⟩
          | ok o =>
            cases o with
            | none => exact ⟨.missingAuthoritySetChange, by simp⟩
            | some change =>
              simp only
              cases hp : grandpaAuthoritiesRawToAuthorities x change.Auths with
              | error e => exact ⟨_, rfl⟩
              | ok auths => exact ih _

/-- C13: if some fragment that the hard-fork map does not match has a header
without a scheduled-change digest, and it is not the last fragment or
`IsFinished` is false, then the fragment walk fails, and so does `Verify` on
every encoding of that proof. -/
theorem verify_fails_on_missing_change (x : Externals) (p : WarpSyncProofProvider)
    (proof : WarpSyncProof) (pre post : List WarpSyncFragment) (f : WarpSyncFragment)
    (setId : Nat) (authorities : AuthorityList) (encodedProof : List Nat)
    (hsplit : proof.Proofs = pre ++ f :: post)
    (hm : hardForkMatched x p.hardForks f = false)
    (hsc : ∀ change, findScheduledChange x f.Header ≠ .ok (some change))
    (hlast : post ≠ [] ∨ proof.IsFinished = false)
    (hdec : x.unmarshalProof encodedProof = .ok proof) :
    (∃ e, proof.verify x setId authorities p.hardForks = .error e) ∧
    (∃ e, p.Verify x encodedProof setId authorities = .error e) := by
  have h : ∃ e, proof.verify x setId authorities p.hardForks = .error e := by
    unfold WarpSyncProof.verify
    rw [hsplit]
    exact verifyLoop_missing_change x _ _ f post hm hsc hlast pre _
  refine ⟨h, ?_⟩
  obtain ⟨e, he⟩ := h
  simp only [WarpSyncProofProvider.Verify, hdec, he]
  cases proof.Proofs.getLast? with
  | none => exact ⟨_, rfl⟩
  | some last => exact ⟨_, rfl⟩

/-- An instance of C13: in the toy proof marked unfinished, the last
fragment (block 12) has no scheduled change. -/
theorem verify_fails_on_missing_change_witness :
    hardForkMatched sampleExternals sampleProvider.hardForks (sampleFragment 12 0 1 12) = false ∧
    findScheduledChange sampleExternals (sampleFragment 12 0 1 12).Header = .ok none ∧
    (∃ e, WarpSyncProof.verify sampleExternals { sampleProof with IsFinished := false } 0
      [(List.replicate 32 1, 1)] sampleProvider.hardForks = .error e) ∧
    (∃ e, sampleProvider.Verify sampleExternals [8, 10, 0, 0, 12, 1, 0, 0] 0
      [(List.replicate 32 1, 1)] = .error e) :=
  have h0 : findScheduledChange sampleExternals (sampleFragment 12 0 1 12).Header = .ok none := by
    decide
  have h := verify_fails_on_missing_change sampleExternals sampleProvider
    { sampleProof with IsFinished := false } [sampleFragment 10 7 0 10] []
    (sampleFragment 12 0 1 12) 0 [(List.replicate 32 1, 1)] [8, 10, 0, 0, 12, 1, 0, 0]
    (by decide) (by decide) (fun change hc => by rw [h0] at hc; simp at hc) (Or.inr rfl)
    (by decide)
  ⟨by decide, by decide, h.1, h.2⟩

/-- A successful walk has met, outside the hard-fork map, only fragments
whose justification targets the hash of their header. -/
theorem verifyLoop_targets (x : Externals) (isFinished : Bool)
    (hardForks : List ((Hash × Nat) × SetIdAuthorityList)) :
    ∀ (fragments : List WarpSyncFragment) (cur r : SetIdAuthorityList),
      WarpSyncProof.verifyLoop x isFinished hardForks fragments cur = .ok r →
      ∀ f ∈ fragments, hardForkMatched x hardForks f = false →
        f.Justification.Commit.TargetHash = x.headerHash f.Header := by
  intro fragments
  induction fragments with
  | nil => intro cur r _ f hf; simp at hf
  | cons g rest ih =>
    intro cur r h f hf hm
    rw [WarpSyncProof.verifyLoop] at h
    cases hl : hardForkLookup hardForks (x.headerHash g.Header, g.Header.Number) with
    | some fork =>
      simp only [hl] at h
      rcases List.mem_cons.1 hf with rfl | hf'
      · simp [hardForkMatched, hl] at hm
      · exact ih _ r h f hf' hm
    | none =>
      simp only [hl] at h
      cases hv : x.verifyJustification g.Justification cur.SetID cur.AuthorityList with
      | error e => simp [hv] at h
      | ok u =>
        simp only [hv] at h
        by_cases ht : g.Justification.Commit.TargetHash ≠ x.headerHash g.Header
        · simp [ht] at h
        · simp only [ht, ↓reduceIte] at h
          rcases List.mem_cons.1 hf with rfl | hf'
          · exact not_not.1 ht
          · cases hsc : findScheduledChange x g.Header with
            | error e => simp [hsc] at h
            | ok o =>
              cases o with
              | none =>
                simp only [hsc] at h
                by_cases hr : rest ≠ [] ∨ isFinished = false
                · simp [hr] at h
                · simp only [hr, ↓reduceIte] at h
                  exact ih _ r h f hf' hm
              | some change =>
                simp only [hsc] at h
                cases hp : grandpaAuthoritiesRawToAuthorities x change.Auths with
                | error e => simp [hp] at h
                | ok auths =>
                  simp only [hp] at h
                  exact ih _ r h f hf' hm

/-- C14: in every proof accepted by the fragment walk, each fragment that
the hard-fork map does not match has a justification whose commit target
hash is the hash of the fragment's header; and a fragment outside the map
whose justification targets another hash makes the walk fail, whatever the
verification of the justification itself answers. -/
theorem accepted_fragments_target_their_header (x : Externals) (proof : WarpSyncProof)
    (setId : Nat) (authorities : AuthorityList)
    (hardForks : List ((Hash × Nat) × SetIdAuthorityList)) :
    (∀ r, proof.verify x setId authorities hardForks = .ok r →
      ∀ f ∈ proof.Proofs, hardForkMatched x hardForks f = false →
        f.Justification.Commit.TargetHash = x.headerHash f.Header) ∧
    (∀ f ∈ proof.Proofs, hardForkMatched x hardForks f = false →
      f.Justification.Commit.TargetHash ≠ x.headerHash f.Header →
      ∃ e, proof.verify x setId authorities hardForks = .error e) := by
  refine ⟨fun r h => verifyLoop_targets x _ _ _ _ r h, ?_⟩
  intro f hf hm hne
  cases hv : proof.verify x setId authorities hardForks with
  | error e => exact ⟨e, rfl⟩
  | ok r => exact absurd (verifyLoop_targets x _ _ _ _ r hv f hf hm) hne

/-- An instance of C14: a fragment for block 10 whose justification is valid
for the set 0 but targets block 11 makes the walk fail. -/
theorem accepted_fragments_target_their_header_witness :
    sampleExternals.verifyJustification (sampleFragment 10 7 0 11).Justification 0
      [(List.replicate 32 1, 1)] = .ok () ∧
    ∃ e, WarpSyncProof.verify sampleExternals
      { Proofs := [sampleFragment 10 7 0 11], IsFinished := true, proofsLength := 0 } 0
      [(List.replicate 32 1, 1)] [] = .error e :=
  ⟨by decide,
    (accepted_fragments_target_their_header sampleExternals
      { Proofs := [sampleFragment 10 7 0 11], IsFinished := true, proofsLength := 0 } 0
      [(List.replicate 32 1, 1)] []).2 (sampleFragment 10 7 0 11) (by simp) (by decide)
      (by decide)⟩

/-- Two tails that the walk cannot tell apart stay indistinguishable behind
any common front. -/
theorem verifyLoop_append_congr (x : Externals) (isFinished : Bool)
    (hardForks : List ((Hash × Nat) × SetIdAuthorityList)) (l₁ l₂ : List WarpSyncFragment)
    (hne₁ : l₁ ≠ []) (hne₂ : l₂ ≠ [])
    (h : ∀ cur, WarpSyncProof.verifyLoop x isFinished hardForks l₁ cur
      = WarpSyncProof.verifyLoop x isFinished hardForks l₂ cur) :
    ∀ (pre : List WarpSyncFragment) (cur : SetIdAuthorityList),
      WarpSyncProof.verifyLoop x isFinished hardForks (pre ++ l₁) cur
        = WarpSyncProof.verifyLoop x isFinished hardForks (pre ++ l₂) cur := by
  intro pre
  induction pre with
  | nil => intro cur; simpa using h cur
  | cons g pre ih =>
    intro cur
    have e₁ : (pre ++ l₁ ≠ [] ∨ isFinished = false) := Or.inl (by simp [hne₁])
    have e₂ : (pre ++ l₂ ≠ [] ∨ isFinished = false) := Or.inl (by simp [hne₂])
    rw [List.cons_append, List.cons_append, WarpSyncProof.verifyLoop, WarpSyncProof.verifyLoop]
    cases hardForkLookup hardForks (x.headerHash g.Header, g.Header.Number) with
    | some fork => exact ih _
    | none =>
      simp only
      cases x.verifyJustification g.Justification cur.SetID cur.AuthorityList with
      | error e => rfl
      | ok u =>
        simp only
        by_cases ht : g.Justification.Commit.TargetHash ≠ x.headerHash g.Header
        · rw [if_pos ht, if_pos ht]
        · rw [if_neg ht, if_neg ht]
          cases findScheduledChange x g.Header with
          | error e => rfl
          | ok o =>
            cases o with
            | none => simp only [e₁, e₂, ↓reduceIte]
            | some change =>
              simp only
              cases grandpaAuthoritiesRawToAuthorities x change.Auths with
              | error e => rfl
              | ok auths => exact ih _

/-- At a fragment keyed in the hard-fork map the walk goes on from the map's entry. -/
theorem verifyLoop_hard_fork (x : Externals) (isFinished : Bool)
    (hardForks : List ((Hash × Nat) × SetIdAuthorityList)) (f : WarpSyncFragment)
    (post : List WarpSyncFragment) (fork cur : SetIdAuthorityList)
    (hkey : hardForkLookup hardForks (x.headerHash f.Header, f.Header.Number) = some fork) :
    WarpSyncProof.verifyLoop x isFinished hardForks (f :: post) cur
      = WarpSyncProof.verifyLoop x isFinished hardForks post
          { SetID := fork.SetID, AuthorityList := fork.AuthorityList } := by
  rw [WarpSyncProof.verifyLoop]
  simp only [hkey]

/-- C15: for a fragment whose (header hash, header number) is keyed in the
hard-fork map, the fragment walk goes on from exactly the map's entry,
whatever was carried before; replacing that fragment's justification, or the
whole fragment by one with the same key, leaves the outcome of the walk
unchanged; and `Verify` answers the same on two encodings whose proofs
differ only in that justification. -/
theorem hard_fork_fragment_not_inspected (x : Externals) (p : WarpSyncProofProvider)
    (isFinished : Bool) (pre post : List WarpSyncFragment) (f : WarpSyncFragment)
    (fork : SetIdAuthorityList)
    (hkey : hardForkLookup p.hardForks (x.headerHash f.Header, f.Header.Number) = some fork) :
    (∀ cur, WarpSyncProof.verifyLoop x isFinished p.hardForks (f :: post) cur
      = WarpSyncProof.verifyLoop x isFinished p.hardForks post
          { SetID := fork.SetID, AuthorityList := fork.AuthorityList }) ∧
    (∀ f' : WarpSyncFragment, x.headerHash f'.Header = x.headerHash f.Header →
      f'.Header.Number = f.Header.Number → ∀ cur,
      WarpSyncProof.verifyLoop x isFinished p.hardForks (pre ++ f :: post) cur
        = WarpSyncProof.verifyLoop x isFinished p.hardForks (pre ++ f' :: post) cur) ∧
    (∀ (j : GrandpaJustification) (setId : Nat) (authorities : AuthorityList) (n n' : Nat)
      (enc enc' : List Nat),
      x.unmarshalProof enc
        = .ok { Proofs := pre ++ f :: post, IsFinished := isFinished, proofsLength := n } →
      x.unmarshalProof enc'
        = .ok { Proofs := pre ++ { f with Justification := j } :: post,
                IsFinished := isFinished, proofsLength := n' } →
      p.Verify x enc setId authorities = p.Verify x enc' setId authorities) := by
  have hstep := fun cur => verifyLoop_hard_fork x isFinished p.hardForks f post fork cur hkey
  have hrepl : ∀ f' : WarpSyncFragment, x.headerHash f'.Header = x.headerHash f.Header →
      f'.Header.Number = f.Header.Number → ∀ pre' cur,
      WarpSyncProof.verifyLoop x isFinished p.hardForks (pre' ++ f :: post) cur
        = WarpSyncProof.verifyLoop x isFinished p.hardForks (pre' ++ f' :: post) cur := by
    intro f' h1 h2 pre' cur
    apply verifyLoop_append_congr x isFinished p.hardForks (f :: post) (f' :: post)
      (by simp) (by simp)
    intro cur'
    rw [hstep cur', verifyLoop_hard_fork x isFinished p.hardForks f' post fork cur'
      (by rw [h1, h2]; exact hkey)]
  refine ⟨hstep, fun f' h1 h2 cur => hrepl f' h1 h2 pre cur, ?_⟩
  intro j setId authorities n n' enc enc' hd hd'
  have hlast : ∃ l l', (pre ++ f :: post).getLast? = some l ∧
      (pre ++ { f with Justification := j } :: post).getLast? = some l' ∧
      l.Header = l'.Header := by
    cases post with
    | nil => exact ⟨f, { f with Justification := j }, by simp, by simp, rfl⟩
    | cons g post' =>
      refine ⟨(g :: post').getLast (by simp), (g :: post').getLast (by simp), ?_, ?_, rfl⟩
      · rw [List.getLast?_append, List.getLast?_cons_cons, List.getLast?_eq_getLast _ (by simp)]
        rfl
      · rw [List.getLast?_append, List.getLast?_cons_cons, List.getLast?_eq_getLast _ (by simp)]
        rfl
  obtain ⟨l, l', h1, h2, hh⟩ := hlast
  have hwalk := hrepl { f with Justification := j } rfl rfl pre
    { SetID := setId, AuthorityList := authorities }
  simp only [WarpSyncProofProvider.Verify, hd, hd', WarpSyncProof.verify, h1, h2, hh]
  rw [← hwalk]

/-- An instance of C15: with block 10 keyed in the hard-fork map, the toy
fragment of block 10 may carry any justification; the walk goes on from the
set 5 of the map. -/
theorem hard_fork_fragment_not_inspected_witness :
    hardForkLookup sampleForkProvider.hardForks
      (sampleExternals.headerHash (sampleFragment 10 7 0 10).Header,
        (sampleFragment 10 7 0 10).Header.Number)
      = some { SetID := 5, AuthorityList := [(List.replicate 32 9, 1)] } ∧
    WarpSyncProof.verifyLoop sampleExternals true sampleForkProvider.hardForks
        [sampleFragment 10 7 0 10, sampleFragment 12 0 5 12]
        { SetID := 0, AuthorityList := [(List.replicate 32 1, 1)] }
      = WarpSyncProof.verifyLoop sampleExternals true sampleForkProvider.hardForks
        [sampleFragment 10 7 3 99, sampleFragment 12 0 5 12]
        { SetID := 0, AuthorityList := [(List.replicate 32 1, 1)] } ∧
    WarpSyncProof.verifyLoop sampleExternals true sampleForkProvider.hardForks
        [sampleFragment 10 7 3 99, sampleFragment 12 0 5 12]
        { SetID := 0, AuthorityList := [(List.replicate 32 1, 1)] }
      = .ok { SetID := 5, AuthorityList := [(List.replicate 32 9, 1)] } :=
  ⟨by decide,
    (hard_fork_fragment_not_inspected sampleExternals sampleForkProvider true []
      [sampleFragment 12 0 5 12] (sampleFragment 10 7 0 10)
      { SetID := 5, AuthorityList := [(List.replicate 32 9, 1)] } (by decide)).2.1
      (sampleFragment 10 7 3 99) rfl rfl _,
    by decide⟩

/-! ## The size of a generated proof -/

theorem marshalFragments_append (x : Externals) (l : List WarpSyncFragment) (f : WarpSyncFragment)
    (encs enc : List Nat) (h₁ : marshalFragments x l = .ok encs)
    (h₂ : x.marshalFragment f = .ok enc) :
    marshalFragments x (l ++ [f]) = .ok (encs ++ enc) := by
  induction l generalizing encs with
  | nil =>
    simp only [marshalFragments, Except.ok.injEq] at h₁
    subst h₁
    simp [marshalFragments, h₂]
  | cons g rest ih =>
    simp only [marshalFragments] at h₁
    cases hg : x.marshalFragment g with
    | error e => simp [hg] at h₁
    | ok eg =>
      simp only [hg] at h₁
      cases hr : marshalFragments x rest with
      | error e => simp [hr] at h₁
      | ok er =>
        simp only [hr, Except.ok.injEq] at h₁
        subst h₁
        simp [marshalFragments, hg, ih er hr]

theorem SizeInv_new (x : Externals) : SizeInv x NewWarpSyncProof :=
  ⟨[], rfl, rfl, by decide⟩

theorem SizeInv_addFragment (x : Externals) (w w' : WarpSyncProof) (f : WarpSyncFragment)
    (b : Bool) (hw : SizeInv x w) (h : w.addFragment x f = .ok (w', b)) : SizeInv x w' := by
  obtain ⟨encs, h1, h2, h3⟩ := hw
  simp only [WarpSyncProof.addFragment] at h
  cases hm : x.marshalFragment f with
  | error e => simp [hm] at h
  | ok enc =>
    simp only [hm] at h
    by_cases hlim : w.proofsLength + enc.length ≥ MaxWarpSyncProofSize
    · simp only [hlim, ↓reduceIte, Except.ok.injEq, Prod.mk.injEq] at h
      rw [← h.1]
      exact ⟨encs, h1, h2, h3⟩
    · simp only [hlim, ↓reduceIte, Except.ok.injEq, Prod.mk.injEq] at h
      rw [← h.1]
      refine ⟨encs ++ enc, marshalFragments_append x _ f encs enc h1 hm, ?_, ?_⟩
      · simp [h2]
      · simpa using hlim

theorem SizeInv_generateLoop (x : Externals) (blockState : BlockState) :
    ∀ (changes : List Nat) (w w' : WarpSyncProof) (trace trace' : List Query) (b : Bool),
      SizeInv x w →
      WarpSyncProofProvider.generateLoop x blockState changes w trace = (trace', .ok (w', b)) →
      SizeInv x w' := by
  intro changes
  induction changes with
  | nil =>
    intro w w' trace trace' b hw h
    simp only [WarpSyncProofProvider.generateLoop, Prod.mk.injEq, Except.ok.injEq] at h
    rw [← h.2.1]; exact hw
  | cons n rest ih =>
    intro w w' trace trace' b hw h
    simp only [WarpSyncProofProvider.generateLoop] at h
    cases hh : blockState.GetHeaderByNumber n with
    | error e => simp [hh] at h
    | ok header =>
      simp only [hh] at h
      cases hs : findScheduledChange x header with
      | error e => simp [hs] at h
      | ok o =>
        cases o with
        | none =>
          simp only [hs, Prod.mk.injEq, Except.ok.injEq] at h
          rw [← h.2.1]; exact hw
        | some change =>
          simp only [hs] at h
          cases hj : blockState.GetJustification (x.headerHash header) with
          | error e => simp [hj] at h
          | ok enc =>
            simp only [hj] at h
            cases hd : x.decodeJustification enc with
            | error e => simp [hd] at h
            | ok j =>
              simp only [hd] at h
              cases ha : w.addFragment x { Header := header, Justification := j } with
              | error e => simp [ha] at h
              | ok r =>
                obtain ⟨w₁, b₁⟩ := r
                have hw₁ := SizeInv_addFragment x w w₁ _ b₁ hw ha
                cases b₁ with
                | true =>
                  simp only [ha, Prod.mk.injEq, Except.ok.injEq] at h
                  rw [← h.2.1]; exact hw₁
                | false =>
                  simp only [ha] at h
                  exact ih w₁ w' _ trace' b hw₁ h

theorem SizeInv_generateTerminal (x : Externals) (blockState : BlockState)
    (w w' : WarpSyncProof) (trace trace' : List Query) (hw : SizeInv x w)
    (h : WarpSyncProofProvider.generateTerminal x blockState w trace = (trace', .ok w')) :
    SizeInv x w' ∧ w'.IsFinished = true := by
  simp only [WarpSyncProofProvider.generateTerminal] at h
  cases hf : blockState.GetHighestFinalisedHeader with
  | error e => simp [hf] at h
  | ok lastFin =>
    simp only [hf] at h
    cases hj : blockState.GetJustification (x.headerHash lastFin) with
    | error e => simp [hj] at h
    | ok enc =>
      simp only [hj] at h
      cases hd : x.decodeJustification enc with
      | error e => simp [hd] at h
      | ok j =>
        simp only [hd] at h
        by_cases hn : j.Commit.TargetNumber ≥ w.lastProofBlockNumber
        · simp only [hn, ↓reduceIte] at h
          cases ha : w.addFragment x { Header := lastFin, Justification := j } with
          | error e => simp [ha] at h
          | ok r =>
            obtain ⟨w₁, b₁⟩ := r
            simp only [ha, Prod.mk.injEq, Except.ok.injEq] at h
            have hw₁ := SizeInv_addFragment x w w₁ _ b₁ hw ha
            rw [← h.2]
            exact ⟨hw₁, rfl⟩
        · simp only [hn, ↓reduceIte, Prod.mk.injEq, Except.ok.injEq] at h
          rw [← h.2]
          exact ⟨hw, rfl⟩

/-- How a successful `Generate` came about: the start header and the list of
changes were read, the loop ended with a proof and its `limitReached`, and
the proof is the loop's when the limit was reached and the one closed by the
terminal part otherwise. -/
theorem generateProof_ok (x : Externals) (p : WarpSyncProofProvider) (start : Hash)
    (w : WarpSyncProof) (h : (p.generateProof x start).2 = .ok w) :
    ∃ beginHeader changes trace₀ trace₁ w₀ b,
      p.blockState.GetHeader start = .ok beginHeader ∧
      p.grandpaState.GetAuthoritiesChangesFromBlock beginHeader.Number = .ok changes ∧
      WarpSyncProofProvider.generateLoop x p.blockState changes NewWarpSyncProof trace₀
        = (trace₁, .ok (w₀, b)) ∧
      ((b = true ∧ w = w₀) ∨
        (b = false ∧ ∃ trace₂,
          WarpSyncProofProvider.generateTerminal x p.blockState w₀ trace₁ = (trace₂, .ok w))) := by
  simp only [WarpSyncProofProvider.generateProof] at h
  cases hb : p.blockState.GetHeader start with
  | error e => simp [hb] at h
  | ok beginHeader =>
    simp only [hb] at h
    cases hf : p.blockState.GetHighestFinalisedHeader with
    | error e => simp [hf] at h
    | ok lastFin =>
      simp only [hf] at h
      by_cases hn : beginHeader.Number > lastFin.Number
      · simp [hn] at h
      · simp only [hn, ↓reduceIte] at h
        cases hc : p.grandpaState.GetAuthoritiesChangesFromBlock beginHeader.Number with
        | error e => simp [hc] at h
        | ok changes =>
          simp only [hc] at h
          cases hl : WarpSyncProofProvider.generateLoop x p.blockState changes NewWarpSyncProof
              ([Query.GetHeader start] ++ [Query.GetHighestFinalisedHeader] ++
                [Query.GetAuthoritiesChangesFromBlock beginHeader.Number]) with
          | mk trace₁ r =>
            simp only [hl] at h
            cases r with
            | error e => simp at h
            | ok wb =>
              obtain ⟨w₀, b⟩ := wb
              refine ⟨beginHeader, changes, _, trace₁, w₀, b, rfl, hc, hl, ?_⟩
              cases b with
              | true =>
                simp only [Except.ok.injEq] at h
                exact Or.inl ⟨rfl, h.symm⟩
              | false =>
                simp only at h
                refine Or.inr ⟨rfl, (WarpSyncProofProvider.generateTerminal x p.blockState w₀
                  trace₁).1, ?_⟩
                exact Prod.ext rfl h

theorem generateLoop_isFinished (x : Externals) (blockState : BlockState) :
    ∀ (changes : List Nat) (w w' : WarpSyncProof) (trace trace' : List Query) (b : Bool),
      WarpSyncProofProvider.generateLoop x blockState changes w trace = (trace', .ok (w', b)) →
      w'.IsFinished = w.IsFinished := by
  intro changes
  induction changes with
  | nil =>
    intro w w' trace trace' b h
    simp only [WarpSyncProofProvider.generateLoop, Prod.mk.injEq, Except.ok.injEq] at h
    rw [← h.2.1]
  | cons n rest ih =>
    intro w w' trace trace' b h
    simp only [WarpSyncProofProvider.generateLoop] at h
    cases hh : blockState.GetHeaderByNumber n with
    | error e => simp [hh] at h
    | ok header =>
      simp only [hh] at h
      cases hs : findScheduledChange x header with
      | error e => simp [hs] at h
      | ok o =>
        cases o with
        | none =>
          simp only [hs, Prod.mk.injEq, Except.ok.injEq] at h
          rw [← h.2.1]
        | some change =>
          simp only [hs] at h
          cases hj : blockState.GetJustification (x.headerHash header) with
          | error e => simp [hj] at h
          | ok enc =>
            simp only [hj] at h
            cases hd : x.decodeJustification enc with
            | error e => simp [hd] at h
            | ok j =>
              simp only [hd] at h
              cases ha : w.addFragment x { Header := header, Justification := j } with
              | error e => simp [ha] at h
              | ok r =>
                obtain ⟨w₁, b₁⟩ := r
                have hfin : w₁.IsFinished = w.IsFinished := by
                  simp only [WarpSyncProof.addFragment] at ha
                  cases hm : x.marshalFragment { Header := header, Justification := j } with
                  | error e => simp [hm] at ha
                  | ok em =>
                    simp only [hm] at ha
                    split_ifs at ha <;>
                      · simp only [Except.ok.injEq, Prod.mk.injEq] at ha
                        rw [← ha.1]
                cases b₁ with
                | true =>
                  simp only [ha, Prod.mk.injEq, Except.ok.injEq] at h
                  rw [← h.2.1]; exact hfin
                | false =>
                  simp only [ha] at h
                  exact (ih w₁ w' _ trace' b h).trans hfin

/-- Every proof that `Generate` builds keeps the size invariant, and it is
marked finished exactly when the loop did not reach the limit. -/
theorem generateProof_inv (x : Externals) (p : WarpSyncProofProvider) (start : Hash)
    (w : WarpSyncProof) (h : (p.generateProof x start).2 = .ok w) :
    SizeInv x w ∧
    ∃ changes trace₀ trace₁ w₀ b,
      WarpSyncProofProvider.generateLoop x p.blockState changes NewWarpSyncProof trace₀
        = (trace₁, .ok (w₀, b)) ∧ w.IsFinished = !b := by
  obtain ⟨beginHeader, changes, trace₀, trace₁, w₀, b, _, _, hl, hcase⟩ :=
    generateProof_ok x p start w h
  have hw₀ := SizeInv_generateLoop x p.blockState changes _ w₀ _ trace₁ b (SizeInv_new x) hl
  have hf₀ := generateLoop_isFinished x p.blockState changes _ w₀ _ trace₁ b hl
  rcases hcase with ⟨hb, hw⟩ | ⟨hb, trace₂, ht⟩
  · subst hw
    refine ⟨hw₀, changes, trace₀, trace₁, w, b, hl, ?_⟩
    rw [hf₀, hb]; rfl
  · obtain ⟨hs, hfin⟩ := SizeInv_generateTerminal x p.blockState w₀ w trace₁ trace₂ hw₀ ht
    exact ⟨hs, changes, trace₀, trace₁, w₀, b, hl, by rw [hfin, hb]; rfl⟩

/-- C18, amended: for every output of `Generate`, the encoded fragments of
the proof total strictly less than 8 MiB, and the output is those bytes
behind the compact fragment count and before the one-byte `is_finished`
flag: it is shorter than 8 MiB plus the count prefix plus one. -/
theorem generated_proof_size (x : Externals) (p : WarpSyncProofProvider) (start : Hash)
    (out : List Nat) (h : (p.Generate x start).2 = .ok out) :
    ∃ proof encs, (p.generateProof x start).2 = .ok proof ∧
      marshalFragments x proof.Proofs = .ok encs ∧
      encs.length < MaxWarpSyncProofSize ∧
      out.length = (x.compact proof.Proofs.length).length + encs.length + 1 ∧
      out.length < MaxWarpSyncProofSize + (x.compact proof.Proofs.length).length + 1 := by
  simp only [WarpSyncProofProvider.Generate] at h
  cases hg : p.generateProof x start with
  | mk trace r =>
    simp only [hg] at h
    cases r with
    | error e => simp at h
    | ok proof =>
      simp only at h
      obtain ⟨⟨encs, h1, h2, h3⟩, _⟩ := generateProof_inv x p start proof (by rw [hg])
      simp only [marshalProof, h1, Except.ok.injEq] at h
      refine ⟨proof, encs, rfl, h1, by omega, ?_, ?_⟩
      · rw [← h]; simp; omega
      · rw [← h]; simp; omega

theorem length_zeroBytes (n : Nat) : (zeroBytes n).length = n :=
  List.length_replicate n 0

theorem maxSize_eq : MaxWarpSyncProofSize = 8388608 := by decide

/-- Over the toy chain, asked from block 11, `Generate` returns the one
terminal fragment between the count byte and the flag byte, when every
fragment encodes to 8 MiB - 1 bytes. -/
theorem generate_one_huge_fragment (z : List Nat) (hz : z.length = 8388607) :
    (sampleProvider.Generate (fixedSizeExternals z) [11]).2 = .ok ([4] ++ z ++ [1]) := by
  simp [WarpSyncProofProvider.Generate, WarpSyncProofProvider.generateProof,
    WarpSyncProofProvider.generateLoop, WarpSyncProofProvider.generateTerminal,
    WarpSyncProof.addFragment, WarpSyncProof.lastProofBlockNumber, marshalProof,
    marshalFragments, sampleProvider, NewWarpSyncProofProvider, sampleBlockState,
    sampleGrandpaState, fixedSizeExternals, sampleExternals, sampleHeader,
    sampleDecodeJustification, NewWarpSyncProof, maxSize_eq, hz]

/-- C18 as stated fails: over the toy chain, asked from block 11, with
fragments that encode to 8 MiB - 1 bytes, the one (terminal) fragment passes
the size test of `addFragment`; with the one-byte fragment count and the
`is_finished` byte the encoded proof is 8 MiB + 1 bytes long. -/
theorem generated_proof_exceeds_limit :
    ∃ out, (sampleProvider.Generate (fixedSizeExternals (zeroBytes 8388607)) [11]).2 = .ok out ∧
      out.length = MaxWarpSyncProofSize + 1 :=
  ⟨_, generate_one_huge_fragment (zeroBytes 8388607) (length_zeroBytes 8388607), by
    rw [List.length_append, List.length_append, length_zeroBytes]; rfl⟩

/-- An instance of amended C18 on the toy chain: 8 bytes for two fragments of three bytes. -/
theorem generated_proof_size_witness :
    (sampleProvider.Generate sampleExternals [1]).2 = .ok [8, 10, 0, 0, 12, 1, 0, 1] ∧
    ∃ proof encs, (sampleProvider.generateProof sampleExternals [1]).2 = .ok proof ∧
      marshalFragments sampleExternals proof.Proofs = .ok encs ∧
      encs.length < MaxWarpSyncProofSize ∧
      [8, 10, 0, 0, 12, 1, 0, 1].length
        = (sampleExternals.compact proof.Proofs.length).length + encs.length + 1 ∧
      [8, 10, 0, 0, 12, 1, 0, 1].length
        < MaxWarpSyncProofSize + (sampleExternals.compact proof.Proofs.length).length + 1 :=
  ⟨by decide, generated_proof_size sampleExternals sampleProvider [1]
    [8, 10, 0, 0, 12, 1, 0, 1] (by decide)⟩

/-- Over the toy chain, asked from block 1, with fragments that encode to
half of the limit: the fragment of the handoff at block 10 is appended, the
terminal fragment of block 12 is not, and the proof is marked finished. -/
theorem generate_drops_terminal (z : List Nat) (hz : z.length = 4194304) :
    (sampleProvider.generateProof (fixedSizeExternals z) [1]).2
      = .ok { Proofs := [sampleFragment 10 7 0 10], IsFinished := true,
              proofsLength := 4194304 } := by
  simp [WarpSyncProofProvider.generateProof,
    WarpSyncProofProvider.generateLoop, WarpSyncProofProvider.generateTerminal,
    WarpSyncProof.addFragment, WarpSyncProof.lastProofBlockNumber,
    sampleProvider, NewWarpSyncProofProvider, sampleBlockState,
    sampleGrandpaState, fixedSizeExternals, sampleExternals, sampleHeader,
    sampleDecodeJustification, NewWarpSyncProof, maxSize_eq, hz, findScheduledChange,
    findScheduledChangeIn, GrandpaEngineID, sampleUnmarshalDigest, sampleFragment,
    sampleJustification]

/-- C19, at the failing input: over the toy chain (handoff at block 10,
highest finalized block 12 with the commit number 12), with fragments that
encode to 4 MiB each, `Generate` builds a proof with `IsFinished = true`
whose only fragment is the one of block 10, although the commit number 12 is
not below `lastProofBlockNumber() = 11`: the terminal fragment did not fit
and was dropped. -/
theorem finished_proof_lacks_terminal_fragment :
    (sampleProvider.generateProof (fixedSizeExternals (zeroBytes 4194304)) [1]).2
      = .ok { Proofs := [sampleFragment 10 7 0 10], IsFinished := true,
              proofsLength := 4194304 } ∧
    sampleProvider.blockState.GetHighestFinalisedHeader = .ok (sampleHeader 12 0) ∧
    WarpSyncProof.lastProofBlockNumber
      { Proofs := [sampleFragment 10 7 0 10], IsFinished := false, proofsLength := 4194304 }
      = 11 ∧
    (sampleFragment 10 7 0 10).Header ≠ sampleHeader 12 0 :=
  ⟨generate_drops_terminal (zeroBytes 4194304) (length_zeroBytes 4194304), by decide, by decide,
    by decide⟩

/-! ## The round trip of `Generate` and `Verify` -/

theorem marshalFragments_cons_ok (x : Externals) (f : WarpSyncFragment)
    (rest : List WarpSyncFragment) (encs : List Nat)
    (h : marshalFragments x (f :: rest) = .ok encs) :
    ∃ enc encs', x.marshalFragment f = .ok enc ∧ marshalFragments x rest = .ok encs' ∧
      encs = enc ++ encs' := by
  simp only [marshalFragments] at h
  cases hf : x.marshalFragment f with
  | error e => simp [hf] at h
  | ok enc =>
    simp only [hf] at h
    cases hr : marshalFragments x rest with
    | error e => simp [hr] at h
    | ok encs' =>
      simp only [hr, Except.ok.injEq] at h
      exact ⟨enc, encs', rfl, rfl, h.symm⟩

theorem marshalFragments_append_ok (x : Externals) (l₁ l₂ : List WarpSyncFragment)
    (encs : List Nat) (h : marshalFragments x (l₁ ++ l₂) = .ok encs) :
    ∃ e₁ e₂, marshalFragments x l₁ = .ok e₁ ∧ marshalFragments x l₂ = .ok e₂ ∧
      encs = e₁ ++ e₂ := by
  induction l₁ generalizing encs with
  | nil => exact ⟨[], encs, rfl, h, rfl⟩
  | cons f rest ih =>
    obtain ⟨enc, encs', h1, h2, h3⟩ := marshalFragments_cons_ok x f (rest ++ l₂) encs h
    obtain ⟨e₁, e₂, g1, g2, g3⟩ := ih encs' h2
    refine ⟨enc ++ e₁, e₂, ?_, g2, ?_⟩
    · simp [marshalFragments, h1, g1]
    · rw [h3, g3, List.append_assoc]

/-- What the chain condition says of the first change block. -/
theorem handoffFragments_cons (x : Externals) (blockState : BlockState) (n : Nat)
    (rest : List Nat) (cur final : SetIdAuthorityList) (frags : List WarpSyncFragment)
    (h : handoffFragments x blockState (n :: rest) cur = some (frags, final)) :
    ∃ header change enc j auths frags',
      blockState.GetHeaderByNumber n = .ok header ∧
      findScheduledChange x header = .ok (some change) ∧
      blockState.GetJustification (x.headerHash header) = .ok enc ∧
      x.decodeJustification enc = .ok j ∧
      x.verifyJustification j cur.SetID cur.AuthorityList = .ok () ∧
      j.Commit.TargetHash = x.headerHash header ∧
      grandpaAuthoritiesRawToAuthorities x change.Auths = .ok auths ∧
      handoffFragments x blockState rest
        { SetID := (cur.SetID + 1) % 2 ^ 64, AuthorityList := auths } = some (frags', final) ∧
      frags = { Header := header, Justification := j } :: frags' := by
  simp only [handoffFragments] at h
  cases h1 : blockState.GetHeaderByNumber n with
  | error e => simp [h1] at h
  | ok header =>
    simp only [h1] at h
    cases h2 : findScheduledChange x header with
    | error e => simp [h2] at h
    | ok o =>
      cases o with
      | none => simp [h2] at h
      | some change =>
        simp only [h2] at h
        cases h3 : blockState.GetJustification (x.headerHash header) with
        | error e => simp [h3] at h
        | ok enc =>
          simp only [h3] at h
          cases h4 : x.decodeJustification enc with
          | error e => simp [h4] at h
          | ok j =>
            simp only [h4] at h
            cases h5 : x.verifyJustification j cur.SetID cur.AuthorityList with
            | error e => simp [h5] at h
            | ok u =>
              simp only [h5] at h
              by_cases h6 : j.Commit.TargetHash = x.headerHash header
              · simp only [h6, ↓reduceIte] at h
                cases h7 : grandpaAuthoritiesRawToAuthorities x change.Auths with
                | error e => simp [h7] at h
                | ok auths =>
                  simp only [h7] at h
                  cases h8 : handoffFragments x blockState rest
                      { SetID := (cur.SetID + 1) % 2 ^ 64, AuthorityList := auths } with
                  | none =>
                    rw [h8] at h
                    exact absurd h (by simp)
                  | some r =>
                    obtain ⟨frags', final'⟩ := r
                    rw [h8] at h
                    simp only [Option.some.injEq, Prod.mk.injEq] at h
                    refine ⟨header, change, enc, j, auths, frags', rfl, h2, h3, h4, h5, h6,
                      h7, ?_, h.1.symm⟩
                    rw [← h.2]
                    exact h8
              · simp [h6] at h

/-- Over a chain that meets the chain condition, and below the size limit,
the loop of `Generate` appends exactly the fragments of the change blocks. -/
theorem generateLoop_of_handoffFragments (x : Externals) (blockState : BlockState) :
    ∀ (changes : List Nat) (cur final : SetIdAuthorityList) (w : WarpSyncProof)
      (trace : List Query) (frags : List WarpSyncFragment) (encs : List Nat),
      handoffFragments x blockState changes cur = some (frags, final) →
      marshalFragments x frags = .ok encs →
      w.proofsLength + encs.length < MaxWarpSyncProofSize →
      ∃ trace', WarpSyncProofProvider.generateLoop x blockState changes w trace
        = (trace', .ok ({ Proofs := w.Proofs ++ frags, IsFinished := w.IsFinished,
                          proofsLength := w.proofsLength + encs.length }, false)) := by
  intro changes
  induction changes with
  | nil =>
    intro cur final w trace frags encs h hm hs
    simp only [handoffFragments, Option.some.injEq, Prod.mk.injEq] at h
    rw [← h.1] at hm ⊢
    simp only [marshalFragments, Except.ok.injEq] at hm
    subst hm
    exact ⟨trace, by simp [WarpSyncProofProvider.generateLoop]⟩
  | cons n rest ih =>
    intro cur final w trace frags encs h hm hs
    obtain ⟨header, change, enc, j, auths, frags', h1, h2, h3, h4, _, _, _, h8, h9⟩ :=
      handoffFragments_cons x blockState n rest cur final frags h
    subst h9
    obtain ⟨e₁, encs', g1, g2, g3⟩ := marshalFragments_cons_ok x _ frags' encs hm
    subst g3
    rw [List.length_append] at hs
    have hadd : w.addFragment x { Header := header, Justification := j }
        = .ok ({ Proofs := w.Proofs ++ [{ Header := header, Justification := j }],
                 IsFinished := w.IsFinished, proofsLength := w.proofsLength + e₁.length },
            false) := by
      have hlt : ¬ (w.proofsLength + e₁.length ≥ MaxWarpSyncProofSize) := by omega
      simp only [WarpSyncProof.addFragment, g1, hlt, ↓reduceIte]
    obtain ⟨trace', ht⟩ := ih _ final
      { Proofs := w.Proofs ++ [{ Header := header, Justification := j }],
        IsFinished := w.IsFinished, proofsLength := w.proofsLength + e₁.length }
      (trace ++ [Query.GetHeaderByNumber n] ++ [Query.GetJustification (x.headerHash header)])
      frags' encs' h8 g2 (by simp only; omega)
    refine ⟨trace', ?_⟩
    simp only [List.append_assoc, List.singleton_append, Nat.add_assoc] at ht
    simp only [WarpSyncProofProvider.generateLoop, h1, h2, h3, h4, hadd, ht,
      List.append_assoc, List.singleton_append, List.length_append, Nat.add_assoc]

/-- Over a chain that meets the chain condition, the walk of `verify` passes
the fragments of the change blocks and goes on from the set after the last handoff. -/
theorem verifyLoop_of_handoffFragments (x : Externals) (blockState : BlockState)
    (isFinished : Bool) :
    ∀ (changes : List Nat) (cur final : SetIdAuthorityList) (frags tail : List WarpSyncFragment),
      handoffFragments x blockState changes cur = some (frags, final) →
      WarpSyncProof.verifyLoop x isFinished [] (frags ++ tail) cur
        = WarpSyncProof.verifyLoop x isFinished [] tail final := by
  intro changes
  induction changes with
  | nil =>
    intro cur final frags tail h
    simp only [handoffFragments, Option.some.injEq, Prod.mk.injEq] at h
    rw [← h.1, ← h.2, List.nil_append]
  | cons n rest ih =>
    intro cur final frags tail h
    obtain ⟨header, change, enc, j, auths, frags', _, h2, _, _, h5, h6, h7, h8, h9⟩ :=
      handoffFragments_cons x blockState n rest cur final frags h
    subst h9
    rw [List.cons_append, WarpSyncProof.verifyLoop]
    simp only [hardForkLookup_nil, h5, h6, ne_eq, not_true_eq_false, ↓reduceIte, h2, h7]
    exact ih _ final frags' tail h8

theorem terminalFragments_ne_nil (frags : List WarpSyncFragment) (lastHeader : Header)
    (justification : GrandpaJustification) :
    frags ++ terminalFragments frags lastHeader justification ≠ [] := by
  unfold terminalFragments
  by_cases hc : justification.Commit.TargetNumber ≥
      WarpSyncProof.lastProofBlockNumber { Proofs := frags, IsFinished := false, proofsLength := 0 }
  · simp [hc]
  · rw [if_neg hc]
    intro hnil
    rw [List.append_nil] at hnil
    subst hnil
    exact hc (Nat.zero_le _)

/-- The proof that `Generate` builds over a chain that meets the chain
condition, below the size limit. -/
theorem generateProof_of_handoffFragments (x : Externals) (p : WarpSyncProofProvider)
    (start : Hash) (cur final : SetIdAuthorityList) (beginHeader lastHeader : Header)
    (changes : List Nat) (frags : List WarpSyncFragment) (encT encs : List Nat)
    (jT : GrandpaJustification)
    (hbegin : p.blockState.GetHeader start = .ok beginHeader)
    (hlast : p.blockState.GetHighestFinalisedHeader = .ok lastHeader)
    (hfin : beginHeader.Number ≤ lastHeader.Number)
    (hchanges : p.grandpaState.GetAuthoritiesChangesFromBlock beginHeader.Number = .ok changes)
    (hchain : handoffFragments x p.blockState changes cur = some (frags, final))
    (hjT : p.blockState.GetJustification (x.headerHash lastHeader) = .ok encT)
    (hdecT : x.decodeJustification encT = .ok jT)
    (hmarshal : marshalFragments x (frags ++ terminalFragments frags lastHeader jT) = .ok encs)
    (hsize : encs.length < MaxWarpSyncProofSize) :
    (p.generateProof x start).2
      = .ok { Proofs := frags ++ terminalFragments frags lastHeader jT, IsFinished := true,
              proofsLength := encs.length } := by
  obtain ⟨e₁, e₂, hm1, hm2, he⟩ := marshalFragments_append_ok x frags _ encs hmarshal
  subst he
  rw [List.length_append] at hsize
  obtain ⟨trace', hloop⟩ := generateLoop_of_handoffFragments x p.blockState changes cur final
    NewWarpSyncProof
    ([Query.GetHeader start] ++ [Query.GetHighestFinalisedHeader] ++
      [Query.GetAuthoritiesChangesFromBlock beginHeader.Number])
    frags e₁ hchain hm1 (by simp only [NewWarpSyncProof]; omega)
  simp only [NewWarpSyncProof, List.nil_append, Nat.zero_add] at hloop
  have hnot : ¬ (beginHeader.Number > lastHeader.Number) := by omega
  simp only [WarpSyncProofProvider.generateProof, hbegin, hlast, hnot, ↓reduceIte, hchanges,
    NewWarpSyncProof, hloop, WarpSyncProofProvider.generateTerminal, hjT, hdecT]
  have hl : WarpSyncProof.lastProofBlockNumber
      { Proofs := frags, IsFinished := false, proofsLength := e₁.length }
      = WarpSyncProof.lastProofBlockNumber
        { Proofs := frags, IsFinished := false, proofsLength := 0 } := rfl
  by_cases hc : jT.Commit.TargetNumber ≥
      WarpSyncProof.lastProofBlockNumber { Proofs := frags, IsFinished := false, proofsLength := 0 }
  · have ht : terminalFragments frags lastHeader jT
        = [{ Header := lastHeader, Justification := jT }] := by
      simp only [terminalFragments, hc, ↓reduceIte]
    rw [ht] at hm2 ⊢
    obtain ⟨enc, encs', g1, g2, g3⟩ := marshalFragments_cons_ok x _ [] e₂ hm2
    simp only [marshalFragments, Except.ok.injEq] at g2
    subst g2
    rw [List.append_nil] at g3
    subst g3
    have hlt : ¬ (e₁.length + e₂.length ≥ MaxWarpSyncProofSize) := by omega
    simp only [hl, hc, ↓reduceIte, WarpSyncProof.addFragment, g1, hlt, List.length_append]
  · have ht : terminalFragments frags lastHeader jT = [] := by
      simp only [terminalFragments, hc, ↓reduceIte]
    rw [ht] at hm2 ⊢
    simp only [marshalFragments, Except.ok.injEq] at hm2
    subst hm2
    simp only [hl, hc, ↓reduceIte, List.append_nil, List.length_append, List.length_nil,
      Nat.add_zero]

/-- What the walk of `verify` asks of the highest finalized header where
`Generate` appends it as the terminal fragment: the conditions below are on
the chain and the collaborators alone. -/
theorem terminal_fragment_walk (x : Externals) (frags : List WarpSyncFragment)
    (lastHeader : Header) (jT : GrandpaJustification) (final : SetIdAuthorityList)
    (hterm : jT.Commit.TargetNumber ≥
        WarpSyncProof.lastProofBlockNumber
          { Proofs := frags, IsFinished := false, proofsLength := 0 } →
      x.verifyJustification jT final.SetID final.AuthorityList = .ok () ∧
      jT.Commit.TargetHash = x.headerHash lastHeader ∧
      (findScheduledChange x lastHeader = .ok none ∨
        ∃ change auths, findScheduledChange x lastHeader = .ok (some change) ∧
          grandpaAuthoritiesRawToAuthorities x change.Auths = .ok auths)) :
    ∃ r, WarpSyncProof.verifyLoop x true []
      (terminalFragments frags lastHeader jT) final = .ok r := by
  unfold terminalFragments
  by_cases hc : jT.Commit.TargetNumber ≥
      WarpSyncProof.lastProofBlockNumber { Proofs := frags, IsFinished := false, proofsLength := 0 }
  · obtain ⟨hv, ht, hsc⟩ := hterm hc
    rw [if_pos hc, WarpSyncProof.verifyLoop]
    rcases hsc with hnone | ⟨change, auths, hsome, hp⟩
    · simp only [hardForkLookup_nil, hv, ht, ne_eq, not_true_eq_false, ↓reduceIte, hnone,
        or_self, WarpSyncProof.verifyLoop]
      exact ⟨_, rfl⟩
    · simp only [hardForkLookup_nil, hv, ht, ne_eq, not_true_eq_false, ↓reduceIte, hsome, hp,
        WarpSyncProof.verifyLoop]
      exact ⟨_, rfl⟩
  · rw [if_neg hc]
    exact ⟨final, rfl⟩

/-- C11, amended: over a chain where the start block is known and not above
the highest finalized block, every authority-set-change block from the start
block on carries a scheduled change whose authorities parse and a stored
justification that decodes, targets the block and verifies under the set
active at it (`handoffFragments`), the highest finalized header has a stored
justification that decodes and, where `Generate` appends it as the terminal
fragment (its commit number is at least `lastProofBlockNumber`), targets
that header and verifies under the set after the last handoff, while the
GRANDPA digests of that header decode and the authorities of a change it
schedules parse, the fragments encode to less than the size limit, the
hard-fork map is empty and the decoder gives back the encoded proof:
`Generate(start)` succeeds, and `Verify` of its output from the set active
at `start` succeeds with the header of the last fragment, `Completed` equal
to the proof's `IsFinished`, the set id raised by the number of handoffs in
the proof, and the authorities of the last handoff. -/
theorem generate_then_verify (x : Externals) (p : WarpSyncProofProvider) (start : Hash)
    (setId : Nat) (authorities : AuthorityList) (final : SetIdAuthorityList)
    (beginHeader lastHeader : Header) (changes : List Nat) (frags : List WarpSyncFragment)
    (encT encs : List Nat) (jT : GrandpaJustification)
    (hforks : p.hardForks = [])
    (hid : setId < 2 ^ 64)
    (hbegin : p.blockState.GetHeader start = .ok beginHeader)
    (hlast : p.blockState.GetHighestFinalisedHeader = .ok lastHeader)
    (hfin : beginHeader.Number ≤ lastHeader.Number)
    (hchanges : p.grandpaState.GetAuthoritiesChangesFromBlock beginHeader.Number = .ok changes)
    (hchain : handoffFragments x p.blockState changes
      { SetID := setId, AuthorityList := authorities } = some (frags, final))
    (hjT : p.blockState.GetJustification (x.headerHash lastHeader) = .ok encT)
    (hdecT : x.decodeJustification encT = .ok jT)
    (hterm : jT.Commit.TargetNumber ≥
        WarpSyncProof.lastProofBlockNumber
          { Proofs := frags, IsFinished := false, proofsLength := 0 } →
      x.verifyJustification jT final.SetID final.AuthorityList = .ok () ∧
      jT.Commit.TargetHash = x.headerHash lastHeader ∧
      (findScheduledChange x lastHeader = .ok none ∨
        ∃ change auths, findScheduledChange x lastHeader = .ok (some change) ∧
          grandpaAuthoritiesRawToAuthorities x change.Auths = .ok auths))
    (hmarshal : marshalFragments x (frags ++ terminalFragments frags lastHeader jT) = .ok encs)
    (hsize : encs.length < MaxWarpSyncProofSize)
    (hcodec : x.unmarshalProof
      (x.compact (frags ++ terminalFragments frags lastHeader jT).length ++ encs ++ [1])
        = .ok { Proofs := frags ++ terminalFragments frags lastHeader jT, IsFinished := true,
                proofsLength := 0 }) :
    ∃ proof out result last,
      (p.generateProof x start).2 = .ok proof ∧
      (p.Generate x start).2 = .ok out ∧
      p.Verify x out setId authorities = .ok result ∧
      proof.Proofs.getLast? = some last ∧
      result.Header = last.Header ∧
      result.Completed = proof.IsFinished ∧
      result.SetId = (setId + (handoffs x proof.Proofs).length) % 2 ^ 64 ∧
      (setId + (handoffs x proof.Proofs).length < 2 ^ 64 →
        result.SetId = setId + (handoffs x proof.Proofs).length) ∧
      lastHandoffAuthorities x proof.Proofs authorities = .ok result.AuthorityList := by
  have hgen := generateProof_of_handoffFragments x p start _ final beginHeader lastHeader changes
    frags encT encs jT hbegin hlast hfin hchanges hchain hjT hdecT hmarshal hsize
  obtain ⟨r, hr⟩ := terminal_fragment_walk x frags lastHeader jT final hterm
  have hwalk : WarpSyncProof.verifyLoop x true []
      (frags ++ terminalFragments frags lastHeader jT)
      { SetID := setId, AuthorityList := authorities } = .ok r := by
    rw [verifyLoop_of_handoffFragments x p.blockState true changes _ final frags _ hchain]
    exact hr
  obtain ⟨h1, h2⟩ := verifyLoop_handoffs x true _ _ r hid hwalk
  have hne := terminalFragments_ne_nil frags lastHeader jT
  have hlastfrag := List.getLast?_eq_getLast _ hne
  have hout : (p.Generate x start).2
      = .ok (x.compact (frags ++ terminalFragments frags lastHeader jT).length ++ encs ++ [1]) := by
    cases hg : p.generateProof x start with
    | mk trace res =>
      rw [hg] at hgen
      simp only at hgen
      subst hgen
      simp only [WarpSyncProofProvider.Generate, hg, marshalProof, hmarshal, ↓reduceIte]
  refine ⟨_, _, WarpSyncVerificationResult.mk r.SetID r.AuthorityList
    ((frags ++ terminalFragments frags lastHeader jT).getLast hne).Header true, _, hgen, hout,
    ?_, hlastfrag, rfl, rfl, h1, fun hlt => h1.trans (Nat.mod_eq_of_lt hlt), h2⟩
  refine (Verify_ok_iff x p _ setId authorities _ _ hcodec).2 ⟨_, r, hlastfrag, ?_, rfl⟩
  simp only [WarpSyncProof.verify, hforks]
  exact hwalk

/-- An instance of amended C11: the toy chain from block 1, set 0, authority `1`. -/
theorem generate_then_verify_witness :
    handoffFragments sampleExternals sampleProvider.blockState [10]
      { SetID := 0, AuthorityList := [(List.replicate 32 1, 1)] }
      = some ([sampleFragment 10 7 0 10],
          { SetID := 1, AuthorityList := [(List.replicate 32 7, 1)] }) ∧
    ∃ proof out result last,
      (sampleProvider.generateProof sampleExternals [1]).2 = .ok proof ∧
      (sampleProvider.Generate sampleExternals [1]).2 = .ok out ∧
      sampleProvider.Verify sampleExternals out 0 [(List.replicate 32 1, 1)] = .ok result ∧
      proof.Proofs.getLast? = some last ∧
      result.Header = last.Header ∧
      result.Completed = proof.IsFinished ∧
      result.SetId = (0 + (handoffs sampleExternals proof.Proofs).length) % 2 ^ 64 ∧
      (0 + (handoffs sampleExternals proof.Proofs).length < 2 ^ 64 →
        result.SetId = 0 + (handoffs sampleExternals proof.Proofs).length) ∧
      lastHandoffAuthorities sampleExternals proof.Proofs [(List.replicate 32 1, 1)]
        = .ok result.AuthorityList :=
  ⟨by decide,
  generate_then_verify sampleExternals sampleProvider [1] 0 [(List.replicate 32 1, 1)]
    { SetID := 1, AuthorityList := [(List.replicate 32 7, 1)] }
    (sampleHeader 1 0) (sampleHeader 12 0) [10] [sampleFragment 10 7 0 10]
    [1, 12, 12] [10, 0, 0, 12, 1, 0] (sampleJustification 1 12)
    rfl (by norm_num) (by decide) (by decide) (by decide) (by decide) (by decide) (by decide)
    (by decide) (fun _ => ⟨by decide, by decide, Or.inl (by decide)⟩)
    (by decide) (by decide) (by decide)⟩

/-- C11 as stated fails: on a chain at its genesis no block changes the
authority set, so every such block meets the conditions of the claim and no
size limit is reached, yet `Generate` fails, for the highest finalized
header has no stored justification; there is no output for `Verify`. -/
theorem generate_fails_without_final_justification :
    genesisProvider.grandpaState.GetAuthoritiesChangesFromBlock 1 = .ok [] ∧
    handoffFragments sampleExternals genesisProvider.blockState []
      { SetID := 0, AuthorityList := [(List.replicate 32 1, 1)] }
      = some ([], { SetID := 0, AuthorityList := [(List.replicate 32 1, 1)] }) ∧
    genesisProvider.Generate sampleExternals [1]
      = ([Query.GetHeader [1], Query.GetHighestFinalisedHeader,
          Query.GetAuthoritiesChangesFromBlock 1, Query.GetHighestFinalisedHeader,
          Query.GetJustification [1]], .error (.collaborator 7)) ∧
    ¬ ∃ out result, (genesisProvider.Generate sampleExternals [1]).2 = .ok out ∧
      genesisProvider.Verify sampleExternals out 0 [(List.replicate 32 1, 1)] = .ok result := by
  refine ⟨rfl, rfl, by decide, ?_⟩
  rintro ⟨out, result, h, _⟩
  have hg : (genesisProvider.Generate sampleExternals [1]).2 = .error (.collaborator 7) := by
    decide
  rw [hg] at h
  exact absurd h (by simp)

/-! ## The finality check of `Generate` -/

theorem addFragment_error_foreign (x : Externals) (p : WarpSyncProofProvider)
    (hf : ForeignErrors x p) (w : WarpSyncProof) (f : WarpSyncFragment) :
    w.addFragment x f ≠ .error .startBlockNotFinalized := by
  intro h
  simp only [WarpSyncProof.addFragment] at h
  cases hm : x.marshalFragment f with
  | error e =>
    simp only [hm, Except.error.injEq] at h
    exact hf.2.2.2 f (h ▸ hm)
  | ok enc =>
    simp only [hm] at h
    split at h <;> simp at h

theorem marshalFragments_error_foreign (x : Externals) (p : WarpSyncProofProvider)
    (hf : ForeignErrors x p) (l : List WarpSyncFragment) :
    marshalFragments x l ≠ .error .startBlockNotFinalized := by
  induction l with
  | nil => simp [marshalFragments]
  | cons f rest ih =>
    intro h
    simp only [marshalFragments] at h
    cases hm : x.marshalFragment f with
    | error e =>
      simp only [hm, Except.error.injEq] at h
      exact hf.2.2.2 f (h ▸ hm)
    | ok enc =>
      simp only [hm] at h
      cases hr : marshalFragments x rest with
      | error e =>
        simp only [hr, Except.error.injEq] at h
        exact ih (h ▸ hr)
      | ok encs => simp [hr] at h

theorem generateLoop_error_foreign (x : Externals) (p : WarpSyncProofProvider)
    (hf : ForeignErrors x p) :
    ∀ (changes : List Nat) (w : WarpSyncProof) (trace : List Query),
      (WarpSyncProofProvider.generateLoop x p.blockState changes w trace).2
        ≠ .error .startBlockNotFinalized := by
  intro changes
  induction changes with
  | nil =>
    intro w trace
    simp [WarpSyncProofProvider.generateLoop]
  | cons n rest ih =>
    intro w trace h
    simp only [WarpSyncProofProvider.generateLoop] at h
    cases hh : p.blockState.GetHeaderByNumber n with
    | error e =>
      simp only [hh, Except.error.injEq] at h
      exact hf.1 n (h ▸ hh)
    | ok header =>
      simp only [hh] at h
      cases hs : findScheduledChange x header with
      | error e => simp [hs] at h
      | ok o =>
        cases o with
        | none => simp [hs] at h
        | some change =>
          simp only [hs] at h
          cases hj : p.blockState.GetJustification (x.headerHash header) with
          | error e =>
            simp only [hj, Except.error.injEq] at h
            exact hf.2.1 _ (h ▸ hj)
          | ok enc =>
            simp only [hj] at h
            cases hd : x.decodeJustification enc with
            | error e =>
              simp only [hd, Except.error.injEq] at h
              exact hf.2.2.1 _ (h ▸ hd)
            | ok j =>
              simp only [hd] at h
              cases ha : w.addFragment x { Header := header, Justification := j } with
              | error e =>
                simp only [ha, Except.error.injEq] at h
                exact addFragment_error_foreign x p hf w _ (h ▸ ha)
              | ok r =>
                obtain ⟨w₁, b₁⟩ := r
                cases b₁ with
                | true => simp [ha] at h
                | false =>
                  simp only [ha] at h
                  exact ih w₁ _ h

theorem generateTerminal_error_foreign (x : Externals) (p : WarpSyncProofProvider)
    (hf : ForeignErrors x p) (w : WarpSyncProof) (trace : List Query) :
    (WarpSyncProofProvider.generateTerminal x p.blockState w trace).2
      ≠ .error .startBlockNotFinalized := by
  intro h
  simp only [WarpSyncProofProvider.generateTerminal] at h
  cases hl : p.blockState.GetHighestFinalisedHeader with
  | error e => simp [hl] at h
  | ok lastFin =>
    simp only [hl] at h
    cases hj : p.blockState.GetJustification (x.headerHash lastFin) with
    | error e =>
      simp only [hj, Except.error.injEq] at h
      exact hf.2.1 _ (h ▸ hj)
    | ok enc =>
      simp only [hj] at h
      cases hd : x.decodeJustification enc with
      | error e =>
        simp only [hd, Except.error.injEq] at h
        exact hf.2.2.1 _ (h ▸ hd)
      | ok j =>
        simp only [hd] at h
        by_cases hc : j.Commit.TargetNumber ≥ w.lastProofBlockNumber
        · simp only [hc, ↓reduceIte] at h
          cases ha : w.addFragment x { Header := lastFin, Justification := j } with
          | error e =>
            simp only [ha, Except.error.injEq] at h
            exact addFragment_error_foreign x p hf w _ (h ▸ ha)
          | ok r => simp [ha] at h
        · simp [hc] at h

/-- C21: when the block state returns the header of `start` and the highest
finalized header, `Generate(start)` fails with `errStartBlockNotFinalized`
exactly when the number of the start header is strictly greater than the
number of the highest finalized header; in that case it stops after these
two queries.  In particular a start block with the number of the highest
finalized block passes the check. -/
theorem generate_not_finalized_iff (x : Externals) (p : WarpSyncProofProvider) (start : Hash)
    (beginBlockHeader lastFinalizedBlockHeader : Header) (hforeign : ForeignErrors x p)
    (hbegin : p.blockState.GetHeader start = .ok beginBlockHeader)
    (hlast : p.blockState.GetHighestFinalisedHeader = .ok lastFinalizedBlockHeader) :
    ((p.Generate x start).2 = .error .startBlockNotFinalized ↔
      beginBlockHeader.Number > lastFinalizedBlockHeader.Number) ∧
    (beginBlockHeader.Number > lastFinalizedBlockHeader.Number →
      p.Generate x start = ([Query.GetHeader start, Query.GetHighestFinalisedHeader],
        .error .startBlockNotFinalized)) ∧
    (beginBlockHeader.Number = lastFinalizedBlockHeader.Number →
      (p.Generate x start).2 ≠ .error .startBlockNotFinalized) := by
  have hgt : beginBlockHeader.Number > lastFinalizedBlockHeader.Number →
      p.Generate x start = ([Query.GetHeader start, Query.GetHighestFinalisedHeader],
        .error .startBlockNotFinalized) := by
    intro hn
    simp [WarpSyncProofProvider.Generate, WarpSyncProofProvider.generateProof, hbegin, hlast, hn]
  have hle : ¬ beginBlockHeader.Number > lastFinalizedBlockHeader.Number →
      (p.Generate x start).2 ≠ .error .startBlockNotFinalized := by
    intro hn h
    simp only [WarpSyncProofProvider.Generate, WarpSyncProofProvider.generateProof, hbegin,
      hlast, hn, ↓reduceIte] at h
    cases hc : p.grandpaState.GetAuthoritiesChangesFromBlock beginBlockHeader.Number with
    | error e => simp [hc] at h
    | ok changes =>
      simp only [hc] at h
      cases hl : WarpSyncProofProvider.generateLoop x p.blockState changes NewWarpSyncProof
          ([Query.GetHeader start] ++ [Query.GetHighestFinalisedHeader] ++
            [Query.GetAuthoritiesChangesFromBlock beginBlockHeader.Number]) with
      | mk trace₁ r =>
        have hloop := generateLoop_error_foreign x p hforeign changes NewWarpSyncProof
          ([Query.GetHeader start] ++ [Query.GetHighestFinalisedHeader] ++
            [Query.GetAuthoritiesChangesFromBlock beginBlockHeader.Number])
        rw [hl] at hloop
        simp only [hl] at h
        cases r with
        | error e =>
          simp only [Except.error.injEq] at h
          exact hloop (by rw [h])
        | ok wb =>
          obtain ⟨w₀, b⟩ := wb
          cases b with
          | true =>
            simp only [marshalProof] at h
            cases hm : marshalFragments x w₀.Proofs with
            | error e =>
              simp only [hm, Except.error.injEq] at h
              exact marshalFragments_error_foreign x p hforeign _ (h ▸ hm)
            | ok encs => simp [hm] at h
          | false =>
            simp only at h
            have hterm := generateTerminal_error_foreign x p hforeign w₀ trace₁
            cases ht : WarpSyncProofProvider.generateTerminal x p.blockState w₀ trace₁ with
            | mk trace₂ r₂ =>
              rw [ht] at hterm
              simp only [ht] at h
              cases r₂ with
              | error e =>
                simp only [Except.error.injEq] at h
                exact hterm (by rw [h])
              | ok w₁ =>
                simp only [marshalProof] at h
                cases hm : marshalFragments x w₁.Proofs with
                | error e =>
                  simp only [hm, Except.error.injEq] at h
                  exact marshalFragments_error_foreign x p hforeign _ (h ▸ hm)
                | ok encs => simp [hm] at h
  refine ⟨⟨fun h => ?_, fun hn => by rw [hgt hn]⟩, hgt, fun heq => hle (by omega)⟩
  by_contra hn
  exact hle hn h

theorem foreignErrors_notFinalizedProvider :
    ForeignErrors sampleExternals notFinalizedProvider := by
  refine ⟨fun n => ?_, fun h => ?_, fun enc => ?_, fun f => by simp [sampleExternals]⟩
  · simp only [notFinalizedProvider, NewWarpSyncProofProvider, sampleBlockState]
    split <;> simp
  · simp only [notFinalizedProvider, NewWarpSyncProofProvider, sampleBlockState]
    split
    · simp
    · split <;> simp
  · simp only [sampleExternals]
    unfold sampleDecodeJustification
    split <;> simp

/-- An instance of C21: block 3 is asked for while block 2 is the highest finalized one. -/
theorem generate_not_finalized_iff_witness :
    notFinalizedProvider.blockState.GetHeader [3] = .ok (sampleHeader 3 0) ∧
    notFinalizedProvider.blockState.GetHighestFinalisedHeader = .ok (sampleHeader 2 0) ∧
    notFinalizedProvider.Generate sampleExternals [3]
      = ([Query.GetHeader [3], Query.GetHighestFinalisedHeader],
          .error .startBlockNotFinalized) :=
  ⟨by decide, by decide,
    (generate_not_finalized_iff sampleExternals notFinalizedProvider [3] (sampleHeader 3 0)
      (sampleHeader 2 0) foreignErrors_notFinalizedProvider (by decide) (by decide)).2.1
      (by decide)⟩

namespace Sync

/-! ## The warp sync strategy -/

theorem validateLoop_ok (x : Collaborators) (w : WarpSyncStrategy) :
    ∀ (results : List SyncTaskResult) (repChanges : List Change) (peersToBlock : List PeerID)
      (bestProof : WarpSyncProof) (bestResult : Option WarpSyncVerificationResult)
      (out : List Change × List PeerID × WarpSyncProof × Option WarpSyncVerificationResult),
      WarpSyncStrategy.validateLoop x w results (repChanges, peersToBlock, bestProof, bestResult)
        = .ok out →
      out.1 = repChanges ++ (results.filter (penalized x w)).map (penaltyOf x) ∧
      out.2.1 = peersToBlock ++ (results.filter (penalized x w)).map SyncTaskResult.who := by
  intro results
  induction results with
  | nil =>
    intro repChanges peersToBlock bestProof bestResult out h
    simp only [WarpSyncStrategy.validateLoop, Except.ok.injEq] at h
    subst h
    simp
  | cons r rest ih =>
    intro repChanges peersToBlock bestProof bestResult out h
    rw [WarpSyncStrategy.validateLoop] at h
    cases hresp : r.response with
    | none =>
      simp only [hresp] at h
      obtain ⟨h1, h2⟩ := ih _ _ _ _ out h
      have hp : penalized x w r = true := by simp [penalized, unexpectedResponse, hresp]
      simp [h1, h2, List.filter_cons, hp, penaltyOf, unexpectedResponse, hresp]
    | some resp =>
      cases resp with
      | BlockResponseMessage blockData =>
        simp only [hresp] at h
        obtain ⟨h1, h2⟩ := ih _ _ _ _ out h
        have hp : penalized x w r = true := by simp [penalized, unexpectedResponse, hresp]
        simp [h1, h2, List.filter_cons, hp, penaltyOf, unexpectedResponse, hresp]
      | WarpSyncProof response =>
        simp only [hresp] at h
        by_cases hc : r.completed = false
        · simp only [hc, ↓reduceIte] at h
          obtain ⟨h1, h2⟩ := ih _ _ _ _ out h
          have hp : penalized x w r = false := by
            simp [penalized, unexpectedResponse, failsVerification, hresp, hc]
          simp [h1, h2, List.filter_cons, hp]
        · simp only [hc, ↓reduceIte] at h
          have hc' : r.completed = true := by simpa using hc
          cases henc : marshalProof x.codec response with
          | error e => simp [henc] at h
          | ok enc =>
            simp only [henc] at h
            cases hv : w.warpSyncProvider.Verify enc w.setId w.authorities with
            | error e =>
              simp only [hv] at h
              obtain ⟨h1, h2⟩ := ih _ _ _ _ out h
              have hp : penalized x w r = true := by
                simp [penalized, unexpectedResponse, failsVerification, hresp, hc', henc, hv]
              simp [h1, h2, List.filter_cons, hp, penaltyOf, unexpectedResponse, hresp]
            | ok res =>
              simp only [hv] at h
              have hp : penalized x w r = false := by
                simp [penalized, unexpectedResponse, failsVerification, hresp, hc', henc, hv]
              by_cases hb : response.IsFinished = true ∨
                  response.Proofs.length > bestProof.Proofs.length
              · simp only [hb, ↓reduceIte] at h
                obtain ⟨h1, h2⟩ := ih _ _ _ _ out h
                simp [h1, h2, List.filter_cons, hp]
              · simp only [hb, ↓reduceIte] at h
                obtain ⟨h1, h2⟩ := ih _ _ _ _ out h
                simp [h1, h2, List.filter_cons, hp]

theorem validateLoop_total (x : Collaborators) (w : WarpSyncStrategy) :
    ∀ (results : List SyncTaskResult), Encodable x results →
      ∀ (acc : List Change × List PeerID × WarpSyncProof × Option WarpSyncVerificationResult),
        ∃ out, WarpSyncStrategy.validateLoop x w results acc = .ok out := by
  intro results
  induction results with
  | nil =>
    intro _ acc
    exact ⟨acc, by simp [WarpSyncStrategy.validateLoop]⟩
  | cons r rest ih =>
    intro henc acc
    obtain ⟨repChanges, peersToBlock, bestProof, bestResult⟩ := acc
    have hrest : Encodable x rest := fun r' hr' => henc r' (List.mem_cons_of_mem _ hr')
    rw [WarpSyncStrategy.validateLoop]
    cases hresp : r.response with
    | none => exact ih hrest _
    | some resp =>
      cases resp with
      | BlockResponseMessage blockData => exact ih hrest _
      | WarpSyncProof response =>
        simp only
        by_cases hc : r.completed = false
        · simp only [hc, ↓reduceIte]
          exact ih hrest _
        · simp only [hc, ↓reduceIte]
          have hc' : r.completed = true := by simpa using hc
          obtain ⟨enc, he⟩ := henc r (List.mem_cons_self _ _) response hresp hc'
          simp only [he]
          cases hv : w.warpSyncProvider.Verify enc w.setId w.authorities with
          | error e => exact ih hrest _
          | ok res =>
            simp only
            by_cases hb : response.IsFinished = true ∨
                response.Proofs.length > bestProof.Proofs.length
            · simp only [hb, ↓reduceIte]
              exact ih hrest _
            · simp only [hb, ↓reduceIte]
              exact ih hrest _

/-- What `validateWarpSyncResults` returns when it returns: the penalties in
the words of the specification, and a strategy in which only the counter of
fragments may have changed. -/
theorem validateWarpSyncResults_ok (x : Collaborators) (w w₁ : WarpSyncStrategy)
    (results : List SyncTaskResult) (repChanges : List Change) (peersToBlock : List PeerID)
    (selected : Option WarpSyncVerificationResult)
    (h : w.validateWarpSyncResults x results = .ok ((repChanges, peersToBlock, selected), w₁)) :
    repChanges = (results.filter (penalized x w)).map (penaltyOf x) ∧
    peersToBlock = (results.filter (penalized x w)).map SyncTaskResult.who ∧
    ∃ n, w₁ = { w with syncedFragments := n } := by
  simp only [WarpSyncStrategy.validateWarpSyncResults] at h
  cases hl : WarpSyncStrategy.validateLoop x w results
      ([], [], { Proofs := [], IsFinished := false, proofsLength := 0 }, none) with
  | error p => simp [hl] at h
  | ok out =>
    obtain ⟨h1, h2⟩ := validateLoop_ok x w results _ _ _ _ out hl
    obtain ⟨reps, bans, bp, br⟩ := out
    simp only [hl, Except.ok.injEq, Prod.mk.injEq] at h
    simp only [List.nil_append] at h1 h2
    exact ⟨h.1.1 ▸ h1, h.1.2.1 ▸ h2, _, h.2.symm⟩

theorem validateWarpSyncResults_total (x : Collaborators) (w : WarpSyncStrategy)
    (results : List SyncTaskResult) (henc : Encodable x results) :
    ∃ out, w.validateWarpSyncResults x results = .ok out := by
  obtain ⟨out, hl⟩ := validateLoop_total x w results henc
    ([], [], { Proofs := [], IsFinished := false, proofsLength := 0 }, none)
  obtain ⟨reps, bans, bp, br⟩ := out
  simp only [WarpSyncStrategy.validateWarpSyncResults, hl]
  exact ⟨_, rfl⟩

/-- `Process` returns, unless a completed proof fails to encode. -/
theorem Process_total (x : Collaborators) (w : WarpSyncStrategy)
    (results : List SyncTaskResult) (henc : Encodable x results ∨ w.phase ≠ WarpProof) :
    ∃ out w', w.Process x results = .ok (out, w') := by
  unfold WarpSyncStrategy.Process
  by_cases hp : w.phase = WarpProof
  · rcases henc with henc | hne
    · obtain ⟨out, ho⟩ := validateWarpSyncResults_total x w results henc
      obtain ⟨⟨reps, bans, sel⟩, w₁⟩ := out
      simp only [hp, ↓reduceIte, ho]
      exact ⟨_, _, rfl⟩
    · exact absurd hp hne
  · simp only [hp, ↓reduceIte]
    by_cases ht : w.phase = TargetBlock
    · simp only [ht, ↓reduceIte]
      exact ⟨_, _, rfl⟩
    · simp only [ht, ↓reduceIte]
      exact ⟨_, _, rfl⟩

/-- What `Process` does in phase `WarpProof`, in terms of what
`validateWarpSyncResults` returns. -/
theorem Process_warpProof (x : Collaborators) (w w₁ : WarpSyncStrategy)
    (results : List SyncTaskResult) (repChanges : List Change) (bans : List PeerID)
    (selected : Option WarpSyncVerificationResult) (hp : w.phase = WarpProof)
    (h : w.validateWarpSyncResults x results = .ok ((repChanges, bans, selected), w₁)) :
    w.Process x results =
      match selected with
      | some r =>
        if r.Completed = false then
          .ok ({ done := false, repChanges := repChanges, bans := bans, err := none },
            { w₁ with lastBlock := some r.Header, setId := r.SetId,
                      authorities := r.AuthorityList })
        else
          .ok ({ done := false, repChanges := repChanges, bans := bans, err := none },
            { w₁ with lastBlock := some r.Header, phase := TargetBlock })
      | none =>
        .ok ({ done := false, repChanges := repChanges, bans := bans, err := none }, w₁) := by
  obtain ⟨_, _, n, hw₁⟩ := validateWarpSyncResults_ok x w w₁ results _ _ _ h
  have hp₁ : w₁.phase = WarpProof := by rw [hw₁]; exact hp
  unfold WarpSyncStrategy.Process
  simp only [hp, ↓reduceIte, h]
  cases selected with
  | none => simp [WarpSyncStrategy.IsSynced, hp₁, WarpProof, Completed]
  | some r =>
    by_cases hc : r.Completed = false
    · simp [hc, WarpSyncStrategy.IsSynced, hp₁, WarpProof, Completed]
    · simp [hc, WarpSyncStrategy.IsSynced, TargetBlock, Completed]

/-- What every returning `Process` call does to the phase, and what it returns
as `done` and `err`. -/
theorem Process_phase (x : Collaborators) (w w' : WarpSyncStrategy)
    (results : List SyncTaskResult) (out : ProcessResult)
    (h : w.Process x results = .ok (out, w')) :
    w.phase ≤ w'.phase ∧ w'.phase ≤ w.phase + 1 ∧ out.done = w'.IsSynced ∧ out.err = none := by
  by_cases hp : w.phase = WarpProof
  · cases hv : w.validateWarpSyncResults x results with
    | error p => simp [WarpSyncStrategy.Process, hp, hv] at h
    | ok r =>
      obtain ⟨⟨reps, bans, sel⟩, w₁⟩ := r
      obtain ⟨_, _, n, hw₁⟩ := validateWarpSyncResults_ok x w w₁ results _ _ _ hv
      rw [Process_warpProof x w w₁ results reps bans sel hp hv] at h
      cases sel with
      | none =>
        simp only [Except.ok.injEq, Prod.mk.injEq] at h
        obtain ⟨rfl, rfl⟩ := h
        subst hw₁
        simp [WarpSyncStrategy.IsSynced, hp, WarpProof, Completed]
      | some r =>
        by_cases hc : r.Completed = false
        · simp only [hc, ↓reduceIte, Except.ok.injEq, Prod.mk.injEq] at h
          obtain ⟨rfl, rfl⟩ := h
          subst hw₁
          simp [WarpSyncStrategy.IsSynced, hp, WarpProof, Completed]
        · simp only [hc, ↓reduceIte, Except.ok.injEq, Prod.mk.injEq] at h
          obtain ⟨rfl, rfl⟩ := h
          subst hw₁
          simp [WarpSyncStrategy.IsSynced, hp, WarpProof, TargetBlock, Completed]
  · unfold WarpSyncStrategy.Process at h
    simp only [hp, ↓reduceIte] at h
    by_cases ht : w.phase = TargetBlock
    · simp only [ht, ↓reduceIte] at h
      cases hv : x.validateResults results w.badBlocks with
      | mk reps rest =>
        obtain ⟨bans, validRes⟩ := rest
        simp only [hv, Except.ok.injEq, Prod.mk.injEq] at h
        obtain ⟨rfl, rfl⟩ := h
        cases validRes with
        | nil => simp [ht]
        | cons first more =>
          cases hd : first.responseData with
          | nil => simp [ht, hd]
          | cons blockData others => simp [ht, hd, TargetBlock, Completed]
    · simp only [ht, ↓reduceIte, Except.ok.injEq, Prod.mk.injEq] at h
      obtain ⟨rfl, rfl⟩ := h
      simp

end Sync

namespace Sync

theorem OnBlockAnnounce_state (x : Collaborators) (w : WarpSyncStrategy) (who : PeerID)
    (msg : BlockAnnounceMessage) :
    ∃ peers, (w.OnBlockAnnounce x who msg).2 = { w with peers := peers } := by
  unfold WarpSyncStrategy.OnBlockAnnounce
  cases x.announceHash msg with
  | error e => exact ⟨w.peers, rfl⟩
  | ok hash =>
    simp only
    by_cases hb : x.hashString hash ∈ w.badBlocks
    · simp only [hb, ↓reduceIte]
      exact ⟨w.peers, rfl⟩
    · simp only [hb, ↓reduceIte]
      by_cases hbest : msg.BestBlock = true
      · simp only [hbest, ↓reduceIte]
        exact ⟨_, rfl⟩
      · simp only [hbest]
        exact ⟨w.peers, rfl⟩

theorem lastBlockHeader_startedAt (w : WarpSyncStrategy) (now : Nat) :
    WarpSyncStrategy.lastBlockHeader { w with startedAt := now }
      = ((w.lastBlockHeader).1, { (w.lastBlockHeader).2 with startedAt := now }) := by
  obtain ⟨peers, badBlocks, rm₁, rm₂, provider, blockState, startedAt, phase, fragments, setId,
    authorities, lastBlock, result⟩ := w
  cases lastBlock with
  | some header => rfl
  | none =>
    simp only [WarpSyncStrategy.lastBlockHeader]
    cases blockState.GetHighestFinalisedHeader with
    | error e => rfl
    | ok header => rfl

theorem lastBlockHeader_state (w : WarpSyncStrategy) :
    (w.lastBlockHeader).2 = w ∨
    ∃ header, w.lastBlock = none ∧ w.blockState.GetHighestFinalisedHeader = .ok header ∧
      (w.lastBlockHeader).1 = .ok header ∧
      (w.lastBlockHeader).2 = { w with lastBlock := some header } := by
  obtain ⟨peers, badBlocks, rm₁, rm₂, provider, blockState, startedAt, phase, fragments, setId,
    authorities, lastBlock, result⟩ := w
  cases lastBlock with
  | some header => exact Or.inl rfl
  | none =>
    cases hg : blockState.GetHighestFinalisedHeader with
    | error e =>
      left
      simp only [WarpSyncStrategy.lastBlockHeader, hg]
    | ok header =>
      right
      refine ⟨header, rfl, rfl, ?_, ?_⟩
      · simp only [WarpSyncStrategy.lastBlockHeader, hg]
      · simp only [WarpSyncStrategy.lastBlockHeader, hg]

theorem NextActions_state (x : Collaborators) (w : WarpSyncStrategy) (now : Nat) :
    (w.NextActions x now).2 = { (w.lastBlockHeader).2 with startedAt := now } := by
  unfold WarpSyncStrategy.NextActions
  rw [lastBlockHeader_startedAt]
  cases (w.lastBlockHeader).1 with
  | error e => rfl
  | ok header => rfl

theorem NextActions_phase (x : Collaborators) (w : WarpSyncStrategy) (now : Nat) :
    (w.NextActions x now).2.phase = w.phase := by
  rw [NextActions_state]
  rcases lastBlockHeader_state w with h | ⟨header, _, _, _, h⟩
  · rw [h]
  · rw [h]

theorem step_phase (x : Collaborators) (w w' : WarpSyncStrategy) (c : StrategyCall)
    (h : c.step x w = .ok w') : w.phase ≤ w'.phase := by
  cases c with
  | OnBlockAnnounce who msg =>
    simp only [StrategyCall.step, Except.ok.injEq] at h
    obtain ⟨peers, hp⟩ := OnBlockAnnounce_state x w who msg
    rw [← h, hp]
  | OnBlockAnnounceHandshake who msg =>
    simp only [StrategyCall.step, Except.ok.injEq] at h
    rw [← h]
    exact Nat.le_refl _
  | NextActions now =>
    simp only [StrategyCall.step, Except.ok.injEq] at h
    rw [← h, NextActions_phase]
  | Process results =>
    simp only [StrategyCall.step] at h
    cases hp : w.Process x results with
    | error p => simp [hp] at h
    | ok r =>
      obtain ⟨out, w₂⟩ := r
      simp only [hp, Except.ok.injEq] at h
      subst h
      exact (Process_phase x w w₂ results out hp).1

theorem runCalls_phase (x : Collaborators) :
    ∀ (calls : List StrategyCall) (w w' : WarpSyncStrategy),
      runCalls x w calls = .ok w' → w.phase ≤ w'.phase := by
  intro calls
  induction calls with
  | nil =>
    intro w w' h
    simp only [runCalls, Except.ok.injEq] at h
    rw [h]
  | cons c rest ih =>
    intro w w' h
    simp only [runCalls] at h
    cases hs : c.step x w with
    | error p => simp [hs] at h
    | ok w₁ =>
      simp only [hs] at h
      exact Nat.le_trans (step_phase x w w₁ c hs) (ih w₁ w' h)

/-- C22: the phase of the warp strategy never decreases.  In the order
`WarpProof < TargetBlock < Completed` the phase after a `Process` call is at
least the phase before and at most one step further (and `Process` returns
whenever the completed proofs of the results encode); `OnBlockAnnounce`,
`OnBlockAnnounceHandshake` and `NextActions` leave the phase as it is; hence
no sequence of calls lowers it. -/
theorem phase_never_decreases (x : Collaborators) (w : WarpSyncStrategy)
    (results : List SyncTaskResult) (who : PeerID) (msg : BlockAnnounceMessage)
    (handshake : BlockAnnounceHandshake) (now : Nat) (calls : List StrategyCall) :
    (WarpProof < TargetBlock ∧ TargetBlock < Completed) ∧
    (∀ out w', w.Process x results = .ok (out, w') →
      w.phase ≤ w'.phase ∧ w'.phase ≤ w.phase + 1) ∧
    (Encodable x results → ∃ out w', w.Process x results = .ok (out, w')) ∧
    (w.OnBlockAnnounce x who msg).2.phase = w.phase ∧
    (w.OnBlockAnnounceHandshake who handshake).2.phase = w.phase ∧
    (w.NextActions x now).2.phase = w.phase ∧
    (∀ w', runCalls x w calls = .ok w' → w.phase ≤ w'.phase) := by
  refine ⟨⟨by decide, by decide⟩, fun out w' h => ?_, fun henc => ?_, ?_, rfl,
    NextActions_phase x w now, fun w' h => runCalls_phase x calls w w' h⟩
  · exact ⟨(Process_phase x w w' results out h).1, (Process_phase x w w' results out h).2.1⟩
  · exact Process_total x w results (Or.inl henc)
  · obtain ⟨peers, hp⟩ := OnBlockAnnounce_state x w who msg
    rw [hp]

/-- C23: `IsSynced()` is true exactly in phase `Completed`; every returning
`Process` call returns as `done` the value of `IsSynced()` on the strategy it
leaves, and a nil error; and `Process` returns, unless it is in phase
`WarpProof` and a completed proof of the results fails to encode. -/
theorem process_done_is_synced (x : Collaborators) (w : WarpSyncStrategy)
    (results : List SyncTaskResult) :
    (w.IsSynced = true ↔ w.phase = Completed) ∧
    (∀ out w', w.Process x results = .ok (out, w') →
      out.done = w'.IsSynced ∧ out.err = none) ∧
    (Encodable x results ∨ w.phase ≠ WarpProof →
      ∃ out w', w.Process x results = .ok (out, w')) := by
  refine ⟨by simp [WarpSyncStrategy.IsSynced], fun out w' h => ?_,
    fun henc => Process_total x w results henc⟩
  exact ⟨(Process_phase x w w' results out h).2.2.1, (Process_phase x w w' results out h).2.2.2⟩

/-- C24: for an announce whose hash is in the list of bad blocks,
`OnBlockAnnounce` returns the `BadBlockAnnouncement` reputation change for
the sender together with `errBadBlockReceived`, and leaves the strategy, the
peer views included, as it is, whatever `BestBlock` is. -/
theorem bad_block_announce (x : Collaborators) (w : WarpSyncStrategy) (who : PeerID)
    (msg : BlockAnnounceMessage) (blockAnnounceHeaderHash : Hash)
    (hhash : x.announceHash msg = .ok blockAnnounceHeaderHash)
    (hbad : x.hashString blockAnnounceHeaderHash ∈ w.badBlocks) :
    w.OnBlockAnnounce x who msg
      = ((some { who := who, rep := x.BadBlockAnnouncement }, some .errBadBlockReceived), w) ∧
    (w.OnBlockAnnounce x who msg).2.peers = w.peers := by
  simp [WarpSyncStrategy.OnBlockAnnounce, hhash, hbad]

/-- An instance of C24: the announce of the bad block "B" with `BestBlock` set. -/
theorem bad_block_announce_witness :
    sampleCollaborators.hashString [66] ∈ sampleStrategy.badBlocks ∧
    (sampleAnnounce 66 true).BestBlock = true ∧
    sampleStrategy.OnBlockAnnounce sampleCollaborators [1] (sampleAnnounce 66 true)
      = ((some { who := [1], rep := sampleCollaborators.BadBlockAnnouncement },
          some .errBadBlockReceived), sampleStrategy) ∧
    (sampleStrategy.OnBlockAnnounce sampleCollaborators [1] (sampleAnnounce 66 true)).2.peers
      = NewPeerViewSet :=
  ⟨by decide, rfl,
    bad_block_announce sampleCollaborators sampleStrategy [1] (sampleAnnounce 66 true) [66]
      rfl (by decide)⟩

/-- What `OnBlockAnnounce` does with an announce that is not of a bad block:
`GossipSuccess`, no error, and with `BestBlock` the view of the sender
becomes the announced hash with the announced number modulo `2 ^ 32`. -/
theorem OnBlockAnnounce_not_bad (x : Collaborators) (w : WarpSyncStrategy) (who : PeerID)
    (msg : BlockAnnounceMessage) (blockAnnounceHeaderHash : Hash)
    (hhash : x.announceHash msg = .ok blockAnnounceHeaderHash)
    (hbad : x.hashString blockAnnounceHeaderHash ∉ w.badBlocks) :
    (w.OnBlockAnnounce x who msg).1 = (some { who := who, rep := x.GossipSuccess }, none) ∧
    (msg.BestBlock = true → (w.OnBlockAnnounce x who msg).2
      = { w with peers := w.peers.update who blockAnnounceHeaderHash (msg.Number % 2 ^ 32) }) ∧
    (msg.BestBlock = false → (w.OnBlockAnnounce x who msg).2 = w) := by
  refine ⟨by simp [WarpSyncStrategy.OnBlockAnnounce, hhash, hbad], fun hb => ?_, fun hb => ?_⟩
  · simp [WarpSyncStrategy.OnBlockAnnounce, hhash, hbad, hb]
  · simp [WarpSyncStrategy.OnBlockAnnounce, hhash, hbad, hb]

/-- C25, at the failing input: the announce of the block number
`2 ^ 32 + 1024`, not a bad block, with `BestBlock` set, sent to a fresh
strategy.  `GossipSuccess` is returned without an error and the view of the
sender is updated, but the recorded best number, and the target of the peer
views, is 1024 and not the announced number. -/
theorem announce_number_truncated :
    sampleCollaborators.hashString [2 ^ 32 + 1024] ∉ sampleStrategy.badBlocks ∧
    (sampleStrategy.OnBlockAnnounce sampleCollaborators [1]
      (sampleAnnounce (2 ^ 32 + 1024) true)).1
      = (some { who := [1], rep := sampleCollaborators.GossipSuccess }, none) ∧
    (sampleStrategy.OnBlockAnnounce sampleCollaborators [1]
      (sampleAnnounce (2 ^ 32 + 1024) true)).2.peers.view
      = [([1], { bestBlockHash := [2 ^ 32 + 1024], bestBlockNumber := 1024 })] ∧
    (sampleStrategy.OnBlockAnnounce sampleCollaborators [1]
      (sampleAnnounce (2 ^ 32 + 1024) true)).2.peers.getTarget = 1024 ∧
    (sampleAnnounce (2 ^ 32 + 1024) true).Number = 4294968320 := by
  refine ⟨by decide, by decide, by decide, by decide, by decide⟩

end Sync

namespace Sync

theorem LastBlockInv_step (x : Collaborators) (blockState : BlockState)
    (w w' : WarpSyncStrategy) (c : StrategyCall) (hinv : LastBlockInv blockState w)
    (hstep : c.step x w = .ok w') (hno : c.processesProof x w = false) :
    LastBlockInv blockState w' := by
  obtain ⟨hbs, hlb⟩ := hinv
  cases c with
  | OnBlockAnnounce who msg =>
    simp only [StrategyCall.step, Except.ok.injEq] at hstep
    obtain ⟨peers, hp⟩ := OnBlockAnnounce_state x w who msg
    rw [← hstep, hp]
    exact ⟨hbs, hlb⟩
  | OnBlockAnnounceHandshake who msg =>
    simp only [StrategyCall.step, Except.ok.injEq] at hstep
    rw [← hstep]
    exact ⟨hbs, hlb⟩
  | NextActions now =>
    simp only [StrategyCall.step, Except.ok.injEq] at hstep
    rw [← hstep, NextActions_state]
    rcases lastBlockHeader_state w with h | ⟨header, _, hg, _, h⟩
    · rw [h]
      exact ⟨hbs, hlb⟩
    · rw [h]
      exact ⟨hbs, Or.inr ⟨header, hbs ▸ hg, rfl⟩⟩
  | Process results =>
    simp only [StrategyCall.step] at hstep
    cases hp : w.Process x results with
    | error p => simp [hp] at hstep
    | ok r =>
      obtain ⟨out, w₂⟩ := r
      simp only [hp, Except.ok.injEq] at hstep
      subst hstep
      by_cases hph : w.phase = WarpProof
      · cases hv : w.validateWarpSyncResults x results with
        | error p => simp [WarpSyncStrategy.Process, hph, hv] at hp
        | ok r =>
          obtain ⟨⟨reps, bans, sel⟩, w₁⟩ := r
          obtain ⟨_, _, n, hw₁⟩ := validateWarpSyncResults_ok x w w₁ results _ _ _ hv
          cases sel with
          | some res => simp [StrategyCall.processesProof, hph, hv] at hno
          | none =>
            rw [Process_warpProof x w w₁ results reps bans none hph hv] at hp
            simp only [Except.ok.injEq, Prod.mk.injEq] at hp
            rw [← hp.2, hw₁]
            exact ⟨hbs, hlb⟩
      · unfold WarpSyncStrategy.Process at hp
        simp only [hph, ↓reduceIte] at hp
        by_cases ht : w.phase = TargetBlock
        · simp only [ht, ↓reduceIte] at hp
          cases hv : x.validateResults results w.badBlocks with
          | mk reps rest =>
            obtain ⟨bans, validRes⟩ := rest
            simp only [hv, Except.ok.injEq, Prod.mk.injEq] at hp
            rw [← hp.2]
            cases validRes with
            | nil => exact ⟨hbs, hlb⟩
            | cons first more =>
              cases hd : first.responseData with
              | nil =>
                simp only [hd]
                exact ⟨hbs, hlb⟩
              | cons blockData others =>
                simp only [hd]
                exact ⟨hbs, hlb⟩
        · simp only [ht, ↓reduceIte, Except.ok.injEq, Prod.mk.injEq] at hp
          rw [← hp.2]
          exact ⟨hbs, hlb⟩

theorem LastBlockInv_run (x : Collaborators) (blockState : BlockState) :
    ∀ (calls : List StrategyCall) (w w' : WarpSyncStrategy),
      LastBlockInv blockState w → runCalls x w calls = .ok w' →
      proofsProcessed x w calls = 0 → LastBlockInv blockState w' := by
  intro calls
  induction calls with
  | nil =>
    intro w w' hinv h _
    simp only [runCalls, Except.ok.injEq] at h
    rw [← h]
    exact hinv
  | cons c rest ih =>
    intro w w' hinv h hz
    simp only [runCalls] at h
    simp only [proofsProcessed] at hz
    cases hs : c.step x w with
    | error p => simp [hs] at h
    | ok w₁ =>
      simp only [hs] at h hz
      have hno : c.processesProof x w = false := by
        cases hc : c.processesProof x w with
        | false => rfl
        | true => simp [hc] at hz
      have hrest : proofsProcessed x w₁ rest = 0 := by omega
      exact ih w₁ w' (LastBlockInv_step x blockState w w₁ c hinv hs hno) h hrest

theorem LastBlockInv_lastBlockHeader (blockState : BlockState) (w : WarpSyncStrategy)
    (hinv : LastBlockInv blockState w) :
    (w.lastBlockHeader).1 = blockState.GetHighestFinalisedHeader := by
  obtain ⟨hbs, hlb⟩ := hinv
  obtain ⟨peers, badBlocks, rm₁, rm₂, provider, bs, startedAt, phase, fragments, setId,
    authorities, lastBlock, result⟩ := w
  simp only at hbs hlb
  subst hbs
  rcases hlb with h | ⟨header, hg, h⟩
  · subst h
    simp only [WarpSyncStrategy.lastBlockHeader]
    cases bs.GetHighestFinalisedHeader with
    | error e => rfl
    | ok header => rfl
  · subst h
    simp only [WarpSyncStrategy.lastBlockHeader, hg]

/-- C26: when the last block header is available, `NextActions` returns
exactly one task.  In phase `WarpProof` it is a warp-proof request anchored
at the hash of the last block, with a `WarpSyncProof` response slot and the
warp request maker; in phase `TargetBlock` a block request starting at the
hash of the last block, for one block, ascending, asking for header, body
and justification, with a `BlockResponseMessage` slot and the sync request
maker.  The last block is kept by the strategy; when none was kept it is the
highest finalized header, and it is still that header in every strategy
reached from a new one by calls that processed no proof. -/
theorem nextActions_one_task (x : Collaborators) (w : WarpSyncStrategy) (now : Nat)
    (lastBlock : Header) (h : (w.lastBlockHeader).1 = .ok lastBlock) :
    (∃ task, (w.NextActions x now).1 = .ok [task]) ∧
    (w.phase = WarpProof → (w.NextActions x now).1 = .ok [SyncTask.mk
      (some (.WarpProofRequest (x.codec.headerHash lastBlock)))
      (some (.WarpSyncProof (WarpSyncProof.mk [] false 0))) w.warpSyncReqMaker]) ∧
    (w.phase = TargetBlock → (w.NextActions x now).1 = .ok [SyncTask.mk
      (some (.BlockRequestMessage (.hash (x.codec.headerHash lastBlock)) 1
        (x.RequestedDataHeader + x.RequestedDataBody + x.RequestedDataJustification)
        .Ascending))
      (some (.BlockResponseMessage [])) w.syncReqMaker]) ∧
    (w.NextActions x now).2.lastBlock = some lastBlock ∧
    (w.lastBlock = none → w.blockState.GetHighestFinalisedHeader = .ok lastBlock) ∧
    (∀ cfg w₀ calls, NewWarpSyncStrategy cfg = .ok w₀ → runCalls x w₀ calls = .ok w →
      proofsProcessed x w₀ calls = 0 →
      cfg.BlockState.GetHighestFinalisedHeader = .ok lastBlock) := by
  have hstate := NextActions_state x w now
  have hfirst : (w.NextActions x now).1 = .ok [
      if w.phase = WarpProof then SyncTask.mk
        (some (.WarpProofRequest (x.codec.headerHash lastBlock)))
        (some (.WarpSyncProof (WarpSyncProof.mk [] false 0))) w.warpSyncReqMaker
      else if w.phase = TargetBlock then SyncTask.mk
        (some (.BlockRequestMessage (.hash (x.codec.headerHash lastBlock)) 1
          (x.RequestedDataHeader + x.RequestedDataBody + x.RequestedDataJustification)
          .Ascending))
        (some (.BlockResponseMessage [])) w.syncReqMaker
      else SyncTask.mk none none none] := by
    unfold WarpSyncStrategy.NextActions
    rw [lastBlockHeader_startedAt, h]
    simp only
    rcases lastBlockHeader_state w with hs | ⟨header, _, _, _, hs⟩
    · rw [hs]
    · rw [hs]
  have hkept : (w.lastBlockHeader).2.lastBlock = some lastBlock := by
    obtain ⟨peers, badBlocks, rm₁, rm₂, provider, bs, startedAt, phase, fragments, setId,
      authorities, lb, result⟩ := w
    cases lb with
    | some header =>
      simp only [WarpSyncStrategy.lastBlockHeader, Except.ok.injEq] at h ⊢
      rw [h]
    | none =>
      simp only [WarpSyncStrategy.lastBlockHeader] at h ⊢
      cases hg : bs.GetHighestFinalisedHeader with
      | error e => simp [hg] at h
      | ok header =>
        simp only [hg, Except.ok.injEq] at h ⊢
        rw [h]
  refine ⟨⟨_, hfirst⟩, fun hp => ?_, fun hp => ?_, ?_, fun hnone => ?_,
    fun cfg w₀ calls hnew hrun hzero => ?_⟩
  · rw [hfirst, if_pos hp]
  · have hne : ¬ w.phase = WarpProof := by rw [hp]; decide
    rw [hfirst, if_neg hne, if_pos hp]
  · rw [hstate]
    exact hkept
  · rcases lastBlockHeader_state w with hs | ⟨header, _, hg, h1, _⟩
    · rw [hs, hnone] at hkept
      exact absurd hkept (by simp)
    · rw [h1] at h
      rw [hg, h]
  · have hinv₀ : LastBlockInv cfg.BlockState w₀ := by
      unfold NewWarpSyncStrategy at hnew
      cases hc : cfg.WarpSyncProvider.CurrentAuthorities with
      | error e => simp [hc] at hnew
      | ok authorities =>
        simp only [hc, Except.ok.injEq] at hnew
        rw [← hnew]
        exact ⟨rfl, Or.inl rfl⟩
    have hinv := LastBlockInv_run x cfg.BlockState calls w₀ w hinv₀ hrun hzero
    rw [← LastBlockInv_lastBlockHeader cfg.BlockState w hinv]
    exact h

/-- An instance of C26: the new toy strategy after an announce, a handshake,
a first `NextActions` and a `Process` of no result asks for the warp proof
from block 1, the highest finalized block. -/
theorem nextActions_one_task_witness :
    runCalls sampleCollaborators sampleStrategy
      [.OnBlockAnnounce [1] (sampleAnnounce 5 true), .NextActions 3, .Process []]
      = .ok { sampleStrategy with
          peers := NewPeerViewSet.update [1] [5] 5
          startedAt := 3
          lastBlock := some (sampleHeader 1 0) } ∧
    (WarpSyncStrategy.NextActions sampleCollaborators
      { sampleStrategy with
          peers := NewPeerViewSet.update [1] [5] 5
          startedAt := 3
          lastBlock := some (sampleHeader 1 0) } 4).1
      = .ok [SyncTask.mk (some (.WarpProofRequest [1]))
          (some (.WarpSyncProof (WarpSyncProof.mk [] false 0))) (some 1)] ∧
    sampleConfig.BlockState.GetHighestFinalisedHeader = .ok (sampleHeader 1 0) :=
  have hw := nextActions_one_task sampleCollaborators
    { sampleStrategy with
        peers := NewPeerViewSet.update [1] [5] 5
        startedAt := 3
        lastBlock := some (sampleHeader 1 0) } 4 (sampleHeader 1 0) rfl
  ⟨rfl, hw.2.1 rfl, hw.2.2.2.2.2 sampleConfig sampleStrategy
    [.OnBlockAnnounce [1] (sampleAnnounce 5 true), .NextActions 3, .Process []] rfl rfl
    (by decide)⟩

end Sync

namespace Sync

theorem validateLoop_selected_some (x : Collaborators) (w : WarpSyncStrategy) :
    ∀ (results : List SyncTaskResult) (repChanges : List Change) (peersToBlock : List PeerID)
      (bestProof : WarpSyncProof) (bestResult : Option WarpSyncVerificationResult)
      (out : List Change × List PeerID × WarpSyncProof × Option WarpSyncVerificationResult),
      WarpSyncStrategy.validateLoop x w results (repChanges, peersToBlock, bestProof, bestResult)
        = .ok out →
      (out.2.2.2 = none ↔ bestResult = none ∧ ∀ r ∈ results, ∀ proof res,
        candidate x w r = some (proof, res) →
          proof.IsFinished = false ∧ proof.Proofs.length ≤ bestProof.Proofs.length) := by
  intro results
  induction results with
  | nil =>
    intro repChanges peersToBlock bestProof bestResult out h
    simp only [WarpSyncStrategy.validateLoop, Except.ok.injEq] at h
    subst h
    simp
  | cons r rest ih =>
    intro repChanges peersToBlock bestProof bestResult out h
    rw [WarpSyncStrategy.validateLoop] at h
    cases hresp : r.response with
    | none =>
      simp only [hresp] at h
      rw [ih _ _ _ _ out h]
      simp [candidate, hresp]
    | some resp =>
      cases resp with
      | BlockResponseMessage blockData =>
        simp only [hresp] at h
        rw [ih _ _ _ _ out h]
        simp [candidate, hresp]
      | WarpSyncProof response =>
        simp only [hresp] at h
        by_cases hc : r.completed = false
        · simp only [hc, ↓reduceIte] at h
          rw [ih _ _ _ _ out h]
          simp [candidate, hresp, hc]
        · simp only [hc, ↓reduceIte] at h
          have hc' : r.completed = true := by simpa using hc
          cases henc : marshalProof x.codec response with
          | error e => simp [henc] at h
          | ok enc =>
            simp only [henc] at h
            cases hv : w.warpSyncProvider.Verify enc w.setId w.authorities with
            | error e =>
              simp only [hv] at h
              rw [ih _ _ _ _ out h]
              simp [candidate, hresp, hc', henc, hv]
            | ok res =>
              simp only [hv] at h
              have hcand : candidate x w r = some (response, res) := by
                simp [candidate, hresp, hc', henc, hv]
              by_cases hb : response.IsFinished = true ∨
                  response.Proofs.length > bestProof.Proofs.length
              · simp only [hb, ↓reduceIte] at h
                have hsome := ih _ _ _ _ out h
                constructor
                · intro hnone
                  have := hsome.1 hnone
                  simp at this
                · rintro ⟨_, hall⟩
                  have := hall r (List.mem_cons_self _ _) response res hcand
                  rcases hb with hb | hb
                  · rw [hb] at this
                    simp at this
                  · omega
              · simp only [hb, ↓reduceIte] at h
                rw [ih _ _ _ _ out h]
                have hb' : response.IsFinished = false ∧
                    response.Proofs.length ≤ bestProof.Proofs.length := by
                  constructor
                  · cases hf : response.IsFinished with
                    | false => rfl
                    | true => exact absurd (Or.inl hf) hb
                  · by_contra hlt
                    exact hb (Or.inr (by omega))
                constructor
                · rintro ⟨hn, hall⟩
                  refine ⟨hn, fun r' hr' proof res' hcr => ?_⟩
                  rcases List.mem_cons.1 hr' with heq | hmem
                  · subst heq
                    rw [hcand] at hcr
                    simp only [Option.some.injEq, Prod.mk.injEq] at hcr
                    rw [← hcr.1]
                    exact hb'
                  · exact hall r' hmem proof res' hcr
                · rintro ⟨hn, hall⟩
                  exact ⟨hn, fun r' hr' => hall r' (List.mem_cons_of_mem _ hr')⟩

/-- The second half of C27: when `validateWarpSyncResults` returns, the
selected verification result is nil exactly when no candidate has
`IsFinished = true` or a non-empty list of fragments. -/
theorem selected_none_iff (x : Collaborators) (w w₁ : WarpSyncStrategy)
    (results : List SyncTaskResult) (repChanges : List Change) (peersToBlock : List PeerID)
    (selected : Option WarpSyncVerificationResult)
    (h : w.validateWarpSyncResults x results = .ok ((repChanges, peersToBlock, selected), w₁)) :
    selected = none ↔ ∀ r ∈ results, ∀ proof res, candidate x w r = some (proof, res) →
      proof.IsFinished = false ∧ proof.Proofs = [] := by
  simp only [WarpSyncStrategy.validateWarpSyncResults] at h
  cases hl : WarpSyncStrategy.validateLoop x w results
      ([], [], { Proofs := [], IsFinished := false, proofsLength := 0 }, none) with
  | error p => simp [hl] at h
  | ok out =>
    have hiff := validateLoop_selected_some x w results _ _ _ _ out hl
    obtain ⟨reps, bans, bp, br⟩ := out
    simp only [hl, Except.ok.injEq, Prod.mk.injEq] at h
    obtain ⟨⟨_, _, hsel⟩, _⟩ := h
    subst hsel
    simp only [List.length_nil, Nat.le_zero_eq, List.length_eq_zero, true_and] at hiff
    exact hiff

/-- C27, at the failing input: three completed proofs that the provider
verifies, in this order: 3 fragments and not finished, 1 fragment and
finished, 2 fragments and not finished.  The verification result selected by
`validateWarpSyncResults` is the one of the third proof, which is not
finished and has fewer fragments than the first. -/
theorem unfinished_shorter_proof_selected :
    (sampleStrategy.validateWarpSyncResults sampleCollaborators
      [sampleProofResult 1 3 false, sampleProofResult 2 1 true,
        sampleProofResult 3 2 false]).map Prod.fst
      = .ok ([], [], some (WarpSyncVerificationResult.mk 1 [] (sampleHeader 8 0) false)) ∧
    candidate sampleCollaborators sampleStrategy (sampleProofResult 1 3 false)
      = some (sampleProofOf 3 false,
          WarpSyncVerificationResult.mk 1 [] (sampleHeader 11 0) false) ∧
    candidate sampleCollaborators sampleStrategy (sampleProofResult 2 1 true)
      = some (sampleProofOf 1 true,
          WarpSyncVerificationResult.mk 1 [] (sampleHeader 5 0) true) ∧
    candidate sampleCollaborators sampleStrategy (sampleProofResult 3 2 false)
      = some (sampleProofOf 2 false,
          WarpSyncVerificationResult.mk 1 [] (sampleHeader 8 0) false) ∧
    (sampleProofOf 2 false).IsFinished = false ∧
    (sampleProofOf 2 false).Proofs.length < (sampleProofOf 3 false).Proofs.length := by
  refine ⟨by decide, by decide, by decide, by decide, by decide, by decide⟩

/-- C28: in phase `WarpProof`, with what `validateWarpSyncResults` returns:
when a verification result `r` is selected, `Process` sets the last block to
`r.Header`; if `r.Completed` the phase becomes `TargetBlock` and the set id
and the authorities stay, otherwise the phase stays `WarpProof` and the set
id and the authorities become those of `r`.  When none is selected the
phase, the set id, the authorities and the last block stay. -/
theorem process_applies_selected (x : Collaborators) (w w₁ : WarpSyncStrategy)
    (results : List SyncTaskResult) (repChanges : List Change) (bans : List PeerID)
    (selected : Option WarpSyncVerificationResult) (hp : w.phase = WarpProof)
    (hv : w.validateWarpSyncResults x results = .ok ((repChanges, bans, selected), w₁)) :
    ∃ out w', w.Process x results = .ok (out, w') ∧
      (∀ r, selected = some r →
        w'.lastBlock = some r.Header ∧
        (r.Completed = true →
          w'.phase = TargetBlock ∧ w'.setId = w.setId ∧ w'.authorities = w.authorities) ∧
        (r.Completed = false →
          w'.phase = WarpProof ∧ w'.setId = r.SetId ∧ w'.authorities = r.AuthorityList)) ∧
      (selected = none →
        w'.phase = w.phase ∧ w'.setId = w.setId ∧ w'.authorities = w.authorities ∧
        w'.lastBlock = w.lastBlock) := by
  obtain ⟨_, _, n, hw₁⟩ := validateWarpSyncResults_ok x w w₁ results _ _ _ hv
  have hproc := Process_warpProof x w w₁ results repChanges bans selected hp hv
  subst hw₁
  cases selected with
  | none =>
    exact ⟨_, _, hproc, fun r hr => by simp at hr, fun _ => ⟨rfl, rfl, rfl, rfl⟩⟩
  | some r =>
    by_cases hc : r.Completed = false
    · simp only [hc, ↓reduceIte] at hproc
      refine ⟨_, _, hproc, fun r' hr' => ?_, fun hn => by simp at hn⟩
      simp only [Option.some.injEq] at hr'
      subst hr'
      exact ⟨rfl, fun ht => by rw [hc] at ht; simp at ht, fun _ => ⟨hp, rfl, rfl⟩⟩
    · simp only [hc, ↓reduceIte] at hproc
      refine ⟨_, _, hproc, fun r' hr' => ?_, fun hn => by simp at hn⟩
      simp only [Option.some.injEq] at hr'
      subst hr'
      exact ⟨rfl, fun _ => ⟨rfl, rfl, rfl⟩, fun hf => absurd hf hc⟩

/-- An instance of C28: a proof of two fragments that is not finished is
selected; the strategy stays in `WarpProof` with the set id of the result. -/
theorem process_applies_selected_witness :
    sampleStrategy.phase = WarpProof ∧
    ∃ out w', sampleStrategy.Process sampleCollaborators [sampleProofResult 3 2 false]
        = .ok (out, w') ∧
      (∀ r, some (WarpSyncVerificationResult.mk 1 [] (sampleHeader 8 0) false) = some r →
        w'.lastBlock = some r.Header ∧
        (r.Completed = true →
          w'.phase = TargetBlock ∧ w'.setId = sampleStrategy.setId ∧
          w'.authorities = sampleStrategy.authorities) ∧
        (r.Completed = false →
          w'.phase = WarpProof ∧ w'.setId = r.SetId ∧ w'.authorities = r.AuthorityList)) ∧
      (some (WarpSyncVerificationResult.mk 1 [] (sampleHeader 8 0) false) = none →
        w'.phase = sampleStrategy.phase ∧ w'.setId = sampleStrategy.setId ∧
        w'.authorities = sampleStrategy.authorities ∧
        w'.lastBlock = sampleStrategy.lastBlock) :=
  ⟨rfl, process_applies_selected sampleCollaborators sampleStrategy
    { sampleStrategy with syncedFragments := 2 } [sampleProofResult 3 2 false] [] []
    (some (WarpSyncVerificationResult.mk 1 [] (sampleHeader 8 0) false)) rfl rfl⟩

/-- C29: in phase `WarpProof`, `Process` returns when the completed proofs
of the results encode, and whenever it returns, its ban list is, in the
order of the results, the senders of the results whose response is not a
`WarpSyncProof` or whose completed proof fails the verification of the
provider, and its list of reputation changes has, at the same positions,
`UnexpectedResponse` respectively `BadWarpProof` for these senders, so the
two lists have the same length.  A result with a `WarpSyncProof` that is not
completed or that the provider verifies is not among them. -/
theorem bans_are_penalized_peers (x : Collaborators) (w : WarpSyncStrategy)
    (results : List SyncTaskResult) (hp : w.phase = WarpProof) :
    (Encodable x results → ∃ out w', w.Process x results = .ok (out, w')) ∧
    (∀ out w', w.Process x results = .ok (out, w') →
      out.bans = (results.filter (penalized x w)).map SyncTaskResult.who ∧
      out.repChanges = (results.filter (penalized x w)).map (penaltyOf x) ∧
      out.repChanges.map Change.who = out.bans ∧
      out.repChanges.length = out.bans.length) ∧
    (∀ r, unexpectedResponse r = true → penalized x w r = true ∧
      penaltyOf x r = { who := r.who, rep := x.UnexpectedResponse }) ∧
    (∀ r, unexpectedResponse r = false → failsVerification x w r = true →
      penalized x w r = true ∧ penaltyOf x r = { who := r.who, rep := x.BadWarpProof }) ∧
    (∀ r proof, r.response = some (.WarpSyncProof proof) →
      (r.completed = false ∨ ∃ enc res, marshalProof x.codec proof = .ok enc ∧
        w.warpSyncProvider.Verify enc w.setId w.authorities = .ok res) →
      penalized x w r = false) := by
  refine ⟨fun henc => Process_total x w results (Or.inl henc), fun out w' ho => ?_,
    fun r hr => ?_, fun r hr hf => ?_, fun r proof hresp hgood => ?_⟩
  · cases hv : w.validateWarpSyncResults x results with
    | error p => simp [WarpSyncStrategy.Process, hp, hv] at ho
    | ok res =>
      obtain ⟨⟨reps, bans, sel⟩, w₁⟩ := res
      obtain ⟨h1, h2, _⟩ := validateWarpSyncResults_ok x w w₁ results _ _ _ hv
      rw [Process_warpProof x w w₁ results reps bans sel hp hv] at ho
      have hout : out.bans = bans ∧ out.repChanges = reps := by
        cases sel with
        | none =>
          simp only [Except.ok.injEq, Prod.mk.injEq] at ho
          rw [← ho.1]
          exact ⟨rfl, rfl⟩
        | some r =>
          by_cases hc : r.Completed = false
          · dsimp only at ho
            rw [if_pos hc] at ho
            simp only [Except.ok.injEq, Prod.mk.injEq] at ho
            rw [← ho.1]
            exact ⟨rfl, rfl⟩
          · dsimp only at ho
            rw [if_neg hc] at ho
            simp only [Except.ok.injEq, Prod.mk.injEq] at ho
            rw [← ho.1]
            exact ⟨rfl, rfl⟩
      obtain ⟨hb, hr⟩ := hout
      refine ⟨hb.trans h2, hr.trans h1, ?_, ?_⟩
      · rw [hr, hb, h1, h2, List.map_map]
        rfl
      · rw [hr, hb, h1, h2, List.length_map, List.length_map]
  · simp [penalized, penaltyOf, hr]
  · simp [penalized, penaltyOf, hr, hf]
  · rcases hgood with hc | ⟨enc, res, he, hver⟩
    · simp [penalized, unexpectedResponse, failsVerification, hresp, hc]
    · simp [penalized, unexpectedResponse, failsVerification, hresp, he, hver]

theorem marshalFragments_sample (l : List WarpSyncFragment) :
    ∃ encs, marshalFragments sampleExternals l = .ok encs := by
  induction l with
  | nil => exact ⟨[], rfl⟩
  | cons f rest ih =>
    obtain ⟨encs, he⟩ := ih
    refine ⟨[f.Header.Number, f.Justification.Round, 0] ++ encs, ?_⟩
    have hf : sampleExternals.marshalFragment f
        = .ok [f.Header.Number, f.Justification.Round, 0] := rfl
    simp only [marshalFragments, hf, he]

theorem encodable_sample (results : List SyncTaskResult) :
    Encodable sampleCollaborators results := by
  intro r _ proof _ _
  obtain ⟨encs, he⟩ := marshalFragments_sample proof.Proofs
  refine ⟨sampleExternals.compact proof.Proofs.length ++ encs ++
    [if proof.IsFinished then 1 else 0], ?_⟩
  show marshalProof sampleExternals proof = _
  simp only [marshalProof, he]

/-- An instance of C29: a block response, an empty proof that the provider
rejects, a proof it verifies and a proof that is not completed; the first
two senders are banned. -/
theorem bans_are_penalized_peers_witness :
    sampleStrategy.phase = WarpProof ∧
    ∃ out w', sampleStrategy.Process sampleCollaborators
        [sampleBlockResult 1 [], sampleProofResult 2 0 true, sampleProofResult 3 2 false,
          { sampleProofResult 4 1 true with completed := false }] = .ok (out, w') ∧
      out.bans = [[1], [2]] ∧
      out.repChanges = [{ who := [1], rep := sampleCollaborators.UnexpectedResponse },
        { who := [2], rep := sampleCollaborators.BadWarpProof }] ∧
      out.repChanges.map Change.who = out.bans ∧
      out.repChanges.length = out.bans.length := by
  have h := bans_are_penalized_peers sampleCollaborators sampleStrategy
    [sampleBlockResult 1 [], sampleProofResult 2 0 true, sampleProofResult 3 2 false,
      { sampleProofResult 4 1 true with completed := false }] rfl
  obtain ⟨out, w', ho⟩ := h.1 (encodable_sample _)
  obtain ⟨hb, hr, hwho, hlen⟩ := h.2.1 out w' ho
  exact ⟨rfl, out, w', ho, hb.trans (by decide), hr.trans (by decide), hwho, hlen⟩

/-- C30, amended: in phase `TargetBlock`, with what the shared validator
returns: if its first valid response carries block data, `Process` stores
the first block-data element of that response as the result, moves to
`Completed` and returns `done = true`; if it returns no valid response, or
the first one carries no block data, the strategy is left as it is, in
phase `TargetBlock`, and `done = false`.  The reputation changes and the
bans are those of the validator. -/
theorem process_target_block (x : Collaborators) (w : WarpSyncStrategy)
    (results : List SyncTaskResult) (repChanges : List Change) (bans : List PeerID)
    (validRes : List RequestResponseData) (hp : w.phase = TargetBlock)
    (hv : x.validateResults results w.badBlocks = (repChanges, bans, validRes)) :
    (∀ first rest blockData others, validRes = first :: rest →
      first.responseData = blockData :: others →
      w.Process x results
        = .ok ({ done := true, repChanges := repChanges, bans := bans, err := none },
            { w with result := blockData, phase := Completed })) ∧
    ((validRes = [] ∨ ∃ first rest, validRes = first :: rest ∧ first.responseData = []) →
      w.Process x results
        = .ok ({ done := false, repChanges := repChanges, bans := bans, err := none }, w)) := by
  constructor
  · intro first rest blockData others hvr hd
    subst hvr
    simp [WarpSyncStrategy.Process, hp, hv, hd, WarpSyncStrategy.IsSynced, TargetBlock,
      WarpProof, Completed]
  · rintro (hnil | ⟨first, rest, hvr, hd⟩)
    · subst hnil
      simp [WarpSyncStrategy.Process, hp, hv, WarpSyncStrategy.IsSynced, TargetBlock,
        WarpProof, Completed]
    · subst hvr
      simp [WarpSyncStrategy.Process, hp, hv, hd, WarpSyncStrategy.IsSynced, TargetBlock,
        WarpProof, Completed]

/-- An instance of amended C30: the first valid response carries the block 12. -/
theorem process_target_block_witness :
    sampleCollaborators.validateResults [sampleBlockResult 1 [sampleBlockData 12]]
      sampleTargetStrategy.badBlocks
      = ([], [], [{ req := some (.BlockRequestMessage (.hash [1]) 1 19 .Ascending),
                    responseData := [sampleBlockData 12] }]) ∧
    sampleTargetStrategy.Process sampleCollaborators [sampleBlockResult 1 [sampleBlockData 12]]
      = .ok ({ done := true, repChanges := [], bans := [], err := none },
          { sampleTargetStrategy with result := sampleBlockData 12, phase := Completed }) :=
  ⟨by decide,
    (process_target_block sampleCollaborators sampleTargetStrategy
      [sampleBlockResult 1 [sampleBlockData 12]] [] []
      [{ req := some (.BlockRequestMessage (.hash [1]) 1 19 .Ascending),
         responseData := [sampleBlockData 12] }] rfl (by decide)).1 _ [] (sampleBlockData 12) []
      rfl rfl⟩

/-- C30 as stated fails: the validator returns two valid responses, the
first without block data and the second with the block 12, so it returns a
valid response carrying block data; yet `Process` stores nothing, stays in
phase `TargetBlock` and returns `done = false`. -/
theorem first_valid_response_without_data :
    sampleCollaborators.validateResults
      [sampleBlockResult 1 [], sampleBlockResult 2 [sampleBlockData 12]]
      sampleTargetStrategy.badBlocks
      = ([], [], [{ req := some (.BlockRequestMessage (.hash [1]) 1 19 .Ascending),
                    responseData := [] },
                  { req := some (.BlockRequestMessage (.hash [1]) 1 19 .Ascending),
                    responseData := [sampleBlockData 12] }]) ∧
    sampleTargetStrategy.phase = TargetBlock ∧
    (sampleTargetStrategy.Process sampleCollaborators
      [sampleBlockResult 1 [], sampleBlockResult 2 [sampleBlockData 12]]).map
        (fun r => (r.1, r.2.phase, r.2.result))
      = .ok ({ done := false, repChanges := [], bans := [], err := none }, TargetBlock,
          zeroBlockData) := by
  refine ⟨by decide, rfl, by decide⟩

end Sync

/-! ## The overlay at a panic of `Root`, and reads through staged changes -/

/-- C36 as stated fails: `Root` called with two open transactions panics
with "cannot calculate root with running transactions" after the innermost
transaction was committed into its parent: one transaction is left, holding
the changes of the innermost one, where two were open before the call. -/
theorem root_panic_leaves_merged_stack :
    sampleOpen2.transactions = [newStorageDiff.upsert [2] (some [5]), newStorageDiff] ∧
    sampleOpen2.Root id = .error (.rootWithRunningTransactions,
      { state := sampleTrie, transactions := [newStorageDiff.upsert [2] (some [5])] }) ∧
    [newStorageDiff.upsert [2] (some [5])] ≠ sampleOpen2.transactions := by
  refine ⟨rfl, by decide, by decide⟩

/-- C36, amended: when `Root` panics, the underlying trie is as it was
before the call.  The panic is either "no transactions to commit", with no
open transaction and the state unchanged, or "cannot calculate root with
running transactions", with two or more transactions open before the call:
then the innermost transaction has taken its parent's place and the stack
is one shorter than before. -/
theorem root_panic_state {H : Type} (hash : Trie → H) (t t' : TrieState) (p : Panic)
    (h : t.Root hash = .error (p, t')) :
    t'.state = t.state ∧
    ((p = .noTransactionsToCommit ∧ t.transactions = [] ∧ t' = t) ∨
      (p = .rootWithRunningTransactions ∧ ∃ tx parent rest,
        t.transactions = tx :: parent :: rest ∧ t'.transactions = tx :: rest)) := by
  obtain ⟨tr, txs⟩ := t
  cases txs with
  | nil =>
    simp only [TrieState.Root, TrieState.CommitTransaction, Except.error.injEq,
      Prod.mk.injEq] at h
    obtain ⟨hp, ht⟩ := h
    subst hp ht
    exact ⟨rfl, Or.inl ⟨rfl, rfl, rfl⟩⟩
  | cons d rest =>
    cases rest with
    | nil =>
      simp [TrieState.Root, TrieState.CommitTransaction, TrieState.getCurrentTransaction] at h
    | cons d2 rest2 =>
      simp only [TrieState.Root, TrieState.CommitTransaction, TrieState.getCurrentTransaction,
        List.head?_cons, Except.error.injEq, Prod.mk.injEq] at h
      obtain ⟨hp, ht⟩ := h
      subst hp ht
      exact ⟨rfl, Or.inr ⟨rfl, d, d2, rest2, rfl, rfl⟩⟩

/-- An instance of amended C36: `Root` with the two open transactions of `sampleOpen2`. -/
theorem root_panic_state_witness :
    sampleOpen2.Root id = .error (.rootWithRunningTransactions,
      { state := sampleTrie, transactions := [newStorageDiff.upsert [2] (some [5])] }) ∧
    sampleTrie = sampleOpen2.state ∧
    ((Panic.rootWithRunningTransactions = .noTransactionsToCommit ∧
        sampleOpen2.transactions = [] ∧
        { state := sampleTrie, transactions := [newStorageDiff.upsert [2] (some [5])] }
          = sampleOpen2) ∨
      (Panic.rootWithRunningTransactions = .rootWithRunningTransactions ∧ ∃ tx parent rest,
        sampleOpen2.transactions = tx :: parent :: rest ∧
        [newStorageDiff.upsert [2] (some [5])] = tx :: rest)) :=
  ⟨by decide, root_panic_state id sampleOpen2
    { state := sampleTrie, transactions := [newStorageDiff.upsert [2] (some [5])] }
    .rootWithRunningTransactions (by decide)⟩

/-- C39 as stated fails: over a trie holding `[1] ↦ [7]`, after
`StartTransaction; Delete([1])` the key `[1]` is in the deletes and in the
sorted keys of the innermost diff; `NextKey([0])` returns `[1]`, a key in
the deletes for which `Get` is nil. -/
theorem nextKey_returns_deleted_key :
    deletedOneScenario.transactions.map (fun tx => (tx.deletes, tx.sortedKeys))
      = [([[1]], [[1]])] ∧
    deletedOneScenario.NextKey [0] = some [1] ∧
    deletedOneScenario.Get [1] = none := by
  decide

/-- C40, at the failing input: the child `[9]` of the trie holds `[3] ↦ [4]`
and `[5] ↦ [6]`; in the open transaction `[8] ↦ [2]` is staged as an upsert
of the child and `[3]` as deleted.  `GetKeysWithPrefixFromChild([9], [])`
returns the keys of the child in the trie, `[3]` and `[5]`: the staged
upsert `[8]` is missing and the key `[3]`, staged as deleted, is returned. -/
theorem child_keys_ignore_staged_changes :
    stagedChildScenario.transactions.map
        (fun tx => (mapGet [9] tx.childChangeSet).map (fun c => (mapKeys c.upserts, c.deletes)))
      = [some ([[8]], [[3]])] ∧
    stagedChildScenario.GetKeysWithPrefixFromChild [9] [] = .ok [[3], [5]] ∧
    stagedChildScenario.GetChildStorage [9] [8] = .ok (some [2]) ∧
    stagedChildScenario.GetChildStorage [9] [3] = .ok none := by
  decide

/-! ## The size accounting of `addFragment` and `lastProofBlockNumber` -/

theorem SizeInv_buildProof (x : Externals) :
    ∀ (fragments : List WarpSyncFragment) (w : WarpSyncProof),
      SizeInv x w → SizeInv x (buildProof x fragments w) := by
  intro fragments
  induction fragments with
  | nil =>
    intro w hw
    exact hw
  | cons f rest ih =>
    intro w hw
    simp only [buildProof]
    cases ha : w.addFragment x f with
    | error e => exact ih w hw
    | ok r =>
      obtain ⟨w', b⟩ := r
      exact ih w' (SizeInv_addFragment x w w' f b hw ha)

/-- C37: for a fragment that encodes to `n` bytes and a proof with the
accumulated size `s`: if `s + n ≥ 8 * 1024 * 1024`, `addFragment` returns
`limitReached = true` and the proof as it was; otherwise it returns `false`
and the proof with the fragment appended as the last element and the
accumulator `s + n`.  Hence in every proof built from `NewWarpSyncProof` by
`addFragment` calls the fragments encode, the accumulator is the length of
their encodings taken together, and it is strictly below 8 MiB. -/
theorem addFragment_accounting (x : Externals) (w : WarpSyncProof) (fragment : WarpSyncFragment)
    (encodedFragment : List Nat) (h : x.marshalFragment fragment = .ok encodedFragment) :
    (w.proofsLength + encodedFragment.length ≥ 8 * 1024 * 1024 →
      w.addFragment x fragment = .ok (w, true)) ∧
    (w.proofsLength + encodedFragment.length < 8 * 1024 * 1024 →
      w.addFragment x fragment
        = .ok (WarpSyncProof.mk (w.Proofs ++ [fragment]) w.IsFinished
            (w.proofsLength + encodedFragment.length), false)) ∧
    (∀ fragments : List WarpSyncFragment,
      ∃ encs, marshalFragments x (buildProof x fragments NewWarpSyncProof).Proofs = .ok encs ∧
        (buildProof x fragments NewWarpSyncProof).proofsLength = encs.length ∧
        (buildProof x fragments NewWarpSyncProof).proofsLength < 8 * 1024 * 1024) := by
  refine ⟨fun hge => ?_, fun hlt => ?_, fun fragments => ?_⟩
  · have hge' : w.proofsLength + encodedFragment.length ≥ MaxWarpSyncProofSize := hge
    simp only [WarpSyncProof.addFragment, h, hge', ↓reduceIte]
  · have hlt' : ¬ (w.proofsLength + encodedFragment.length ≥ MaxWarpSyncProofSize) := by
      have : MaxWarpSyncProofSize = 8 * 1024 * 1024 := rfl
      omega
    simp only [WarpSyncProof.addFragment, h, hlt', ↓reduceIte]
  · obtain ⟨encs, h1, h2, h3⟩ := SizeInv_buildProof x fragments NewWarpSyncProof (SizeInv_new x)
    exact ⟨encs, h1, h2.symm, h3⟩

/-- An instance of C37: two toy fragments of three bytes each. -/
theorem addFragment_accounting_witness :
    sampleExternals.marshalFragment (sampleFragment 10 7 0 10) = .ok [10, 0, 0] ∧
    NewWarpSyncProof.addFragment sampleExternals (sampleFragment 10 7 0 10)
      = .ok (WarpSyncProof.mk [sampleFragment 10 7 0 10] false 3, false) ∧
    buildProof sampleExternals [sampleFragment 10 7 0 10, sampleFragment 12 0 1 12]
      NewWarpSyncProof
      = WarpSyncProof.mk [sampleFragment 10 7 0 10, sampleFragment 12 0 1 12] false 6 :=
  ⟨by decide,
    (addFragment_accounting sampleExternals NewWarpSyncProof (sampleFragment 10 7 0 10)
      [10, 0, 0] (by decide)).2.1 (by decide),
    by decide⟩

/-- C38 as stated fails: for a last fragment whose commit target number is
`2 ^ 32 - 1`, `lastProofBlockNumber` returns 0, not one more than it. -/
theorem lastProofBlockNumber_wraps :
    lastBlockProof.Proofs.map (fun f => f.Justification.Commit.TargetNumber) = [4294967295] ∧
    lastBlockProof.lastProofBlockNumber = 0 ∧
    lastBlockProof.lastProofBlockNumber ≠ 4294967295 + 1 := by
  decide

/-- C38, amended: `lastProofBlockNumber` returns 0 for a proof with no
fragments and otherwise the `uint32` sum of the commit target number of the
last fragment and one: exactly one more for every target number below
`2 ^ 32 - 1`, and 0 for `2 ^ 32 - 1`.  With no fragments the guard of the
terminal fragment holds for every justification. -/
theorem lastProofBlockNumber_spec (w : WarpSyncProof) :
    (w.Proofs = [] → w.lastProofBlockNumber = 0) ∧
    (∀ last, w.Proofs.getLast? = some last →
      w.lastProofBlockNumber = (last.Justification.Commit.TargetNumber + 1) % 2 ^ 32 ∧
      (last.Justification.Commit.TargetNumber < 2 ^ 32 - 1 →
        w.lastProofBlockNumber = last.Justification.Commit.TargetNumber + 1) ∧
      (last.Justification.Commit.TargetNumber = 2 ^ 32 - 1 → w.lastProofBlockNumber = 0)) ∧
    (w.Proofs = [] → ∀ justification : GrandpaJustification,
      justification.Commit.TargetNumber ≥ w.lastProofBlockNumber) := by
  refine ⟨fun hnil => ?_, fun last hlast => ?_, fun hnil justification => ?_⟩
  · simp [WarpSyncProof.lastProofBlockNumber, hnil]
  · have hval : w.lastProofBlockNumber
        = (last.Justification.Commit.TargetNumber + 1) % 2 ^ 32 := by
      simp only [WarpSyncProof.lastProofBlockNumber, hlast]
    refine ⟨hval, fun hlt => ?_, fun heq => ?_⟩
    · rw [hval]
      exact Nat.mod_eq_of_lt (by omega)
    · rw [hval, heq]
      decide
  · simp [WarpSyncProof.lastProofBlockNumber, hnil]

namespace Sync

/-! ## The sync service -/

theorem foldl_apply_fields (cfgs : List ServiceConfig) :
    ∀ svc : SyncService,
      (cfgs.foldl (fun svc cfg => cfg.apply svc) svc).warpSyncStrategy
        = (cfgs.filterMap (fun cfg =>
            match cfg with
            | .WithWarpSyncStrategy s => some s
            | _ => none)).getLast?.getD svc.warpSyncStrategy ∧
      (cfgs.foldl (fun svc cfg => cfg.apply svc) svc).fullSyncStrategy
        = (cfgs.filterMap (fun cfg =>
            match cfg with
            | .WithFullSyncStrategy s => some s
            | _ => none)).getLast?.getD svc.fullSyncStrategy ∧
      (cfgs.foldl (fun svc cfg => cfg.apply svc) svc).minPeers
        = (cfgs.filterMap (fun cfg =>
            match cfg with
            | .WithMinPeers n => some n
            | _ => none)).getLast?.getD svc.minPeers ∧
      (cfgs.foldl (fun svc cfg => cfg.apply svc) svc).waitPeersDuration
        = svc.waitPeersDuration := by
  induction cfgs with
  | nil =>
    intro svc
    simp
  | cons cfg rest ih =>
    intro svc
    obtain ⟨h1, h2, h3, h4⟩ := ih (cfg.apply svc)
    simp only [List.foldl_cons]
    rw [h1, h2, h3, h4]
    cases cfg <;>
      simp [ServiceConfig.apply, List.filterMap_cons, List.getLast?_cons]

/-- C32: for every list of the options of `configuration.go`,
`NewSyncService` returns a service whose warp-sync and full-sync strategies
are the configured ones, whose current strategy is the warp-sync strategy
when that is not nil and the full-sync strategy otherwise, whose
`minPeers` is 1 unless `WithMinPeers` sets it, and whose wait-peers timeout
is 10 s (no option sets it). -/
theorem newSyncService_initial_strategy (cfgs : List ServiceConfig) :
    (NewSyncService cfgs).warpSyncStrategy = configuredWarp cfgs ∧
    (NewSyncService cfgs).fullSyncStrategy = configuredFull cfgs ∧
    (configuredWarp cfgs ≠ none →
      (NewSyncService cfgs).currentStrategy = configuredWarp cfgs) ∧
    (configuredWarp cfgs = none →
      (NewSyncService cfgs).currentStrategy = configuredFull cfgs) ∧
    (NewSyncService cfgs).minPeers = (configuredMinPeers cfgs).getD 1 ∧
    (NewSyncService cfgs).waitPeersDuration = 10 * Second := by
  obtain ⟨h1, h2, h3, h4⟩ := foldl_apply_fields cfgs
    { network := none, blockState := none, currentStrategy := none, fullSyncStrategy := none,
      warpSyncStrategy := none, workerPool := none,
      waitPeersDuration := waitPeersDefaultTimeout, minPeers := minPeersDefault,
      slotDuration := 0, seenBlockSyncRequests := 100 }
  simp only at h1 h2 h3 h4
  have hw : (NewSyncService cfgs).warpSyncStrategy = configuredWarp cfgs := by
    unfold NewSyncService configuredWarp
    dsimp only
    split <;> exact h1
  have hf : (NewSyncService cfgs).fullSyncStrategy = configuredFull cfgs := by
    unfold NewSyncService configuredFull
    dsimp only
    split <;> exact h2
  refine ⟨hw, hf, fun hne => ?_, fun hnone => ?_, ?_, ?_⟩
  · unfold configuredWarp at hne ⊢
    unfold NewSyncService
    dsimp only
    rw [h1, if_pos hne]
  · unfold configuredWarp at hnone
    unfold NewSyncService configuredFull
    dsimp only
    rw [h1, if_neg (not_not.mpr hnone)]
    exact h2
  · unfold NewSyncService configuredMinPeers
    dsimp only
    split <;> exact h3
  · unfold NewSyncService
    dsimp only
    split <;> exact h4

end Sync

namespace Sync

theorem runStrategy_ok_cases {σ : Type} (ops : StrategyOps σ) (env : TickEnv)
    (s s' : SyncService) (st st' : σ) (eff : TickEffects)
    (h : runStrategy ops env s st = .ok ((s', st'), eff)) :
    (s' = s ∧ eff = { reported := [], ignored := [] } ∧
      ∀ out, tickProcess ops env s st = some out → out.err ≠ none) ∨
    (∃ out tasks, tickProcess ops env s st = some out ∧ out.err = none ∧
      tickNextActions ops env s st = some (.ok tasks) ∧ tasks ≠ [] ∧
      eff = { reported := out.repChanges, ignored := out.bans } ∧
      s' = (if out.done = true then
              if s.warpSyncStrategy ≠ none then { s with currentStrategy := s.fullSyncStrategy }
              else s
            else s)) := by
  unfold runStrategy at h
  cases h1 : env.GetHighestFinalisedHeader with
  | error e =>
    simp only [h1, Except.ok.injEq, Prod.mk.injEq] at h
    exact Or.inl ⟨h.1.1.symm, h.2.symm, by simp [tickProcess, h1]⟩
  | ok finalisedHeader =>
    cases h2 : env.BestBlockHeader with
    | error e =>
      simp only [h1, h2, Except.ok.injEq, Prod.mk.injEq] at h
      exact Or.inl ⟨h.1.1.symm, h.2.symm, by simp [tickProcess, h1, h2]⟩
    | ok bestBlockHeader =>
      cases hc : s.currentStrategy with
      | none => simp [h1, h2, hc] at h
      | some current =>
        cases hn : ops.NextActions current st with
        | mk res st₁ =>
          cases res with
          | error e =>
            simp only [h1, h2, hc, hn, Except.ok.injEq, Prod.mk.injEq] at h
            exact Or.inl ⟨h.1.1.symm, h.2.symm, by simp [tickProcess, h1, h2, hc, hn]⟩
          | ok tasks =>
            by_cases hl : tasks.length = 0
            · simp only [h1, h2, hc, hn, hl, ↓reduceIte, Except.ok.injEq, Prod.mk.injEq] at h
              exact Or.inl ⟨h.1.1.symm, h.2.symm, by simp [tickProcess, h1, h2, hc, hn, hl]⟩
            · cases hp : ops.Process current (env.submitRequests tasks) st₁ with
              | error p => simp [h1, h2, hc, hn, hl, hp] at h
              | ok r =>
                obtain ⟨out, st₂⟩ := r
                have htp : tickProcess ops env s st = some out := by
                  simp [tickProcess, h1, h2, hc, hn, hl, hp]
                by_cases he : out.err ≠ none
                · simp only [h1, h2, hc, hn, hl, hp, ↓reduceIte] at h
                  rw [if_pos he] at h
                  simp only [Except.ok.injEq, Prod.mk.injEq] at h
                  refine Or.inl ⟨h.1.1.symm, h.2.symm, fun out' ho => ?_⟩
                  rw [htp] at ho
                  simp only [Option.some.injEq] at ho
                  rw [← ho]
                  exact he
                · simp only [h1, h2, hc, hn, hl, hp, ↓reduceIte] at h
                  rw [if_neg he] at h
                  simp only [Except.ok.injEq, Prod.mk.injEq] at h
                  refine Or.inr ⟨out, tasks, htp, not_not.mp he, ?_, ?_, h.2.symm, h.1.1.symm⟩
                  · simp [tickNextActions, h1, h2, hc, hn]
                  · intro ht
                    exact hl (by rw [ht]; rfl)

theorem runStrategy_strategies {σ : Type} (ops : StrategyOps σ) (env : TickEnv)
    (s s' : SyncService) (st st' : σ) (eff : TickEffects)
    (h : runStrategy ops env s st = .ok ((s', st'), eff)) :
    s'.fullSyncStrategy = s.fullSyncStrategy ∧ s'.warpSyncStrategy = s.warpSyncStrategy ∧
    (s'.currentStrategy = s.currentStrategy ∨ s'.currentStrategy = s.fullSyncStrategy) := by
  rcases runStrategy_ok_cases ops env s s' st st' eff h with ⟨hs, _, _⟩ |
    ⟨out, tasks, _, _, _, _, _, hs⟩
  · rw [hs]
    exact ⟨rfl, rfl, Or.inl rfl⟩
  · rw [hs]
    split
    · split
      · exact ⟨rfl, rfl, Or.inr rfl⟩
      · exact ⟨rfl, rfl, Or.inl rfl⟩
    · exact ⟨rfl, rfl, Or.inl rfl⟩

theorem runTicks_full {σ : Type} (ops : StrategyOps σ) :
    ∀ (envs : List TickEnv) (s s' : SyncService) (st st' : σ),
      s.currentStrategy = s.fullSyncStrategy → runTicks ops envs s st = .ok (s', st') →
      s'.currentStrategy = s.fullSyncStrategy ∧ s'.fullSyncStrategy = s.fullSyncStrategy ∧
      s'.warpSyncStrategy = s.warpSyncStrategy := by
  intro envs
  induction envs with
  | nil =>
    intro s s' st st' hfull h
    simp only [runTicks, Except.ok.injEq, Prod.mk.injEq] at h
    rw [← h.1]
    exact ⟨hfull, rfl, rfl⟩
  | cons env rest ih =>
    intro s s' st st' hfull h
    simp only [runTicks] at h
    cases hr : runStrategy ops env s st with
    | error p => simp [hr] at h
    | ok r =>
      obtain ⟨⟨s₁, st₁⟩, eff⟩ := r
      simp only [hr] at h
      obtain ⟨hf, hw, hcur⟩ := runStrategy_strategies ops env s s₁ st st₁ eff hr
      have hfull₁ : s₁.currentStrategy = s₁.fullSyncStrategy := by
        rcases hcur with hcur | hcur
        · rw [hcur, hf, hfull]
        · rw [hcur, hf]
      obtain ⟨k1, k2, k3⟩ := ih s₁ s' st₁ st' hfull₁ h
      exact ⟨by rw [k1, hf], by rw [k2, hf], by rw [k3, hw]⟩

/-- C31: one tick (`runStrategy`) as a step on the service.  When the tick
returns, the service is as before except at most for its current strategy:
the current strategy is the full-sync strategy if `Process` returned
`done = true` with no error and a warp strategy is configured, and the
service is unchanged otherwise.  When `NextActions` or `Process` returns an
error, or `NextActions` returns no task, no reputation change is reported,
no peer is banned and the strategy is not swapped.  Hence, from a service
whose current strategy is the full-sync strategy, after any number of ticks
the current strategy is still the full-sync strategy, so it is not the warp
strategy (a strategy other than the full-sync one). -/
theorem tick_swaps_to_full_only_when_done {σ : Type} (ops : StrategyOps σ) (env : TickEnv)
    (s s' : SyncService) (st st' : σ) (eff : TickEffects)
    (h : runStrategy ops env s st = .ok ((s', st'), eff)) :
    ((∃ out, tickProcess ops env s st = some out ∧ out.done = true ∧ out.err = none) ∧
        s.warpSyncStrategy ≠ none →
      s' = { s with currentStrategy := s.fullSyncStrategy }) ∧
    (¬ ((∃ out, tickProcess ops env s st = some out ∧ out.done = true ∧ out.err = none) ∧
        s.warpSyncStrategy ≠ none) → s' = s) ∧
    ((∃ e, tickNextActions ops env s st = some (.error e)) ∨
      (∃ out, tickProcess ops env s st = some out ∧ out.err ≠ none) ∨
      tickNextActions ops env s st = some (.ok []) →
      eff = { reported := [], ignored := [] } ∧ s' = s) ∧
    (∀ (envs : List TickEnv) (s₀ s₂ : SyncService) (st₀ st₂ : σ),
      s₀.currentStrategy = s₀.fullSyncStrategy → runTicks ops envs s₀ st₀ = .ok (s₂, st₂) →
      s₂.currentStrategy = s₂.fullSyncStrategy ∧
      s₂.fullSyncStrategy = s₀.fullSyncStrategy ∧
      s₂.warpSyncStrategy = s₀.warpSyncStrategy ∧
      (s₀.warpSyncStrategy ≠ s₀.fullSyncStrategy →
        s₂.currentStrategy ≠ s₂.warpSyncStrategy)) := by
  refine ⟨?_, ?_, ?_, ?_⟩
  · rintro ⟨⟨out, ho, hd, he⟩, hw⟩
    rcases runStrategy_ok_cases ops env s s' st st' eff h with ⟨_, _, hall⟩ |
      ⟨out', tasks, ho', _, _, _, _, hs⟩
    · exact absurd he (hall out ho)
    · rw [ho] at ho'
      simp only [Option.some.injEq] at ho'
      rw [← ho', hd] at hs
      rw [hs, if_pos rfl, if_pos hw]
  · intro hn
    rcases runStrategy_ok_cases ops env s s' st st' eff h with ⟨hs, _, _⟩ |
      ⟨out, tasks, ho, he, _, _, _, hs⟩
    · exact hs
    · rw [hs]
      by_cases hd : out.done = true
      · rw [if_pos hd]
        by_cases hw : s.warpSyncStrategy ≠ none
        · exact absurd ⟨⟨out, ho, hd, he⟩, hw⟩ hn
        · rw [if_neg hw]
      · rw [if_neg hd]
  · intro hcase
    rcases runStrategy_ok_cases ops env s s' st st' eff h with ⟨hs, heff, _⟩ |
      ⟨out, tasks, ho, he, hna, hne, _, _⟩
    · exact ⟨heff, hs⟩
    · rcases hcase with ⟨e, h1⟩ | ⟨out', h1, h2⟩ | h1
      · rw [hna] at h1
        simp at h1
      · rw [ho] at h1
        simp only [Option.some.injEq] at h1
        rw [← h1] at h2
        exact absurd he h2
      · rw [hna] at h1
        simp only [Option.some.injEq, Except.ok.injEq] at h1
        exact absurd h1 hne
  · intro envs s₀ s₂ st₀ st₂ hfull hrun
    obtain ⟨k1, k2, k3⟩ := runTicks_full ops envs s₀ s₂ st₀ st₂ hfull hrun
    refine ⟨by rw [k1, k2], k2, k3, fun hne heq => ?_⟩
    rw [k1, k3] at heq
    exact hne heq.symm

/-- An instance of C31: the service configured with the warp strategy 1 and
the full-sync strategy 2, in a tick in which the warp strategy finishes,
goes over to the strategy 2. -/
theorem tick_swaps_to_full_only_when_done_witness :
    runStrategy sampleOps sampleTickEnv
        (NewSyncService [.WithWarpSyncStrategy (some 1), .WithFullSyncStrategy (some 2)]) 1
      = .ok (({ NewSyncService [.WithWarpSyncStrategy (some 1), .WithFullSyncStrategy (some 2)]
                with currentStrategy := some 2 }, 2), { reported := [], ignored := [] }) ∧
    (NewSyncService [.WithWarpSyncStrategy (some 1), .WithFullSyncStrategy (some 2)]).currentStrategy
      = some 1 ∧
    ({ NewSyncService [.WithWarpSyncStrategy (some 1), .WithFullSyncStrategy (some 2)]
        with currentStrategy := some 2 } : SyncService)
      = { NewSyncService [.WithWarpSyncStrategy (some 1), .WithFullSyncStrategy (some 2)]
          with currentStrategy :=
            (NewSyncService [.WithWarpSyncStrategy (some 1),
              .WithFullSyncStrategy (some 2)]).fullSyncStrategy } :=
  ⟨rfl, rfl,
    (tick_swaps_to_full_only_when_done sampleOps sampleTickEnv
      (NewSyncService [.WithWarpSyncStrategy (some 1), .WithFullSyncStrategy (some 2)])
      { NewSyncService [.WithWarpSyncStrategy (some 1), .WithFullSyncStrategy (some 2)]
        with currentStrategy := some 2 } 1 2 { reported := [], ignored := [] } rfl).1
      ⟨⟨{ done := true, repChanges := [], bans := [], err := none }, rfl, rfl, rfl⟩,
        by decide⟩⟩

end Sync

/-! ## The ancestry chain -/

theorem mem_of_mapGet {β : Type} (x : Key) (v : β) (m : List (Key × β))
    (h : mapGet x m = some v) : (x, v) ∈ m := by
  induction m with
  | nil => simp [mapGet] at h
  | cons e rest ih =>
    obtain ⟨a, b⟩ := e
    simp only [mapGet] at h
    by_cases hx : x = a
    · simp only [hx, ↓reduceIte, Option.some.injEq] at h
      rw [hx, ← h]
      exact List.mem_cons_self _ _
    · simp only [hx, ↓reduceIte] at h
      exact List.mem_cons_of_mem _ (ih h)

namespace ancestryChain

theorem length_le_of_nodup_keys (ac : ancestryChain) (path : List Hash) (hn : path.Nodup)
    (hk : ∀ h ∈ path, h ∈ mapKeys ac.ancestry) : path.length ≤ ac.ancestry.length := by
  have hsub : path ⊆ mapKeys ac.ancestry := fun h hh => hk h hh
  have hle := (List.subperm_of_subset hn hsub).length_le
  simpa [mapKeys] using hle

theorem visit_ok_reaches (ac : ancestryChain) (base : Hash) :
    ∀ (fuel : Nat) (block : Hash) (path : List Hash),
      ac.visit base fuel block = some (.ok path) → ac.Reaches base block path := by
  intro fuel
  induction fuel with
  | zero =>
    intro block path h
    simp [visit] at h
  | succ fuel ih =>
    intro block path h
    simp only [visit] at h
    by_cases hb : block = base
    · simp only [hb, ↓reduceIte, Option.some.injEq, Except.ok.injEq] at h
      rw [hb, ← h]
      exact Reaches.arrived
    · simp only [hb, ↓reduceIte] at h
      cases hg : mapGet block ac.ancestry with
      | none => simp [hg] at h
      | some header =>
        simp only [hg] at h
        cases hv : ac.visit base fuel header.ParentHash with
        | none => simp [hv] at h
        | some r =>
          cases r with
          | error e => simp [hv] at h
          | ok rest =>
            simp only [hv, Option.some.injEq, Except.ok.injEq] at h
            rw [← h]
            exact Reaches.step block header rest hb hg (ih _ _ hv)

theorem reaches_visit (ac : ancestryChain) (base block : Hash) (path : List Hash)
    (h : ac.Reaches base block path) :
    ∀ fuel, path.length < fuel → ac.visit base fuel block = some (.ok path) := by
  induction h with
  | arrived =>
    intro fuel hf
    cases fuel with
    | zero => omega
    | succ fuel => simp [visit]
  | step block header rest hb hg _ ih =>
    intro fuel hf
    cases fuel with
    | zero => omega
    | succ fuel =>
      simp only [List.length_cons] at hf
      simp only [visit, hb, ↓reduceIte, hg, ih fuel (by omega)]

theorem reaches_functional (ac : ancestryChain) (base block : Hash) (p : List Hash)
    (hp : ac.Reaches base block p) : ∀ q, ac.Reaches base block q → p = q := by
  induction hp with
  | arrived =>
    intro q hq
    cases hq with
    | arrived => rfl
    | step _ header rest hb _ _ => exact absurd rfl hb
  | step block header rest hb hg _ ih =>
    intro q hq
    cases hq with
    | arrived => exact absurd rfl hb
    | step _ header' rest' _ hg' hr' =>
      rw [hg] at hg'
      simp only [Option.some.injEq] at hg'
      rw [← hg'] at hr'
      rw [ih rest' hr']

theorem reaches_suffix (ac : ancestryChain) (base block : Hash) (p : List Hash)
    (hp : ac.Reaches base block p) :
    ∀ (pre : List Hash) (h : Hash) (s : List Hash), p = pre ++ h :: s →
      ac.Reaches base h (h :: s) := by
  induction hp with
  | arrived =>
    intro pre h s he
    simp at he
  | step block header rest hb hg hr ih =>
    intro pre h s he
    cases pre with
    | nil =>
      simp only [List.nil_append, List.cons.injEq] at he
      rw [← he.1, ← he.2]
      exact Reaches.step block header rest hb hg hr
    | cons a pre' =>
      simp only [List.cons_append, List.cons.injEq] at he
      exact ih pre' h s he.2

theorem reaches_keys (ac : ancestryChain) (base block : Hash) (p : List Hash)
    (hp : ac.Reaches base block p) : ∀ h ∈ p, h ∈ mapKeys ac.ancestry := by
  induction hp with
  | arrived =>
    intro h hh
    simp at hh
  | step block header rest hb hg _ ih =>
    intro h hh
    simp only [List.mem_cons] at hh
    rcases hh with hh | hh
    · rw [hh]
      exact mem_mapKeys_of_mapGet block header ac.ancestry hg
    · exact ih h hh

theorem reaches_nodup (ac : ancestryChain) (base block : Hash) (p : List Hash)
    (hp : ac.Reaches base block p) : p.Nodup := by
  induction hp with
  | arrived => exact List.nodup_nil
  | step block header rest hb hg hr ih =>
    refine List.nodup_cons.2 ⟨fun hmem => ?_, ih⟩
    obtain ⟨pre, s, hs⟩ := List.append_of_mem hmem
    have h1 := reaches_suffix ac base _ rest hr pre block s hs
    have h2 := reaches_functional ac base block _ (Reaches.step block header rest hb hg hr) _ h1
    simp only [List.cons.injEq, true_and] at h2
    have hlen : rest.length = s.length := by rw [h2]
    rw [hs] at hlen
    simp only [List.length_append, List.length_cons] at hlen
    omega

theorem reaches_length (ac : ancestryChain) (base block : Hash) (p : List Hash)
    (hp : ac.Reaches base block p) : p.length ≤ ac.ancestry.length :=
  length_le_of_nodup_keys ac p (reaches_nodup ac base block p hp)
    (reaches_keys ac base block p hp)

theorem visit_error (ac : ancestryChain) (base : Hash) :
    ∀ (fuel : Nat) (block : Hash) (e : JustificationError),
      ac.visit base fuel block = some (.error e) →
      e = .errBlockNotDescendentOfBase ∧ ∀ path, ¬ ac.Reaches base block path := by
  intro fuel
  induction fuel with
  | zero =>
    intro block e h
    simp [visit] at h
  | succ fuel ih =>
    intro block e h
    simp only [visit] at h
    by_cases hb : block = base
    · simp [hb] at h
    · simp only [hb, ↓reduceIte] at h
      cases hg : mapGet block ac.ancestry with
      | none =>
        simp only [hg, Option.some.injEq, Except.error.injEq] at h
        refine ⟨h.symm, fun path hp => ?_⟩
        cases hp with
        | arrived => exact hb rfl
        | step _ header rest _ hg' _ =>
          rw [hg] at hg'
          simp at hg'
      | some header =>
        simp only [hg] at h
        cases hv : ac.visit base fuel header.ParentHash with
        | none => simp [hv] at h
        | some r =>
          cases r with
          | ok rest => simp [hv] at h
          | error e' =>
            simp only [hv, Option.some.injEq, Except.error.injEq] at h
            obtain ⟨he, hno⟩ := ih _ _ hv
            refine ⟨by rw [← h, he], fun path hp => ?_⟩
            cases hp with
            | arrived => exact hb rfl
            | step _ header' rest _ hg' hr' =>
              rw [hg] at hg'
              simp only [Option.some.injEq] at hg'
              rw [← hg'] at hr'
              exact hno rest hr'

theorem visit_none (ac : ancestryChain) (base : Hash) (rank : Hash → Nat)
    (hrank : ∀ e ∈ ac.ancestry, rank e.2.ParentHash < rank e.1) :
    ∀ (fuel : Nat) (block : Hash), ac.visit base fuel block = none →
      ∃ path : List Hash, path.length = fuel ∧ path.Nodup ∧
        (∀ h ∈ path, h ∈ mapKeys ac.ancestry) ∧ ∀ h ∈ path, rank h ≤ rank block := by
  intro fuel
  induction fuel with
  | zero =>
    intro block _
    exact ⟨[], rfl, List.nodup_nil, by simp, by simp⟩
  | succ fuel ih =>
    intro block h
    simp only [visit] at h
    by_cases hb : block = base
    · simp [hb] at h
    · simp only [hb, ↓reduceIte] at h
      cases hg : mapGet block ac.ancestry with
      | none => simp [hg] at h
      | some header =>
        simp only [hg] at h
        cases hv : ac.visit base fuel header.ParentHash with
        | some r =>
          cases r with
          | ok rest => simp [hv] at h
          | error e => simp [hv] at h
        | none =>
          obtain ⟨path, hl, hn, hk, hr⟩ := ih _ hv
          have hlt : rank header.ParentHash < rank block :=
            hrank (block, header) (mem_of_mapGet block header ac.ancestry hg)
          refine ⟨block :: path, by simp [hl], List.nodup_cons.2 ⟨fun hmem => ?_, hn⟩, ?_, ?_⟩
          · have := hr block hmem
            omega
          · intro h' hh
            simp only [List.mem_cons] at hh
            rcases hh with hh | hh
            · rw [hh]
              exact mem_mapKeys_of_mapGet block header ac.ancestry hg
            · exact hk h' hh
          · intro h' hh
            simp only [List.mem_cons] at hh
            rcases hh with hh | hh
            · rw [hh]
            · have := hr h' hh
              omega

theorem visit_total (ac : ancestryChain) (base block : Hash) (hac : ac.Acyclic) :
    ∃ r, ac.visit base (ac.ancestry.length + 1) block = some r := by
  obtain ⟨rank, hrank⟩ := hac
  cases hv : ac.visit base (ac.ancestry.length + 1) block with
  | some r => exact ⟨r, rfl⟩
  | none =>
    obtain ⟨path, hl, hn, hk, _⟩ := visit_none ac base rank hrank _ block hv
    have := length_le_of_nodup_keys ac path hn hk
    omega

theorem visit_iff_reaches (ac : ancestryChain) (base block : Hash) (path : List Hash) :
    ac.visit base (ac.ancestry.length + 1) block = some (.ok path) ↔
      ac.Reaches base block path :=
  ⟨visit_ok_reaches ac base _ block path, fun h =>
    reaches_visit ac base block path h _
      (Nat.lt_succ_of_le (reaches_length ac base block path h))⟩

end ancestryChain

namespace ancestryChain

theorem Ancestry_ok_iff (ac : ancestryChain) (base block : Hash) (route : List Hash) :
    ac.Ancestry base block = some (.ok route) ↔
      ∃ path, ac.Reaches base block path ∧ route = path.tail := by
  unfold Ancestry
  constructor
  · intro h
    cases hv : ac.visit base (ac.ancestry.length + 1) block with
    | none => simp [hv] at h
    | some r =>
      cases r with
      | error e => simp [hv] at h
      | ok visited =>
        simp only [hv, Option.some.injEq, Except.ok.injEq] at h
        exact ⟨visited, (visit_iff_reaches ac base block visited).1 hv, h.symm⟩
  · rintro ⟨path, hp, hr⟩
    rw [(visit_iff_reaches ac base block path).2 hp, hr]

theorem Ancestry_error (ac : ancestryChain) (base block : Hash) (e : JustificationError)
    (h : ac.Ancestry base block = some (.error e)) :
    e = .errBlockNotDescendentOfBase ∧ ¬ ∃ path, ac.Reaches base block path := by
  unfold Ancestry at h
  cases hv : ac.visit base (ac.ancestry.length + 1) block with
  | none => simp [hv] at h
  | some r =>
    cases r with
    | ok visited => simp [hv] at h
    | error e' =>
      simp only [hv, Option.some.injEq, Except.error.injEq] at h
      obtain ⟨he, hno⟩ := visit_error ac base _ block e' hv
      exact ⟨by rw [← h, he], fun ⟨path, hp⟩ => hno path hp⟩

theorem Ancestry_total (ac : ancestryChain) (base block : Hash) (hac : ac.Acyclic) :
    ∃ r, ac.Ancestry base block = some r := by
  obtain ⟨r, hr⟩ := visit_total ac base block hac
  unfold Ancestry
  rw [hr]
  cases r with
  | error e => exact ⟨_, rfl⟩
  | ok visited => exact ⟨_, rfl⟩

theorem Ancestry_unreachable (ac : ancestryChain) (base block : Hash) (hac : ac.Acyclic)
    (hno : ¬ ∃ path, ac.Reaches base block path) :
    ac.Ancestry base block = some (.error .errBlockNotDescendentOfBase) := by
  obtain ⟨r, hr⟩ := Ancestry_total ac base block hac
  cases r with
  | error e =>
    rw [hr, (Ancestry_error ac base block e hr).1]
  | ok route =>
    obtain ⟨path, hp, _⟩ := (Ancestry_ok_iff ac base block route).1 hr
    exact absurd ⟨path, hp⟩ hno

end ancestryChain

/-- C33: for every ancestry chain built from a header list and every pair
of hashes (base, block), `Ancestry(base, block)` succeeds exactly when
following parent-hash links from `block` through headers present in the
chain reaches `base`, and then returns the hashes passed strictly between
the two endpoints, the empty list when base = block; a failure is
`errBlockNotDescendentOfBase` and there is then no such path; when the
chain has no cycle of parent links (where the traversal would not end),
`Ancestry` fails with `errBlockNotDescendentOfBase` in every other case;
and `IsEqualOrDescendantOf(base, block)` is true exactly when
`Ancestry(base, block)` succeeds, and false exactly when it fails. -/
theorem ancestry_succeeds_iff_linked (headerHash : Header → Hash) (headers : List Header)
    (base block : Hash) :
    (∀ route, (newAncestryChain headerHash headers).Ancestry base block = some (.ok route) ↔
      ∃ path, (newAncestryChain headerHash headers).Reaches base block path ∧
        route = path.tail) ∧
    (newAncestryChain headerHash headers).Ancestry base base = some (.ok []) ∧
    (∀ e, (newAncestryChain headerHash headers).Ancestry base block = some (.error e) →
      e = .errBlockNotDescendentOfBase ∧
      ¬ ∃ path, (newAncestryChain headerHash headers).Reaches base block path) ∧
    ((newAncestryChain headerHash headers).Acyclic →
      (¬ ∃ path, (newAncestryChain headerHash headers).Reaches base block path) →
      (newAncestryChain headerHash headers).Ancestry base block
        = some (.error .errBlockNotDescendentOfBase)) ∧
    ((newAncestryChain headerHash headers).IsEqualOrDescendantOf base block = some true ↔
      ∃ route, (newAncestryChain headerHash headers).Ancestry base block
        = some (.ok route)) ∧
    ((newAncestryChain headerHash headers).IsEqualOrDescendantOf base block = some false ↔
      ∃ e, (newAncestryChain headerHash headers).Ancestry base block = some (.error e)) := by
  refine ⟨fun route => ancestryChain.Ancestry_ok_iff _ base block route, ?_,
    fun e h => ancestryChain.Ancestry_error _ base block e h,
    fun hac hno => ancestryChain.Ancestry_unreachable _ base block hac hno, ?_, ?_⟩
  · exact (ancestryChain.Ancestry_ok_iff _ base base []).2 ⟨[], ancestryChain.Reaches.arrived, rfl⟩
  · unfold ancestryChain.IsEqualOrDescendantOf
    cases (newAncestryChain headerHash headers).Ancestry base block with
    | none => simp
    | some r =>
      cases r with
      | error e => simp
      | ok route => simp
  · unfold ancestryChain.IsEqualOrDescendantOf
    cases (newAncestryChain headerHash headers).Ancestry base block with
    | none => simp
    | some r =>
      cases r with
      | error e => simp
      | ok route => simp

/-- The chain of the three headers of the tests has no cycle of parent links. -/
theorem testChain_acyclic :
    (newAncestryChain sampleGrandpaExternals.headerHash
      [testHeader 1, testHeader 2, testHeader 3]).Acyclic :=
  ⟨fun h => h.headD 0, by decide⟩

/-- An instance of C33, the cases of `TestAncestryChain_Ancestry`: in the
chain of the headers 1, 2 and 3, the ancestry of block 3 from block 1 is the
hash of block 2, and a block that is not in the chain is not a descendant. -/
theorem ancestry_succeeds_iff_linked_witness :
    (newAncestryChain sampleGrandpaExternals.headerHash
      [testHeader 1, testHeader 2, testHeader 3]).Ancestry [1] [3] = some (.ok [[2]]) ∧
    (newAncestryChain sampleGrandpaExternals.headerHash
      [testHeader 1, testHeader 2, testHeader 3]).Ancestry [1] [77]
      = some (.error .errBlockNotDescendentOfBase) ∧
    ¬ ∃ path, (newAncestryChain sampleGrandpaExternals.headerHash
      [testHeader 1, testHeader 2, testHeader 3]).Reaches [1] [77] path :=
  ⟨by decide, by decide,
    ((ancestry_succeeds_iff_linked sampleGrandpaExternals.headerHash
      [testHeader 1, testHeader 2, testHeader 3] [1] [77]).2.2.1
        .errBlockNotDescendentOfBase (by decide)).2⟩

/-! ## Justification verification -/

theorem threshold_pos (voters : AuthorityList) : 0 < threshold voters := by
  unfold threshold
  omega

namespace ancestryChain

theorem visitedHashes_ok (ac : ancestryChain) (base : Hash) :
    ∀ (precommits : List SignedPrecommit) (visited : List Hash),
      ac.visitedHashes base precommits = some (.ok visited) →
      (∀ signed ∈ precommits, signed.Precommit.TargetHash ≠ base →
        ∃ path, ac.Reaches base signed.Precommit.TargetHash path) ∧
      ∀ h, h ∈ visited ↔ ac.Visited base precommits h := by
  intro precommits
  induction precommits with
  | nil =>
    intro visited h
    simp only [visitedHashes, Option.some.injEq, Except.ok.injEq] at h
    rw [← h]
    simp [Visited]
  | cons signed rest ih =>
    intro visited h
    simp only [visitedHashes] at h
    by_cases hb : signed.Precommit.TargetHash = base
    · simp only [hb, ↓reduceIte] at h
      obtain ⟨h1, h2⟩ := ih visited h
      refine ⟨fun s hs hne => ?_, fun x => ?_⟩
      · simp only [List.mem_cons] at hs
        rcases hs with hs | hs
        · rw [hs] at hne
          exact absurd hb hne
        · exact h1 s hs hne
      · rw [h2 x]
        constructor
        · rintro ⟨s, hs, hne, path, hp, hx⟩
          exact ⟨s, List.mem_cons_of_mem _ hs, hne, path, hp, hx⟩
        · rintro ⟨s, hs, hne, path, hp, hx⟩
          simp only [List.mem_cons] at hs
          rcases hs with hs | hs
          · rw [hs] at hne
            exact absurd hb hne
          · exact ⟨s, hs, hne, path, hp, hx⟩
    · simp only [hb, ↓reduceIte] at h
      cases hv : ac.visit base (ac.ancestry.length + 1) signed.Precommit.TargetHash with
      | none => simp [hv] at h
      | some r =>
        cases r with
        | error e => simp [hv] at h
        | ok path₀ =>
          simp only [hv] at h
          cases hr : ac.visitedHashes base rest with
          | none => simp [hr] at h
          | some r' =>
            cases r' with
            | error e => simp [hr] at h
            | ok more =>
              simp only [hr, Option.some.injEq, Except.ok.injEq] at h
              obtain ⟨h1, h2⟩ := ih more hr
              have hp₀ := (visit_iff_reaches ac base _ path₀).1 hv
              refine ⟨fun s hs hne => ?_, fun x => ?_⟩
              · simp only [List.mem_cons] at hs
                rcases hs with hs | hs
                · rw [hs]
                  exact ⟨path₀, hp₀⟩
                · exact h1 s hs hne
              · rw [← h, List.mem_append, h2 x]
                constructor
                · rintro (hx | ⟨s, hs, hne, path, hp, hx⟩)
                  · exact ⟨signed, List.mem_cons_self _ _, hb, path₀, hp₀, hx⟩
                  · exact ⟨s, List.mem_cons_of_mem _ hs, hne, path, hp, hx⟩
                · rintro ⟨s, hs, hne, path, hp, hx⟩
                  simp only [List.mem_cons] at hs
                  rcases hs with hs | hs
                  · left
                    rw [hs] at hp
                    rw [reaches_functional ac base _ path₀ hp₀ path hp]
                    exact hx
                  · exact Or.inr ⟨s, hs, hne, path, hp, hx⟩

theorem visitedHashes_of_linked (ac : ancestryChain) (base : Hash) :
    ∀ (precommits : List SignedPrecommit),
      (∀ signed ∈ precommits, signed.Precommit.TargetHash ≠ base →
        ∃ path, ac.Reaches base signed.Precommit.TargetHash path) →
      ∃ visited, ac.visitedHashes base precommits = some (.ok visited) := by
  intro precommits
  induction precommits with
  | nil =>
    intro _
    exact ⟨[], rfl⟩
  | cons signed rest ih =>
    intro hall
    obtain ⟨more, hmore⟩ := ih (fun s hs hne => hall s (List.mem_cons_of_mem _ hs) hne)
    simp only [visitedHashes]
    by_cases hb : signed.Precommit.TargetHash = base
    · simp only [hb, ↓reduceIte]
      exact ⟨more, hmore⟩
    · obtain ⟨path, hp⟩ := hall signed (List.mem_cons_self _ _) hb
      simp only [hb, ↓reduceIte, (visit_iff_reaches ac base _ path).2 hp, hmore]
      exact ⟨_, rfl⟩

theorem visitedHashes_total (ac : ancestryChain) (base : Hash) (hac : ac.Acyclic) :
    ∀ (precommits : List SignedPrecommit), ∃ r, ac.visitedHashes base precommits = some r := by
  intro precommits
  induction precommits with
  | nil => exact ⟨_, rfl⟩
  | cons signed rest ih =>
    obtain ⟨r, hr⟩ := ih
    simp only [visitedHashes]
    by_cases hb : signed.Precommit.TargetHash = base
    · simp only [hb, ↓reduceIte]
      exact ⟨r, hr⟩
    · obtain ⟨r₀, hr₀⟩ := visit_total ac base signed.Precommit.TargetHash hac
      simp only [hb, ↓reduceIte, hr₀, hr]
      cases r₀ with
      | error e => exact ⟨_, rfl⟩
      | ok path =>
        cases r with
        | error e => exact ⟨_, rfl⟩
        | ok more => exact ⟨_, rfl⟩

end ancestryChain

namespace GrandpaJustification

theorem verifyWithVoterSet_cases (x : GrandpaExternals) (j : GrandpaJustification)
    (setID : Nat) (voters : AuthorityList) (r : Except JustificationError Unit)
    (h : j.verifyWithVoterSet x setID voters = some r) :
    r = .ok () ∨ ∃ reason, r = .error (.errBadJustification reason) := by
  unfold verifyWithVoterSet at h
  split at h
  · simp only [Option.some.injEq] at h
    exact Or.inr ⟨_, h.symm⟩
  · split at h
    · simp at h
    · simp only [Option.some.injEq] at h
      exact Or.inr ⟨_, h.symm⟩
    · split at h
      · simp only [Option.some.injEq] at h
        exact Or.inl h.symm
      · simp only [Option.some.injEq] at h
        exact Or.inr ⟨_, h.symm⟩

theorem verifyWithVoterSet_total (x : GrandpaExternals) (j : GrandpaJustification)
    (setID : Nat) (voters : AuthorityList)
    (hac : (newAncestryChain x.headerHash j.VoteAncestries).Acyclic) :
    ∃ r, j.verifyWithVoterSet x setID voters = some r := by
  unfold verifyWithVoterSet
  split
  · exact ⟨_, rfl⟩
  · obtain ⟨r, hr⟩ := ancestryChain.visitedHashes_total _ j.Commit.TargetHash hac
      j.Commit.Precommits
    rw [hr]
    cases r with
    | error e => exact ⟨_, rfl⟩
    | ok visited =>
      dsimp only
      split
      · exact ⟨_, rfl⟩
      · exact ⟨_, rfl⟩

theorem verifyWithVoterSet_ok_iff (x : GrandpaExternals) (j : GrandpaJustification)
    (setID : Nat) (voters : AuthorityList)
    (hvalid : threshold voters ≤ j.validWeight x setID voters) :
    j.verifyWithVoterSet x setID voters = some (.ok ()) ↔
      (∀ signed ∈ j.Commit.Precommits, signed.Precommit.TargetHash ≠ j.Commit.TargetHash →
        ∃ path, (newAncestryChain x.headerHash j.VoteAncestries).Reaches j.Commit.TargetHash
          signed.Precommit.TargetHash path) ∧
      ∀ h, h ∈ j.VoteAncestries.map x.headerHash ↔
        (newAncestryChain x.headerHash j.VoteAncestries).Visited j.Commit.TargetHash
          j.Commit.Precommits h := by
  have hnot : ¬ j.validWeight x setID voters < threshold voters := by omega
  unfold verifyWithVoterSet
  rw [if_neg hnot]
  constructor
  · intro h
    cases hv : (newAncestryChain x.headerHash j.VoteAncestries).visitedHashes
        j.Commit.TargetHash j.Commit.Precommits with
    | none => simp [hv] at h
    | some r =>
      cases r with
      | error e => simp [hv] at h
      | ok visited =>
        simp only [hv] at h
        obtain ⟨h1, h2⟩ := ancestryChain.visitedHashes_ok _ _ _ visited hv
        split at h
        · rename_i hc
          simp only [List.all_eq_true, decide_eq_true_eq] at hc
          refine ⟨h1, fun y => ?_⟩
          rw [← h2 y]
          exact ⟨fun hy => hc.1 y hy, fun hy => hc.2 y hy⟩
        · simp at h
  · rintro ⟨hlinked, hset⟩
    obtain ⟨visited, hv⟩ := ancestryChain.visitedHashes_of_linked _ _ _ hlinked
    obtain ⟨_, h2⟩ := ancestryChain.visitedHashes_ok _ _ _ visited hv
    simp only [hv]
    rw [if_pos]
    simp only [List.all_eq_true, decide_eq_true_eq]
    exact ⟨fun y hy => (h2 y).2 ((hset y).1 hy), fun y hy => (hset y).2 ((h2 y).1 hy)⟩

theorem verifyWithVoterSet_fails (x : GrandpaExternals) (j : GrandpaJustification)
    (setID : Nat) (voters : AuthorityList)
    (hne : j.verifyWithVoterSet x setID voters ≠ some (.ok ()))
    (hac : (newAncestryChain x.headerHash j.VoteAncestries).Acyclic) :
    ∃ reason, j.verifyWithVoterSet x setID voters
      = some (.error (.errBadJustification reason)) := by
  obtain ⟨r, hr⟩ := verifyWithVoterSet_total x j setID voters hac
  rcases verifyWithVoterSet_cases x j setID voters r hr with h | ⟨reason, h⟩
  · rw [h] at hr
    exact absurd hr hne
  · exact ⟨reason, by rw [hr, h]⟩

end GrandpaJustification

/-- C34: for every voter set and every justification, if the total weight
of the distinct voters with a precommit whose signature verifies over the
localized payload (precommit, round, set id) is below
floor(2 * total weight / 3) + 1, `verifyWithVoterSet` fails with
`errBadJustification` (invalid commit), and so does the verification against
any expected target; a commit with no precommits has valid weight 0 and is
always rejected. -/
theorem insufficient_weight_is_bad_justification (x : GrandpaExternals)
    (j : GrandpaJustification) (setID : Nat) (voters : AuthorityList) :
    (j.validWeight x setID voters < 2 * (voters.map Prod.snd).sum / 3 + 1 →
      j.verifyWithVoterSet x setID voters
        = some (.error (.errBadJustification .InvalidCommit)) ∧
      ∀ expectedHash expectedNumber, ∃ reason,
        j.verifyFinalizes x expectedHash expectedNumber setID voters
          = some (.error (.errBadJustification reason))) ∧
    (j.Commit.Precommits = [] →
      j.validWeight x setID voters = 0 ∧
      j.verifyWithVoterSet x setID voters
        = some (.error (.errBadJustification .InvalidCommit))) := by
  have hmain : j.validWeight x setID voters < threshold voters →
      j.verifyWithVoterSet x setID voters
        = some (.error (.errBadJustification .InvalidCommit)) := by
    intro h
    unfold GrandpaJustification.verifyWithVoterSet
    rw [if_pos h]
  refine ⟨fun h => ⟨hmain h, fun expectedHash expectedNumber => ?_⟩, fun hempty => ?_⟩
  · unfold GrandpaJustification.verifyFinalizes
    split
    · exact ⟨_, hmain h⟩
    · exact ⟨_, rfl⟩
  · have hz : j.validWeight x setID voters = 0 := by
      unfold GrandpaJustification.validWeight
      rw [hempty]
      rfl
    refine ⟨hz, hmain ?_⟩
    rw [hz]
    exact threshold_pos voters

/-- An instance of C34: with the four voters of weight 1 the threshold is 3;
the precommits of two of them do not make a valid commit, and neither does a
third precommit whose signature is for another set id. -/
theorem insufficient_weight_is_bad_justification_witness :
    GrandpaJustification.validWeight sampleGrandpaExternals
      { Round := 1
        Commit := { TargetHash := [1], TargetNumber := 1
                    Precommits := [makePrecommit 1 1 2 [1], makePrecommit 1 1 2 [2],
                      makePrecommit 1 1 2 [2], makePrecommit 1 1 3 [3]] }
        VoteAncestries := [] } 2 testVoters = 2 ∧
    GrandpaJustification.verifyWithVoterSet sampleGrandpaExternals
      { Round := 1
        Commit := { TargetHash := [1], TargetNumber := 1
                    Precommits := [makePrecommit 1 1 2 [1], makePrecommit 1 1 2 [2],
                      makePrecommit 1 1 2 [2], makePrecommit 1 1 3 [3]] }
        VoteAncestries := [] } 2 testVoters
      = some (.error (.errBadJustification .InvalidCommit)) :=
  ⟨by decide,
    ((insufficient_weight_is_bad_justification sampleGrandpaExternals
      { Round := 1
        Commit := { TargetHash := [1], TargetNumber := 1
                    Precommits := [makePrecommit 1 1 2 [1], makePrecommit 1 1 2 [2],
                      makePrecommit 1 1 2 [2], makePrecommit 1 1 3 [3]] }
        VoteAncestries := [] } 2 testVoters).1 (by decide)).1⟩

/-- C35: for every justification with a valid commit, `verifyWithVoterSet`
succeeds exactly when every precommit target other than the commit target
is linked back to the commit target through the headers of
`vote_ancestries` and the set of header hashes of `vote_ancestries` equals
the set of hashes visited on these walks.  So a header of `vote_ancestries`
that is not visited, or a precommit target that cannot be linked back to
the commit target, makes verification not succeed; and it then fails with
`errBadJustification` when the chain has no cycle of parent links (where a
walk would not end). -/
theorem ancestries_equal_visited (x : GrandpaExternals) (j : GrandpaJustification)
    (setID : Nat) (voters : AuthorityList)
    (hvalid : 2 * (voters.map Prod.snd).sum / 3 + 1 ≤ j.validWeight x setID voters) :
    (j.verifyWithVoterSet x setID voters = some (.ok ()) ↔
      (∀ signed ∈ j.Commit.Precommits, signed.Precommit.TargetHash ≠ j.Commit.TargetHash →
        ∃ path, (newAncestryChain x.headerHash j.VoteAncestries).Reaches j.Commit.TargetHash
          signed.Precommit.TargetHash path) ∧
      ∀ h, h ∈ j.VoteAncestries.map x.headerHash ↔
        (newAncestryChain x.headerHash j.VoteAncestries).Visited j.Commit.TargetHash
          j.Commit.Precommits h) ∧
    (∀ header ∈ j.VoteAncestries,
      ¬ (newAncestryChain x.headerHash j.VoteAncestries).Visited j.Commit.TargetHash
          j.Commit.Precommits (x.headerHash header) →
      j.verifyWithVoterSet x setID voters ≠ some (.ok ()) ∧
      ((newAncestryChain x.headerHash j.VoteAncestries).Acyclic →
        ∃ reason, j.verifyWithVoterSet x setID voters
          = some (.error (.errBadJustification reason)))) ∧
    (∀ signed ∈ j.Commit.Precommits, signed.Precommit.TargetHash ≠ j.Commit.TargetHash →
      (¬ ∃ path, (newAncestryChain x.headerHash j.VoteAncestries).Reaches j.Commit.TargetHash
          signed.Precommit.TargetHash path) →
      j.verifyWithVoterSet x setID voters ≠ some (.ok ()) ∧
      ((newAncestryChain x.headerHash j.VoteAncestries).Acyclic →
        ∃ reason, j.verifyWithVoterSet x setID voters
          = some (.error (.errBadJustification reason)))) := by
  have hiff := GrandpaJustification.verifyWithVoterSet_ok_iff x j setID voters hvalid
  refine ⟨hiff, fun header hmem hnot => ?_, fun signed hs hne hno => ?_⟩
  · have hfail : j.verifyWithVoterSet x setID voters ≠ some (.ok ()) := by
      intro hok
      exact hnot (((hiff.1 hok).2 (x.headerHash header)).1 (List.mem_map_of_mem _ hmem))
    exact ⟨hfail, GrandpaJustification.verifyWithVoterSet_fails x j setID voters hfail⟩
  · have hfail : j.verifyWithVoterSet x setID voters ≠ some (.ok ()) := by
      intro hok
      exact hno ((hiff.1 hok).1 signed hs hne)
    exact ⟨hfail, GrandpaJustification.verifyWithVoterSet_fails x j setID voters hfail⟩

/-- An instance of C35, the cases of `TestJustification_verifyWithVoterSet`:
the commit of block 1 with the precommits of three of the four voters is
valid; with the header 2 as vote ancestries verification succeeds, and the
hashes of the vote ancestries are the visited ones; with the headers 1 and 2
the header 1 is not visited, and verification fails. -/
theorem ancestries_equal_visited_witness :
    2 * (testVoters.map Prod.snd).sum / 3 + 1
      ≤ (testJustification [testHeader 2]).validWeight sampleGrandpaExternals 2 testVoters ∧
    (testJustification [testHeader 2]).verifyWithVoterSet
        sampleGrandpaExternals 2 testVoters = some (.ok ()) ∧
    (∀ h, h ∈ (testJustification [testHeader 2]).VoteAncestries.map
          sampleGrandpaExternals.headerHash ↔
        (newAncestryChain sampleGrandpaExternals.headerHash
          (testJustification [testHeader 2]).VoteAncestries).Visited
            (testJustification [testHeader 2]).Commit.TargetHash
            (testJustification [testHeader 2]).Commit.Precommits h) ∧
    (testJustification [testHeader 1, testHeader 2]).verifyWithVoterSet
        sampleGrandpaExternals 2 testVoters
      = some (.error (.errBadJustification .InvalidPrecommitAncestries)) :=
  ⟨by decide, by decide,
    ((ancestries_equal_visited sampleGrandpaExternals (testJustification [testHeader 2]) 2
      testVoters (by decide)).1.1 (by decide)).2,
    by decide⟩

/-! ## What `NextKey` returns with a transaction open -/

theorem mem_mapKeys_mapDel {β : Type} (k x : Key) (m : List (Key × β)) :
    x ∈ mapKeys (mapDel k m) ↔ x ∈ mapKeys m ∧ x ≠ k := by
  simp only [mapKeys, mapDel, List.mem_map, List.mem_filter, decide_eq_true_eq]
  constructor
  · rintro ⟨e, ⟨he, hne⟩, rfl⟩
    exact ⟨⟨e, he, rfl⟩, hne⟩
  · rintro ⟨⟨e, he, rfl⟩, hne⟩
    exact ⟨e, ⟨he, hne⟩, rfl⟩

theorem mapGet_of_mem_mapKeys {β : Type} (x : Key) (m : List (Key × β))
    (h : x ∈ mapKeys m) : ∃ v, mapGet x m = some v := by
  induction m with
  | nil => simp [mapKeys] at h
  | cons e rest ih =>
    obtain ⟨a, b⟩ := e
    simp only [mapKeys, List.map_cons, List.mem_cons] at h
    by_cases hx : x = a
    · exact ⟨b, by simp [mapGet, hx]⟩
    · rcases h with h | h
      · exact absurd h hx
      · obtain ⟨v, hv⟩ := ih h
        exact ⟨v, by simp [mapGet, hx, hv]⟩

theorem keysUnion_new : KeysUnion newStorageDiff := by
  intro key
  simp [newStorageDiff, mapKeys]

theorem keysUnion_upsert (d : storageDiff) (k : Key) (v : Value) (h : KeysUnion d) :
    KeysUnion (d.upsert k v) := by
  intro key
  simp only [storageDiff.upsert, childDiff.upsert, mem_setAdd, mem_mapKeys_mapPut, mem_setDel,
    h key]
  by_cases hk : key = k <;> simp [hk]

theorem keysUnion_delete (d : storageDiff) (k : Key) (h : KeysUnion d) :
    KeysUnion (d.delete k) := by
  intro key
  simp only [storageDiff.delete, childDiff.delete, mem_setAdd, mem_mapKeys_mapDel, h key]
  by_cases hk : key = k <;> simp [hk]

theorem keysUnion_foldl_delete (ks : List Key) (d : storageDiff) (h : KeysUnion d) :
    KeysUnion (ks.foldl (fun d k => d.delete k) d) := by
  induction ks generalizing d with
  | nil => exact h
  | cons k rest ih => exact ih _ (keysUnion_delete d k h)

theorem Mutation.onTop_keysUnion (m : Mutation) (tr : Trie) (d : storageDiff)
    (h : KeysUnion d) : KeysUnion (m.onTop tr d) := by
  cases m with
  | put k v => exact keysUnion_upsert d k v h
  | delete k => exact keysUnion_delete d k h
  | clearPrefix p => exact keysUnion_foldl_delete _ d h
  | clearPrefixLimit p n => exact keysUnion_foldl_delete _ d h
  | setChildStorage c k v => exact h
  | deleteChild c => exact keysUnion_delete d c h
  | clearChildStorage c k => exact h

/-- Every call keeps the `sortedKeys` of all open transactions equal to the
keys they upsert and delete. -/
theorem Call.step_keysUnion (c : Call) (t t' : TrieState) (h : KeysUnionInv t)
    (hs : c.step t = .ok t') : KeysUnionInv t' := by
  obtain ⟨tr, txs⟩ := t
  cases c with
  | mutate m =>
    cases txs with
    | nil =>
      simp only [Call.step, Except.ok.injEq] at hs
      rw [← hs, show (⟨tr, []⟩ : TrieState) = TrieState.NewTrieState tr from rfl,
        Mutation.apply_closed]
      intro d hd
      simp [TrieState.NewTrieState] at hd
    | cons d rest =>
      simp only [Call.step, Mutation.apply_open, Except.ok.injEq] at hs
      subst hs
      intro d' hd'
      simp only [List.mem_cons] at hd'
      rcases hd' with rfl | hd'
      · exact Mutation.onTop_keysUnion m tr d (h d (List.mem_cons_self _ _))
      · exact h d' (List.mem_cons_of_mem _ hd')
  | start =>
    simp only [Call.step, Except.ok.injEq] at hs
    subst hs
    cases txs with
    | nil =>
      intro d hd
      simp only [TrieState.StartTransaction, TrieState.getCurrentTransaction, List.head?,
        List.mem_singleton] at hd
      subst hd
      exact keysUnion_new
    | cons d rest =>
      intro d' hd'
      simp only [TrieState.StartTransaction, TrieState.getCurrentTransaction, List.head?,
        storageDiff.snapshot, List.mem_cons] at hd'
      rcases hd' with rfl | hd'
      · exact h d' (List.mem_cons_self _ _)
      · exact h d' (List.mem_cons.2 hd')
  | commit =>
    cases txs with
    | nil => simp [Call.step, TrieState.CommitTransaction] at hs
    | cons d rest =>
      cases rest with
      | nil =>
        simp only [Call.step, TrieState.CommitTransaction, Except.ok.injEq] at hs
        subst hs
        intro d' hd'
        simp at hd'
      | cons d2 rest2 =>
        simp only [Call.step, TrieState.CommitTransaction, Except.ok.injEq] at hs
        subst hs
        intro d' hd'
        simp only [List.mem_cons] at hd'
        rcases hd' with rfl | hd'
        · exact h d' (List.mem_cons_self _ _)
        · exact h d' (List.mem_cons_of_mem _ (List.mem_cons_of_mem _ hd'))
  | rollback =>
    cases txs with
    | nil => simp [Call.step, TrieState.RollbackTransaction] at hs
    | cons d rest =>
      simp only [Call.step, TrieState.RollbackTransaction, Except.ok.injEq] at hs
      subst hs
      intro d' hd'
      exact h d' (List.mem_cons_of_mem _ hd')

/-- In every state reached from a fresh `TrieState` by any sequence of calls,
the `sortedKeys` of each open transaction are the keys it upserts and deletes. -/
theorem run_keysUnion (cs : List Call) (t t' : TrieState) (h : KeysUnionInv t)
    (hs : run cs t = .ok t') : KeysUnionInv t' := by
  induction cs generalizing t with
  | nil =>
    simp only [run, Except.ok.injEq] at hs
    exact hs ▸ h
  | cons c rest ih =>
    simp only [run] at hs
    cases hc : c.step t with
    | error p => rw [hc] at hs; exact Except.noConfusion hs
    | ok t₁ =>
      rw [hc] at hs
      exact ih t₁ (Call.step_keysUnion c t t₁ h hc) hs

theorem NextKey_open_eq (tr : Trie) (tx : storageDiff) (rest : List storageDiff) (k : Key)
    (hs : tx.sortedKeys.Sorted (· < ·)) :
    TrieState.NextKey { state := tr, transactions := tx :: rest } k
      = smallerOf (firstAbove tx.sortedKeys k) (firstLiveOnState tr tx.deletes k) := by
  simp only [TrieState.NextKey, TrieState.getCurrentTransaction, List.head?,
    nextSortedKey_eq_firstAbove _ _ hs, mergeNextKey_eq_smallerOf, Trie.KeysFrom,
    List.find?_filter, firstLiveOnState]
  congr 2
  funext a
  by_cases h1 : k < a <;> by_cases h2 : a ∈ tx.deletes <;> simp [h1, h2]

theorem smallerOf_some (a b : Option Key) (c : Key) (h : smallerOf a b = some c) :
    a = some c ∨ b = some c := by
  cases a with
  | none => exact Or.inr (by simpa [smallerOf] using h)
  | some x =>
    cases b with
    | none => exact Or.inl (by simpa [smallerOf] using h)
    | some y =>
      simp only [smallerOf, Option.some.injEq] at h
      rcases min_choice x y with hm | hm
      · exact Or.inl (by rw [← h, hm])
      · exact Or.inr (by rw [← h, hm])

/-- C39, amended: with a transaction open (its `sortedKeys` in strictly
ascending order and listing the keys it upserts and the keys it deletes),
if `NextKey(k)` returns `k'` then `k'` is strictly greater than `k`, and
`k'` is an entry of the innermost diff's `sortedKeys` or a key of the
underlying trie that is not in its deletes.  A returned key can so be in the
deletes of the innermost diff, as an entry of its `sortedKeys`; a returned
key that is not in the deletes is upserted by the innermost diff or held by
the trie, and `Get(k')` is non-nil when no nil value is upserted or held. -/
theorem nextKey_returns_mutated_or_live (tr : Trie) (tx : storageDiff)
    (rest : List storageDiff) (k k' : Key) (hs : tx.sortedKeys.Sorted (· < ·))
    (hkeys : KeysUnion tx)
    (h : TrieState.NextKey { state := tr, transactions := tx :: rest } k = some k') :
    k < k' ∧
    (k' ∈ tx.sortedKeys ∨ (k' ∈ mapKeys tr.entries ∧ k' ∉ tx.deletes)) ∧
    (k' ∈ tx.deletes → k' ∈ tx.sortedKeys) ∧
    (k' ∉ tx.deletes →
      (k' ∈ mapKeys tx.upserts ∨ k' ∈ mapKeys tr.entries) ∧
      ((∀ e ∈ tx.upserts, e.2 ≠ none) → (∀ e ∈ tr.entries, e.2 ≠ none) →
        TrieState.Get { state := tr, transactions := tx :: rest } k' ≠ none)) := by
  rw [NextKey_open_eq tr tx rest k hs] at h
  have hcases : (k < k' ∧ k' ∈ tx.sortedKeys) ∨
      (k < k' ∧ k' ∈ mapKeys tr.entries ∧ k' ∉ tx.deletes) := by
    rcases smallerOf_some _ _ _ h with h1 | h1
    · left
      have hp := List.find?_some h1
      exact ⟨by simpa using hp, List.mem_of_find?_eq_some h1⟩
    · right
      have hp := List.find?_some h1
      simp only [Bool.and_eq_true, decide_eq_true_eq] at hp
      exact ⟨hp.1, List.mem_of_find?_eq_some h1, hp.2⟩
  have hsrc : k' ∉ tx.deletes → k' ∈ mapKeys tx.upserts ∨ k' ∈ mapKeys tr.entries := by
    intro hnd
    rcases hcases with ⟨_, hm⟩ | ⟨_, hm, _⟩
    · rcases (hkeys k').1 hm with hu | hd
      · exact Or.inl hu
      · exact absurd hd hnd
    · exact Or.inr hm
  refine ⟨?_, ?_, ?_, fun hnd => ⟨hsrc hnd, fun hups htrie => ?_⟩⟩
  · rcases hcases with ⟨hlt, _⟩ | ⟨hlt, _⟩ <;> exact hlt
  · rcases hcases with ⟨_, hm⟩ | ⟨_, hm, hnd⟩
    · exact Or.inl hm
    · exact Or.inr ⟨hm, hnd⟩
  · intro hd
    rcases hcases with ⟨_, hm⟩ | ⟨_, _, hnd⟩
    · exact hm
    · exact absurd hd hnd
  · simp only [TrieState.Get, TrieState.getCurrentTransaction, List.head?, storageDiff.get,
      childDiff.get]
    cases hu : mapGet k' tx.upserts with
    | some v =>
      have hv : v ≠ none := hups (k', v) (mem_of_mapGet k' v tx.upserts hu)
      simp [hv]
    | none =>
      have hnu : k' ∉ mapKeys tx.upserts := by
        intro hmem
        obtain ⟨v, hv⟩ := mapGet_of_mem_mapKeys k' tx.upserts hmem
        rw [hu] at hv
        exact absurd hv (by simp)
      have hmem : k' ∈ mapKeys tr.entries := by
        rcases hsrc hnd with h1 | h1
        · exact absurd h1 hnu
        · exact h1
      obtain ⟨v, hv⟩ := mapGet_of_mem_mapKeys k' tr.entries hmem
      have hvn : v ≠ none := htrie (k', v) (mem_of_mapGet k' v tr.entries hv)
      simp [hnd, Trie.Get, hv, hvn]

/-- An instance of amended C39: over the trie holding `[1] ↦ [7]`, with
`[2] ↦ [5]` upserted in the open transaction, `NextKey([1])` is `[2]`, a key
above `[1]` for which `Get` is non-nil. -/
theorem nextKey_returns_mutated_or_live_witness :
    TrieState.NextKey sampleOpen2 [1] = some [2] ∧
    ([1] : Key) < [2] ∧
    ([2] : Key) ∉ (newStorageDiff.upsert [2] (some [5])).deletes ∧
    TrieState.Get sampleOpen2 [2] ≠ none :=
  have h := nextKey_returns_mutated_or_live sampleTrie (newStorageDiff.upsert [2] (some [5]))
    [newStorageDiff] [1] [2] (by decide)
    (keysUnion_upsert newStorageDiff [2] (some [5]) keysUnion_new) (by decide)
  ⟨by decide, h.1, by decide, (h.2.2.2 (by decide)).2 (by decide) (by decide)⟩

end Gossamer
